import Mathlib

/-! The dynarec block cache of box86 (`src/dynarec/dynablock.c`).

A shallow embedding of the block directory, the link marks and the lookup of
`dynablock.c`, and theorems about them.

Conventions of the embedding:

* box86 is a 32-bit program: `uintptr_t`, `khint_t` and pointers are 32-bit
  words.  Words are natural numbers, and every `uintptr_t` operation of the
  source whose result can leave the range is reduced modulo `2^32`
  (`add32`, `sub32`).
* Pointers to blocks and to regions are natural numbers, `0` is `NULL`.  The
  heap maps a pointer to the record stored there, `none` when nothing is
  allocated at that address.
* A function of the source that dereferences a pointer to nothing, or indexes
  the direct array outside its allocation, has no defined result: its
  embedding returns `none`.
* The locks guard concurrent callers; the embedding of a function is of one
  thread, and the lock and unlock calls have no effect on the state.  A run of
  several threads (`runThreads`) interleaves the steps a thread makes between
  two points where it holds no lock; the section under the write lock is one
  step.
* `calloc` succeeds and returns the next free address.
-/

namespace Dynablock

/-! ## Machine words -/

/-- Number of values of a 32-bit word. -/
def W32 : Nat := 4294967296

/-- Addition of two 32-bit words. -/
def add32 (a b : Nat) : Nat := (a + b) % W32

/-- Subtraction of two 32-bit words. -/
def sub32 (a b : Nat) : Nat := (a % W32 + W32 - b % W32) % W32

/-- Left shift of a 32-bit word by five bits. -/
def shl5 (h : Nat) : Nat := (h * 32) % W32

/-- Guest memory: the byte stored at each address. -/
abbrev Mem := Nat → Nat

/-- Read of a `uint8_t` through a pointer. -/
def readByte (mem : Mem) (a : Nat) : Nat := mem a % 256

/-! ## X31_hash_code -/

/-- Body of the loop of `X31_hash_code`: `h = (h << 5) - h + (int32_t)*p`, on
the 32-bit representation of `h`. -/
def X31_step (h b : Nat) : Nat := add32 (sub32 (shl5 h) h) b

/-- The loop `for (...; len; --len, ++p)` of `X31_hash_code`: the first
argument is the value of `len` as a 32-bit word, `p` the pointer, `h` the
accumulator. -/
def X31_loop (mem : Mem) : Nat → Nat → Nat → Nat
  | 0, _, h => h
  | len + 1, p, h => X31_loop mem len (p + 1) (X31_step h (readByte mem p))

/-- Embedding of `uint32_t X31_hash_code(void* addr, int len)`:
`h = *p`, then `--len, ++p` and the loop; the result is `h` as an unsigned
word. -/
def X31_hash_code (mem : Mem) (addr : Nat) (len : Nat) : Nat :=
  X31_loop mem (sub32 len 1) (addr + 1) (readByte mem addr)

/-- The hash as the specification words it: start with `h = p[0]` and, for
`i = 1 .. n-1` in order, set `h = (h * 32 - h + p[i]) mod 2^32`. -/
def X31_spec (p : Nat → Nat) (n : Nat) : Nat :=
  (List.range' 1 (n - 1)).foldl (fun h i => (h * 32 - h + p i) % 2 ^ 32) (p 0)

/-- The hash as a polynomial in 31: the sum of `p[i] * 31^(n-1-i)`, modulo
`2^32`. -/
def X31_poly (p : Nat → Nat) (n : Nat) : Nat :=
  ((List.range n).map (fun i => p i * 31 ^ (n - 1 - i))).sum % 2 ^ 32

/-- The seven ASCII bytes of the string "dynarec", stored from address 0. -/
def dynarecBytes : Mem := fun a => [0x64, 0x79, 0x6E, 0x61, 0x72, 0x65, 0x63].getD a 0

/-! ## khash tables

Pointers to blocks and to regions are of type `Nat`, `0` being `NULL`. -/

/-- Modelled from the spec: `khash.h` is not part of the sources.  A table of
`KHASH_MAP_INIT_INT(dynablocks, dynablock_t*)` is a finite map from 32-bit keys
to block pointers; it is kept as the list of its entries in iteration order. -/
abbrev kh_dynablocks_t := List (Nat × Nat)

/-- Modelled from the spec: a table of `KHASH_SET_INIT_INT(mark)` is a finite
set of 32-bit keys; it is kept as the list of its keys in iteration order. -/
abbrev kh_mark_t := List Nat

/-- Modelled from the spec: `kh_get` on a map, `none` standing for `kh_end`. -/
def kh_get (h : kh_dynablocks_t) (key : Nat) : Option Nat :=
  match h with
  | [] => none
  | (k, v) :: rest => if k = key then some v else kh_get rest key

/-- Modelled from the spec: `kh_put` of an absent key followed by the
assignment `kh_value(h, k) = v`. -/
def kh_put_value (h : kh_dynablocks_t) (key : Nat) (v : Nat) : kh_dynablocks_t :=
  h ++ [(key, v)]

/-- Modelled from the spec: `kh_size`. -/
def kh_size (h : kh_dynablocks_t) : Nat := h.length

/-- Modelled from the spec: `kh_put` on a set of marks (a key already present
is not inserted again). -/
def kh_put_mark (m : kh_mark_t) (key : Nat) : kh_mark_t :=
  if key ∈ m then m else m ++ [key]

/-- Modelled from the spec: `kh_get` followed by `kh_del` when the key was
found, on a set of marks. -/
def kh_del_mark (m : kh_mark_t) (key : Nat) : kh_mark_t :=
  m.filter (fun k => k ≠ key)

/-! ## Blocks, regions, program state -/

/-- Modelled from the spec: `dynablock_private.h` is not part of the sources;
the fields are those `dynablock.c` reads and writes.  `sons` stands for the
array `sons` with its length `sons_size`; `marks` is the khash set the block
owns, `none` for a `NULL` pointer; `table` is the address of the link table. -/
structure dynablock_t where
  parent : Nat := 0
  block : Nat := 0
  size : Nat := 0
  x86_addr : Nat := 0
  x86_size : Nat := 0
  hash : Nat := 0
  table : Nat := 0
  tablesz : Nat := 0
  marks : Option kh_mark_t := none
  sons : List Nat := []
  father : Nat := 0
  need_test : Nat := 0
  deriving DecidableEq

/-- Modelled from the spec: `dynablock_private.h` is not part of the sources;
the fields are those `dynablock.c` reads and writes.  `direct` is `none` for a
`NULL` pointer, else the array of `textsz` block pointers, given by the value
of each slot. -/
structure dynablocklist_t where
  text : Nat
  textsz : Nat
  base : Nat
  nolinker : Nat
  blocks : kh_dynablocks_t
  direct : Option (Nat → Nat)

/-- Calls of the external collaborators and of the allocator, as they are
made. -/
inductive Event where
  | resettable (slot : Nat)
  | FillBlock (block : Nat) (addr : Nat)
  | FreeDynarecMap (addr : Nat) (size : Nat)
  | free (p : Nat)
  | calloc (p : Nat)
  deriving DecidableEq

/-- The program state the functions of `dynablock.c` act on. -/
structure State where
  /-- Heap of regions. -/
  lists : Nat → Option dynablocklist_t
  /-- Heap of blocks. -/
  dbs : Nat → Option dynablock_t
  /-- Next address the allocator hands out. -/
  brk : Nat
  /-- Host memory words: the link tables (`table[i]` is at `table + 4 * i`). -/
  words : Nat → Nat
  /-- Guest memory. -/
  mem : Mem
  /-- External calls made so far. -/
  trace : List Event

/-- The external collaborators of `dynablock.c`. -/
structure Extern where
  /-- The region registry `GetDynablocksFromAddress(emu->context, addr)`; no
  function of `dynablock.c` changes the context. -/
  GetDynablocksFromAddress : Nat → Nat
  /-- The code generator `FillBlock(emu, block, addr)`. -/
  FillBlock : State → Nat → Nat → State
  /-- The effect of `resettable(slot)` on the host memory words. -/
  resettable : (Nat → Nat) → Nat → (Nat → Nat)

/-- Dereference of a block pointer. -/
def State.db (s : State) (p : Nat) : Option dynablock_t :=
  if p = 0 then none else s.dbs p

/-- Dereference of a region pointer. -/
def State.list (s : State) (p : Nat) : Option dynablocklist_t :=
  if p = 0 then none else s.lists p

/-- Store of a block record. -/
def State.setDb (s : State) (p : Nat) (b : dynablock_t) : State :=
  { s with dbs := Function.update s.dbs p (some b) }

/-- Store of a region record. -/
def State.setList (s : State) (p : Nat) (l : dynablocklist_t) : State :=
  { s with lists := Function.update s.lists p (some l) }

/-- Append of an event to the trace. -/
def State.log (s : State) (e : Event) : State :=
  { s with trace := s.trace ++ [e] }

/-- Read of `direct[i]` in an array of `textsz` slots; out of the allocation
there is no defined result. -/
def readDirect (textsz : Nat) (d : Nat → Nat) (i : Nat) : Option Nat :=
  if i < textsz then some (d i) else none

/-- Write of `direct[i] = v` in an array of `textsz` slots; out of the
allocation there is no defined result. -/
def writeDirect (textsz : Nat) (d : Nat → Nat) (i : Nat) (v : Nat) : Option (Nat → Nat) :=
  if i < textsz then some (Function.update d i v) else none

/-- The test `addr >= text && addr < text + textsz` of the read paths. -/
def inWindow (l : dynablocklist_t) (addr : Nat) : Bool :=
  decide (l.text ≤ addr) && decide (addr < add32 l.text l.textsz)

/-! ## NewDynablockList -/

/-- Embedding of `NewDynablockList(base, text, textsz, nolinker, direct)`: a
region with an empty hash, and a zeroed direct array when `direct && textsz`. -/
def NewDynablockList (s : State) (base text textsz nolinker direct : Nat) : State × Nat :=
  let ret := s.brk
  let l : dynablocklist_t :=
    { text := text, textsz := textsz, base := base, nolinker := nolinker, blocks := [],
      direct := if direct ≠ 0 ∧ textsz ≠ 0 then some (fun _ => 0) else none }
  (({ s with brk := s.brk + 1 }.setList ret l).log (Event.calloc ret), ret)

/-! ## FreeDynablock -/

/-- The loop `kh_foreach(db->marks, k, s, resettable((void**)k))`. -/
def resetMarks (ext : Extern) (s : State) (m : kh_mark_t) : State :=
  m.foldl (fun s k => { s with words := ext.resettable s.words k }.log (Event.resettable k)) s

/-- The loop `for (i = 0; i < db->tablesz; i += 4)` of `FreeDynablock`, with
`n` slots left from index `i`: the slot at `table + i` is withdrawn from the
marks of the block its word 3 names. -/
def FreeDynablock_table (table : Nat) : Nat → Nat → State → Option State
  | 0, _, s => some s
  | n + 1, i, s =>
    let c := s.words (table + 4 * (i + 3))
    if c ≠ 0 then
      match s.db c with
      | none => none
      | some p =>
        match p.marks with
        | some m =>
          FreeDynablock_table table n (i + 4)
            (s.setDb c { p with marks := some (kh_del_mark m (table + 4 * i)) })
        | none => FreeDynablock_table table n (i + 4) s
    else FreeDynablock_table table n (i + 4) s

/-- The loop over `db->sons` of `FreeDynablock`: the direct slot of each son
whose `x86_addr` satisfies `addr >= startdb && addr <= enddb` is cleared. -/
def FreeDynablock_sons (parent : Nat) : List Nat → State → Option State
  | [], s => some s
  | son :: rest, s =>
    if son ≠ 0 then
      match s.db son, s.list parent with
      | some sn, some l =>
        let startdb := l.text
        let enddb := add32 l.text l.textsz
        let addr := sn.x86_addr
        if startdb ≤ addr ∧ addr ≤ enddb then
          match l.direct with
          | none => none
          | some d =>
            match writeDirect l.textsz d (addr - startdb) 0 with
            | none => none
            | some d1 =>
              FreeDynablock_sons parent rest (s.setList parent { l with direct := some d1 })
        else FreeDynablock_sons parent rest s
      | _, _ => none
    else FreeDynablock_sons parent rest s

/-- The stage of `FreeDynablock` on the marks of the block: `if (db->marks)`
they are followed with `resettable` (and the set is destroyed with the
block). -/
def FreeDynablock_marks (ext : Extern) (s : State) (b : dynablock_t) : State :=
  match b.marks with
  | some m => resetMarks ext s m
  | none => s

/-- The stage of `FreeDynablock` on the sons of the block:
`if (db->sons_size && db->parent->direct)` the loop over the sons runs. -/
def FreeDynablock_purge (s : State) (b : dynablock_t) : Option State :=
  if b.sons.length ≠ 0 then
    match s.list b.parent with
    | none => none
    | some l => if l.direct.isSome then FreeDynablock_sons b.parent b.sons s else some s
  else some s

/-- Embedding of `FreeDynablock(db, nolinker)`.  The marks of `db` are followed
with `resettable`; each outgoing slot is withdrawn from the marks of its
callee; the sons are purged from the direct array of the parent; the host
code, the table and the block are released. -/
def FreeDynablock (ext : Extern) (s : State) (db : Nat) (_nolinker : Nat) : Option State :=
  if db = 0 then some s else
  match s.db db with
  | none => none
  | some b =>
    match FreeDynablock_table b.table ((b.tablesz + 3) / 4) 0 (FreeDynablock_marks ext s b) with
    | none => none
    | some s2 =>
      match FreeDynablock_purge s2 b with
      | none => none
      | some s3 =>
        let s4 := (s3.log (Event.FreeDynarecMap b.block b.size)).log (Event.free b.table)
        some ({ s4 with dbs := Function.update s4.dbs db none }.log (Event.free db))

/-! ## MarkDynablock, AddMark -/

/-- Embedding of `MarkDynablock(db)`: the father is marked in place of a son;
when it has marks and is not yet marked, its marks are followed with
`resettable` and cleared; `need_test` is set. -/
def MarkDynablock (ext : Extern) (s : State) (db : Nat) : Option State :=
  if db = 0 then some s else
  match s.db db with
  | none => none
  | some b0 =>
    let db1 := if b0.father ≠ 0 then b0.father else db
    match s.db db1 with
    | none => none
    | some b =>
      match b.marks with
      | some m =>
        if b.need_test = 0 then
          some ((resetMarks ext s m).setDb db1 { b with marks := some [], need_test := 1 })
        else some (s.setDb db1 { b with need_test := 1 })
      | none => some (s.setDb db1 { b with need_test := 1 })

/-- The father-resolved block `p && p->father ? p->father : p` of a block
pointer, `NULL` for `NULL`. -/
def resolveFather (s : State) (p : Nat) : Option Nat :=
  if p = 0 then some 0
  else (s.db p).map (fun b => if b.father ≠ 0 then b.father else p)

/-- The stage "remove old value if any" of `AddMark`, `old` being the
father-resolved word 3 of the slot: `if (old && old->marks)` the key `table` is
deleted from `old->marks`. -/
def AddMark_remove (s : State) (old table : Nat) : Option State :=
  if old ≠ 0 then
    match s.db old with
    | none => none
    | some o =>
      match o.marks with
      | some m => some (s.setDb old { o with marks := some (kh_del_mark m table) })
      | none => some s
  else some s

/-- The stage "add mark if needed" of `AddMark`, `dest` being father-resolved:
`if (dest->marks)` the key `table` is put in `dest->marks`. -/
def AddMark_add (s : State) (dest table : Nat) : Option State :=
  match s.db dest with
  | none => none
  | some d =>
    match d.marks with
    | some m => some (s.setDb dest { d with marks := some (kh_put_mark m table) })
    | none => some s

/-- Embedding of `AddMark(source, dest, table)`: the slot at `table` is
withdrawn from the marks of the father-resolved block its word 3 named, added
to the marks of the father-resolved `dest` when it has marks, and word 3 is set
to the father-resolved `dest`. -/
def AddMark (s : State) (_source dest : Nat) (table : Nat) : Option State :=
  match resolveFather s (s.words (table + 4 * 3)) with
  | none => none
  | some old =>
    match AddMark_remove s old table with
    | none => none
    | some s1 =>
      match s1.db dest with
      | none => none
      | some d0 =>
        let dest1 := if d0.father ≠ 0 then d0.father else dest
        match AddMark_add s1 dest1 table with
        | none => none
        | some s2 => some { s2 with words := Function.update s2.words (table + 4 * 3) dest1 }

/-! ## FreeDirectDynablock, MarkDirectDynablock -/

/-- The loop `for (i = start; i < end; ++i)` of `FreeDirectDynablock`, with `n`
addresses left from `i`: a block in `direct[i - startdb]` is freed when it has
no father, and the slot is cleared. -/
def FreeDirectDynablock_loop (ext : Extern) (dynablocks : Nat) :
    Nat → Nat → State → Option State
  | 0, _, s => some s
  | n + 1, i, s =>
    match s.list dynablocks with
    | none => none
    | some l =>
      match l.direct with
      | none => none
      | some d =>
        match readDirect l.textsz d (i - l.text) with
        | none => none
        | some blk =>
          if blk ≠ 0 then
            match s.db blk with
            | none => none
            | some b =>
              let freed := if b.father = 0 then FreeDynablock ext s blk l.nolinker else some s
              match freed with
              | none => none
              | some s1 =>
                match s1.list dynablocks with
                | none => none
                | some l1 =>
                  match l1.direct with
                  | none => none
                  | some d1 =>
                    match writeDirect l1.textsz d1 (i - l1.text) 0 with
                    | none => none
                    | some d2 =>
                      FreeDirectDynablock_loop ext dynablocks n (i + 1)
                        (s1.setList dynablocks { l1 with direct := some d2 })
          else FreeDirectDynablock_loop ext dynablocks n (i + 1) s

/-- Embedding of `FreeDirectDynablock(dynablocks, addr, size)`: the range
`[addr, addr + size)` is clipped to `[text, text + textsz)` and the loop runs
over what is left. -/
def FreeDirectDynablock (ext : Extern) (s : State) (dynablocks : Nat) (addr size : Nat) :
    Option State :=
  if dynablocks = 0 then some s else
  match s.list dynablocks with
  | none => none
  | some l =>
    let startdb := l.text
    let enddb := add32 l.text l.textsz
    let start := if addr < startdb then startdb else addr
    let end0 := add32 addr size
    let end1 := if end0 > enddb then enddb else end0
    if end1 > startdb ∧ start < enddb then
      FreeDirectDynablock_loop ext dynablocks (end1 - start) start s
    else some s

/-- The loop `for (i = start; i < end; ++i)` of `MarkDirectDynablock`. -/
def MarkDirectDynablock_loop (ext : Extern) (dynablocks : Nat) :
    Nat → Nat → State → Option State
  | 0, _, s => some s
  | n + 1, i, s =>
    match s.list dynablocks with
    | none => none
    | some l =>
      match l.direct with
      | none => none
      | some d =>
        match readDirect l.textsz d (i - l.text) with
        | none => none
        | some blk =>
          if blk ≠ 0 then
            match MarkDynablock ext s blk with
            | none => none
            | some s1 => MarkDirectDynablock_loop ext dynablocks n (i + 1) s1
          else MarkDirectDynablock_loop ext dynablocks n (i + 1) s

/-- Embedding of `MarkDirectDynablock(dynablocks, addr, size)`. -/
def MarkDirectDynablock (ext : Extern) (s : State) (dynablocks : Nat) (addr size : Nat) :
    Option State :=
  if dynablocks = 0 then some s else
  match s.list dynablocks with
  | none => none
  | some l =>
    let startdb := l.text
    let enddb := add32 l.text l.textsz
    let start := if addr < startdb then startdb else addr
    let end0 := add32 addr size
    let end1 := if end0 > enddb then enddb else end0
    if end1 > startdb ∧ start < enddb then
      MarkDirectDynablock_loop ext dynablocks (end1 - start) start s
    else some s

/-! ## ConvertHash2Direct -/

/-- The loop `kh_foreach(dynablocks->blocks, key, db, ...)` of
`ConvertHash2Direct`: an entry whose key is in `[start, end)` goes to
`direct[key - start]`, any other goes to the new hash unless its key is
already there. -/
def ConvertHash2Direct_transfer (textsz start end1 : Nat) :
    kh_dynablocks_t → (Nat → Nat) → kh_dynablocks_t → Option ((Nat → Nat) × kh_dynablocks_t)
  | [], direct, blocks => some (direct, blocks)
  | (key, db) :: rest, direct, blocks =>
    if start ≤ key ∧ key < end1 then
      match writeDirect textsz direct (key - start) db with
      | none => none
      | some direct1 => ConvertHash2Direct_transfer textsz start end1 rest direct1 blocks
    else
      match kh_get blocks key with
      | some _ => ConvertHash2Direct_transfer textsz start end1 rest direct blocks
      | none =>
        ConvertHash2Direct_transfer textsz start end1 rest direct (kh_put_value blocks key db)

/-- Embedding of `ConvertHash2Direct(dynablocks)`. -/
def ConvertHash2Direct (s : State) (dynablocks : Nat) : Option State :=
  match s.list dynablocks with
  | none => none
  | some l =>
    if l.textsz = 0 ∨ l.text = 0 then some s else
    let start := sub32 l.text l.base
    let end1 := sub32 (add32 l.text l.textsz) l.base
    match ConvertHash2Direct_transfer l.textsz start end1 l.blocks (fun _ => 0) [] with
    | none => none
    | some (direct, blocks) =>
      some (s.setList dynablocks { l with blocks := blocks, direct := some direct })

/-! ## AddNewDynablock -/

/-- The direct probe of `AddNewDynablock` and `internalDBGetBlock`:
`direct[addr - text]` when the array exists and `addr` is in the window, else
`NULL`. -/
def probeDirect (l : dynablocklist_t) (addr : Nat) : Option Nat :=
  match l.direct with
  | some d => if inWindow l addr then readDirect l.textsz d (addr - l.text) else some 0
  | none => some 0

/-- The constant `MAGIC_SIZE`. -/
def MAGIC_SIZE : Nat := 256

/-- The allocation `calloc(1, sizeof(dynablock_t))`: a zeroed block at the next
free address. -/
def callocBlock (s : State) : State × Nat :=
  (({ s with brk := s.brk + 1 }.setDb s.brk {}).log (Event.calloc s.brk), s.brk)

/-- The assignment `block->parent = dynablocks`. -/
def setParent (s : State) (block dynablocks : Nat) : Option State :=
  match s.db block with
  | none => none
  | some b => some (s.setDb block { b with parent := dynablocks })

/-- The hash branch of `AddNewDynablock`: `kh_put` under the key `addr - base`;
a block already there is returned with `created = 0`; else a new block is
stored, and the hash is converted when the region has no direct array and the
hash holds `MAGIC_SIZE` entries. -/
def AddNewDynablock_hash (s : State) (dynablocks : Nat) (l : dynablocklist_t) (addr : Nat) :
    Option (State × Nat × Nat) :=
  let key := sub32 addr l.base
  match kh_get l.blocks key with
  | some block => some (s, block, 0)
  | none =>
    let (s1, block) := callocBlock s
    let blocks1 := kh_put_value l.blocks key block
    let s2 := s1.setList dynablocks { l with blocks := blocks1 }
    let conv :=
      if l.direct.isNone ∧ kh_size blocks1 = MAGIC_SIZE then ConvertHash2Direct s2 dynablocks
      else some s2
    match conv with
    | none => none
    | some s3 =>
      match setParent s3 block dynablocks with
      | none => none
      | some s4 => some (s4, block, 1)

/-- Embedding of `AddNewDynablock(dynablocks, addr, &created)`; the result is
the state, the returned block and the value stored in `*created`. -/
def AddNewDynablock (s : State) (dynablocks : Nat) (addr : Nat) : Option (State × Nat × Nat) :=
  match s.list dynablocks with
  | none => none
  | some l =>
    match probeDirect l addr with
    | none => none
    | some block0 =>
      if block0 ≠ 0 then some (s, block0, 0) else
      match l.direct with
      | some d =>
        if l.text ≤ addr ∧ addr ≤ add32 l.text l.textsz then
          let (s1, block) := callocBlock s
          match writeDirect l.textsz d (addr - l.text) block with
          | none => none
          | some d1 =>
            match setParent (s1.setList dynablocks { l with direct := some d1 }) block dynablocks with
            | none => none
            | some s2 => some (s2, block, 1)
        else AddNewDynablock_hash s dynablocks l addr
      | none => AddNewDynablock_hash s dynablocks l addr

/-! ## internalDBGetBlock, DBGetBlock -/

/-- The probes of `internalDBGetBlock` in the region `dynablocks`: the direct
slot when the array exists and `addr` is in the window, then the hash under the
key `addr - base`; `0` when neither holds a block. -/
def probe (s : State) (dynablocks : Nat) (addr : Nat) : Option Nat :=
  match s.list dynablocks with
  | none => none
  | some l =>
    match probeDirect l addr with
    | none => none
    | some block =>
      if block ≠ 0 then some block else
      match kh_get l.blocks (sub32 addr l.base) with
      | some b => some b
      | none => some 0

/-- The slow path of `internalDBGetBlock` in the region `dynablocks`: the
probes, then, when nothing is found and `create` is set, `AddNewDynablock`,
the marks of a block of a `nolinker` region, and `FillBlock`. -/
def internalDBGetBlock_slow (ext : Extern) (s : State) (dynablocks : Nat) (addr create : Nat) :
    Option (State × Nat) :=
  match probe s dynablocks addr with
  | none => none
  | some found =>
    if found ≠ 0 then some (s, found) else
    if create = 0 then some (s, 0) else
    match AddNewDynablock s dynablocks addr with
    | none => none
    | some (s1, block, created) =>
      if created = 0 then some (s1, block) else
      match s1.list dynablocks, s1.db block with
      | some l1, some b =>
        let s2 := if l1.nolinker ≠ 0 then s1.setDb block { b with marks := some [] } else s1
        some (ext.FillBlock (s2.log (Event.FillBlock block addr)) block addr, block)
      | _, _ => none

/-- The quick way of `internalDBGetBlock` through the parent of `current`: the
region kept for the slow path (`NULL` when `current` is `NULL` or its parent
does not cover `addr`) and the block read in its direct array (`NULL` when
there is none). -/
def internalDBGetBlock_quick (s : State) (addr : Nat) (current : Nat) : Option (Nat × Nat) :=
  if current ≠ 0 then
    match s.db current with
    | none => none
    | some cur =>
      match s.list cur.parent with
      | none => none
      | some l =>
        if ¬ inWindow l addr then some (0, 0)
        else
          match l.direct with
          | some d =>
            match readDirect l.textsz d (addr - l.text) with
            | none => none
            | some block => some (cur.parent, block)
          | none => some (cur.parent, 0)
  else some (0, 0)

/-- Embedding of `internalDBGetBlock(emu, addr, create, current)`: the quick
way through the parent of `current`, then the registry and the slow path. -/
def internalDBGetBlock (ext : Extern) (s : State) (addr create : Nat) (current : Nat) :
    Option (State × Nat) :=
  match internalDBGetBlock_quick s addr current with
  | none => none
  | some (dynablocks0, block) =>
    if block ≠ 0 then some (s, block) else
    let dynablocks := if dynablocks0 = 0 then ext.GetDynablocksFromAddress addr else dynablocks0
    if dynablocks = 0 then some (s, 0) else
    internalDBGetBlock_slow ext s dynablocks addr create

/-- The test `db->need_test || (db->father && db->father->need_test)` of
`DBGetBlock`, on the record `b` of the block. -/
def needsTest (s : State) (b : dynablock_t) : Option Bool :=
  if b.need_test ≠ 0 then some true
  else if b.father ≠ 0 then
    match s.db b.father with
    | none => none
    | some f => some (decide (f.need_test ≠ 0))
  else some false

/-- The body of the test of `DBGetBlock`, `father` being the father-resolved
block: when the hash of its guest bytes differs from the stored one, its range
is freed through `FreeDirectDynablock` and the lookup is made again, else its
`need_test` is cleared and `db` is returned. -/
def DBGetBlock_retest (ext : Extern) (s : State) (addr create current db father : Nat) :
    Option (State × Nat) :=
  match s.db father with
  | none => none
  | some f =>
    let hash := X31_hash_code s.mem f.x86_addr f.x86_size
    if hash ≠ f.hash then
      match FreeDirectDynablock ext s f.parent f.x86_addr f.x86_size with
      | none => none
      | some s2 => internalDBGetBlock ext s2 addr create current
    else some (s.setDb father { f with need_test := 0 }, db)

/-- Embedding of `DBGetBlock(emu, addr, create, current)`: the block found is
tested when it or its father has `need_test`; when the hash of the guest bytes
of the father-resolved block differs from the stored one, that block is freed
through `FreeDirectDynablock` and the lookup is made again, else `need_test`
is cleared. -/
def DBGetBlock (ext : Extern) (s : State) (addr create : Nat) (current : Nat) :
    Option (State × Nat) :=
  match internalDBGetBlock ext s addr create current with
  | none => none
  | some (s1, db) =>
    if db = 0 then some (s1, db) else
    match s1.db db with
    | none => none
    | some b =>
      match needsTest s1 b with
      | none => none
      | some false => some (s1, db)
      | some true =>
        DBGetBlock_retest ext s1 addr create current db (if b.father ≠ 0 then b.father else db)

/-! ## The write-locked section of AddNewDynablock, and threads -/

/-- The section of `AddNewDynablock(dynablocks, addr, &created)` that runs
under the write lock, from `pthread_rwlock_wrlock` to the return: the direct
branch stores a new block in `direct[addr - text]`, the other branch is the
hash branch. -/
def AddNewDynablock_locked (s : State) (dynablocks : Nat) (addr : Nat) :
    Option (State × Nat × Nat) :=
  match s.list dynablocks with
  | none => none
  | some l =>
    match l.direct with
    | some d =>
      if l.text ≤ addr ∧ addr ≤ add32 l.text l.textsz then
        let (s1, block) := callocBlock s
        match writeDirect l.textsz d (addr - l.text) block with
        | none => none
        | some d1 =>
          match setParent (s1.setList dynablocks { l with direct := some d1 }) block dynablocks with
          | none => none
          | some s2 => some (s2, block, 1)
      else AddNewDynablock_hash s dynablocks l addr
    | none => AddNewDynablock_hash s dynablocks l addr

/-- Where a thread that runs `internalDBGetBlock(emu, addr, 1, NULL)` stands.
The run is cut where the thread holds no lock, so that another thread can run
in between: before the probes; in `AddNewDynablock` before the test of the
direct array made without lock; before `pthread_rwlock_wrlock`; after
`AddNewDynablock` returned `created = 1`, before `FillBlock`; returned, with
the block and the value of `created`. -/
inductive Pc where
  | start
  | unlocked (dynablocks : Nat)
  | locked (dynablocks : Nat)
  | fill (dynablocks : Nat) (block : Nat)
  | done (block : Nat) (created : Nat)
  deriving DecidableEq

/-- One step of a thread that runs `internalDBGetBlock(emu, addr, 1, NULL)`,
from the point `pc`: the probes of the registry's region; the test of the
direct array at the head of `AddNewDynablock`; the write-locked section of
`AddNewDynablock`; the marks and `FillBlock`.  A thread that returned stays
where it is. -/
def threadStep (ext : Extern) (addr : Nat) (s : State) : Pc → Option (State × Pc)
  | Pc.start =>
    let dynablocks := ext.GetDynablocksFromAddress addr
    if dynablocks = 0 then some (s, Pc.done 0 0) else
    match probe s dynablocks addr with
    | none => none
    | some found =>
      if found ≠ 0 then some (s, Pc.done found 0) else some (s, Pc.unlocked dynablocks)
  | Pc.unlocked dynablocks =>
    match s.list dynablocks with
    | none => none
    | some l =>
      match probeDirect l addr with
      | none => none
      | some block0 =>
        if block0 ≠ 0 then some (s, Pc.done block0 0) else some (s, Pc.locked dynablocks)
  | Pc.locked dynablocks =>
    match AddNewDynablock_locked s dynablocks addr with
    | none => none
    | some (s1, block, created) =>
      if created = 0 then some (s1, Pc.done block 0) else some (s1, Pc.fill dynablocks block)
  | Pc.fill dynablocks block =>
    match s.list dynablocks, s.db block with
    | some l1, some b =>
      let s2 := if l1.nolinker ≠ 0 then s.setDb block { b with marks := some [] } else s
      some (ext.FillBlock (s2.log (Event.FillBlock block addr)) block addr, Pc.done block 1)
    | _, _ => none
  | Pc.done block created => some (s, Pc.done block created)

/-- A run of several threads that all execute
`internalDBGetBlock(emu, addr, 1, NULL)`: the schedule lists, step after step,
the thread that makes the next step. -/
def runThreads (ext : Extern) (addr : Nat) : List Nat → State → List Pc → Option (State × List Pc)
  | [], s, pcs => some (s, pcs)
  | t :: rest, s, pcs =>
    match pcs.get? t with
    | none => none
    | some pc =>
      match threadStep ext addr s pc with
      | none => none
      | some (s1, pc1) => runThreads ext addr rest s1 (pcs.set t pc1)

/-- The block a thread returned, `NULL` for a thread that has not returned. -/
def Pc.result : Pc → Nat
  | Pc.done block _ => block
  | _ => 0

/-! ## Concrete states and collaborators for the examples -/

/-- A state with nothing allocated and zeroed memory. -/
def emptyState : State :=
  { lists := fun _ => none, dbs := fun _ => none, brk := 1, words := fun _ => 0,
    mem := fun _ => 0, trace := [] }

/-- A code generator that records the guest range `[addr, addr + 4)` and its
hash in the block, and nothing else. -/
def simpleFill (s : State) (block : Nat) (addr : Nat) : State :=
  match s.db block with
  | none => s
  | some b =>
    s.setDb block { b with x86_addr := addr, x86_size := 4, hash := X31_hash_code s.mem addr 4 }

/-- Collaborators for the examples: every address belongs to the region `r`,
`resettable` clears word 3 of the slot. -/
def simpleExt (r : Nat) : Extern :=
  { GetDynablocksFromAddress := fun _ => r
    FillBlock := simpleFill
    resettable := fun w slot => Function.update w (slot + 4 * 3) 0 }

/-- The region `[0x1000, 0x1100)` created with a direct array, at address 1. -/
def directRegion : State := (NewDynablockList emptyState 0x1000 0x1000 0x100 0 1).1

/-- The region `[0x1000, 0x1100)` created without a direct array, at address 1. -/
def hashRegion : State := (NewDynablockList emptyState 0x1000 0x1000 0x100 0 0).1

/-- A region created as `NewDynablockList(0, 0, 0, 0, 0)`, at address 1, over
guest bytes `11 22 33 44` at `0x3000`. -/
def plainRegion : State :=
  { (NewDynablockList emptyState 0 0 0 0 0).1 with
    mem := fun a => [0x11, 0x22, 0x33, 0x44].getD (a - 0x3000) 0 }

/-- The stale-detection scenario in `plainRegion`: a block is created at
`0x3000`, marked, the guest byte at `0x3002` is changed to `0x99`, and the
block is asked for again with `create = 1`. -/
def staleScenario : Option (State × Nat) :=
  match DBGetBlock (simpleExt 1) plainRegion 0x3000 1 0 with
  | none => none
  | some (s1, b) =>
    match MarkDynablock (simpleExt 1) s1 b with
    | none => none
    | some s2 =>
      DBGetBlock (simpleExt 1) { s2 with mem := Function.update s2.mem 0x3002 0x99 } 0x3000 1 0

/-- The record of a region `[0x1000, 0x1100)` without direct array, whose hash
holds the block 2 for `0x1010` and the block 3 for `0x1200`. -/
def hashTwoList : dynablocklist_t :=
  { text := 0x1000, textsz := 0x100, base := 0x1000, nolinker := 0,
    blocks := [(0x10, 2), (0x200, 3)], direct := none }

/-- A state with the region `hashTwoList` at address 1 and its two blocks. -/
def hashTwo : State :=
  { emptyState with
    lists := fun p => if p = 1 then some hashTwoList else none
    dbs := fun p => if p = 2 ∨ p = 3 then some { parent := 1 } else none
    brk := 4 }

/-- Successive calls `AddNewDynablock(r, a, &created)` for the addresses `a` of
a list, in order; the result lists the block returned and the value of
`created` of each call. -/
def AddNewDynablock_all (r : Nat) : List Nat → State → Option (State × List (Nat × Nat))
  | [], s => some (s, [])
  | a :: rest, s =>
    match AddNewDynablock s r a with
    | none => none
    | some (s1, b, created) =>
      match AddNewDynablock_all r rest s1 with
      | none => none
      | some (s2, bs) => some (s2, (b, created) :: bs)

/-- The region created by `NewDynablockList(0x2000, 0x1000, 0x1000, 0, 0)`, at
address 1: the base is above the text. -/
def highBaseRegion : State := (NewDynablockList emptyState 0x2000 0x1000 0x1000 0 0).1

/-- A block at `0x2100` with one mark, over four zero guest bytes. -/
def linkBlock3 : dynablock_t :=
  { parent := 1, marks := some [0x100], x86_addr := 0x2100, x86_size := 4, hash := 0 }

/-- A state of a `nolinker` region at address 1 with three blocks with marks:
block 2 (at `0x2000`) owns the link table at `0x100`, whose first slot names
block 3 (at `0x2100`), and block 3 has that slot in its marks; block 4 is in
no directory and has no mark. -/
def linkState : State :=
  { emptyState with
    lists := fun p =>
      if p = 1 then
        some { text := 0x2000, textsz := 0x200, base := 0x2000, nolinker := 1, blocks := [],
               direct := some (fun i => if i = 0 then 2 else if i = 0x100 then 3 else 0) }
      else none
    dbs := fun p =>
      if p = 2 then
        some { parent := 1, table := 0x100, tablesz := 4, marks := some [],
               x86_addr := 0x2000, x86_size := 4, hash := 0 }
      else if p = 3 then some linkBlock3
      else if p = 4 then some { parent := 1, marks := some [] }
      else none
    words := fun a => if a = 0x100 + 4 * 3 then 3 else 0
    brk := 5 }

/-- The record of the region of `directRegion`. -/
def directList : dynablocklist_t :=
  { text := 0x1000, textsz := 0x100, base := 0x1000, nolinker := 0, blocks := [],
    direct := some (fun _ => 0) }

/-- The state `directRegion` after `DBGetBlock(emu, 0x1040, 1, NULL)`. -/
def createdState : State :=
  ((DBGetBlock (simpleExt 1) directRegion 0x1040 1 0).map (fun res => res.1)).getD directRegion

/-- The block that `DBGetBlock(emu, 0x1040, 1, NULL)` creates in
`directRegion`, once filled. -/
def createdBlock : dynablock_t :=
  { parent := 1, x86_addr := 0x1040, x86_size := 4, hash := 0 }

/-- The stale-detection scenario in a region with a direct array: a block is
created at `0x1040` over guest bytes `11 22 33 44`, marked, the guest byte at
`0x1042` is changed to `0x99`, and the block is asked for again with
`create = 1`. -/
def staleDirectScenario : Option (State × Nat) :=
  match DBGetBlock (simpleExt 1)
      { directRegion with mem := fun a => [0x11, 0x22, 0x33, 0x44].getD (a - 0x1040) 0 }
      0x1040 1 0 with
  | none => none
  | some (s1, b) =>
    match MarkDynablock (simpleExt 1) s1 b with
    | none => none
    | some s2 =>
      DBGetBlock (simpleExt 1) { s2 with mem := Function.update s2.mem 0x1042 0x99 } 0x1040 1 0

/-! ## Vocabulary of the statements about links -/

/-- The marks set of the block at `p`, when the block is live and has one. -/
def marksOf (s : State) (p : Nat) : Option kh_mark_t :=
  (s.db p).bind (fun b => b.marks)

/-- The slot address `k` is in the marks of the block at `p`. -/
def hasMark (s : State) (p k : Nat) : Prop :=
  ∃ m, marksOf s p = some m ∧ k ∈ m

/-- Two states hold the same directory: the same regions, and the same parent
in every live block. -/
def SameDirectory (s s1 : State) : Prop :=
  s1.lists = s.lists ∧ ∀ p, (s1.db p).map (fun b => b.parent) = (s.db p).map (fun b => b.parent)

/-- The same blocks are allocated in two states. -/
def SameBlocks (s s1 : State) : Prop :=
  s1.brk = s.brk ∧ s1.trace = s.trace ∧ ∀ p, (s1.db p).isSome = (s.db p).isSome

/-- The region record `l1` is the record `l` with some direct slots cleared:
same window, base, flag and hash; a direct array is there in both or in
neither, and each slot is as it was or `NULL`. -/
def ShrunkList (l l1 : dynablocklist_t) : Prop :=
  l1.text = l.text ∧ l1.textsz = l.textsz ∧ l1.base = l.base ∧ l1.nolinker = l.nolinker ∧
  l1.blocks = l.blocks ∧
  match l.direct, l1.direct with
  | none, none => True
  | some d, some d1 => ∀ j, d1 j = d j ∨ d1 j = 0
  | _, _ => False

/-- Every region of `s` is in `s1`, with some direct slots cleared. -/
def Shrunk (s s1 : State) : Prop :=
  ∀ r l, s.list r = some l → ∃ l1, s1.list r = some l1 ∧ ShrunkList l l1

/-- The blocks of `s1` are blocks of `s`, the same but for their marks, over
the same guest memory. -/
def Kept (s s1 : State) : Prop :=
  s1.mem = s.mem ∧
  ∀ p b1, s1.db p = some b1 → ∃ b, s.db p = some b ∧ b1 = { b with marks := b1.marks }

/-- Contract of the code generator for the lookups of `addr`: a fresh block
(`need_test` clear, no father) that the probes of a region find at `addr` is,
after `FillBlock(emu, block, addr)`, still found there, live, with `need_test`
clear and without father. -/
def FillKeeps (ext : Extern) (addr : Nat) : Prop :=
  ∀ (s : State) (r blk : Nat) (b : dynablock_t),
    blk ≠ 0 → probe s r addr = some blk → s.db blk = some b → b.need_test = 0 →
    b.father = 0 →
    probe (ext.FillBlock s blk addr) r addr = some blk ∧
    ∃ b1, (ext.FillBlock s blk addr).db blk = some b1 ∧ b1.need_test = 0 ∧ b1.father = 0

/-! ## Concrete states for the examples on marks -/

/-- The state `linkState` after `MarkDynablock(block 3)` and then
`AddMark(block 2, block 3, slot 0x100)`: block 3 is marked (`need_test` set)
and the slot at `0x100` is in its marks again. -/
def linkStateRelinked : State :=
  ((MarkDynablock (simpleExt 1) linkState 3).bind (fun s => AddMark s 2 3 0x100)).getD linkState

/-- The record of block 2 of `linkState`. -/
def linkBlock2 : dynablock_t :=
  { parent := 1, table := 0x100, tablesz := 4, marks := some [],
    x86_addr := 0x2000, x86_size := 4, hash := 0 }

/-- A state of the region `[0x1000, 0x1100)` with a direct array, at address
1: block 2, at `0x10F0`, is in the direct array and has one son, block 3, whose
guest address is `0x1100 = text + textsz`. -/
def sonAtEnd : State :=
  { emptyState with
    lists := fun p =>
      if p = 1 then
        some { text := 0x1000, textsz := 0x100, base := 0x1000, nolinker := 0, blocks := [],
               direct := some (fun i => if i = 0xF0 then 2 else 0) }
      else none
    dbs := fun p =>
      if p = 2 then some { parent := 1, x86_addr := 0x10F0, x86_size := 0x10, sons := [3] }
      else if p = 3 then some { parent := 1, x86_addr := 0x1100, father := 2 }
      else none
    brk := 4 }

/-! ## Vocabulary of the statements about marks and about the directory -/

/-- Two states differ at most in the marks sets of their blocks: the same
regions, allocator, host memory words, guest memory and trace, and in every
block the same fields but `marks`. -/
def SameButMarks (s s1 : State) : Prop :=
  s1.lists = s.lists ∧ s1.brk = s.brk ∧ s1.words = s.words ∧ s1.mem = s.mem ∧
  s1.trace = s.trace ∧
  ∀ p, (s1.db p).map (fun b => { b with marks := none }) =
    (s.db p).map (fun b => { b with marks := none })

/-- The region record `l` holds the block `p`: a slot of its direct array or an
entry of its hash has the value `p`, which is not `NULL`. -/
def Holds (l : dynablocklist_t) (p : Nat) : Prop :=
  p ≠ 0 ∧ ((∃ d i, l.direct = some d ∧ i < l.textsz ∧ d i = p) ∨ p ∈ l.blocks.map Prod.snd)

/-- Each block the region record `l` holds is held in one place: no block is
the value of two entries of the hash, none is in two slots of the direct array,
and none is in a slot and in an entry. -/
def HeldOnce (l : dynablocklist_t) : Prop :=
  (l.blocks.map Prod.snd).Nodup ∧
  ∀ d, l.direct = some d →
    (∀ i j, i < l.textsz → j < l.textsz → d i ≠ 0 → d i = d j → i = j) ∧
    (∀ i, i < l.textsz → d i ≠ 0 → d i ∉ l.blocks.map Prod.snd)

/-- Every block the region at `r`, of record `l`, holds was allocated (its
address is below the next one the allocator hands out), is live, and has the
region as its parent. -/
def Owned (s : State) (r : Nat) (l : dynablocklist_t) : Prop :=
  ∀ p, Holds l p → p < s.brk ∧ ∃ b, s.db p = some b ∧ b.parent = r

/-- The invariant of the directory: in every region `text` and `textsz` are
32-bit words, each block held is held in one place, and every block held is
live with the region as its parent. -/
def DirectoryInv (s : State) : Prop :=
  ∀ r l, s.list r = some l → l.text < W32 ∧ l.textsz < W32 ∧ HeldOnce l ∧ Owned s r l

/-- Nothing is allocated between `s` and `s1`: the allocator is where it was
and every region of `s1` is a region of `s`. -/
def NoAlloc (s s1 : State) : Prop :=
  s1.brk = s.brk ∧ ∀ q, s.list q = none → s1.list q = none

/-! ## Concrete states for the examples at the top of the address space -/

/-- The region `[0xFFFFFF00, 2^32)`, at the top of the address space, created
without a direct array by `NewDynablockList(0xFFFFFF00, 0xFFFFFF00, 0x100, 0,
0)`, at address 1. -/
def topRegion : State := (NewDynablockList emptyState 0xFFFFFF00 0xFFFFFF00 0x100 0 0).1

/-- The state `topRegion` after `AddNewDynablock(region, 0xFFFFFF10, &created)`:
block 2 is in the hash under the key `0x10`. -/
def topRegionOne : State :=
  ((AddNewDynablock topRegion 1 0xFFFFFF10).map (fun res => res.1)).getD topRegion

/-- The state `topRegion` after `AddNewDynablock` at the 255 addresses
`0xFFFFFF00 .. 0xFFFFFFFE`: the blocks 2 to 256 are in the hash. -/
def topRegionFull : State :=
  ((AddNewDynablock_all 1 (List.range' 0xFFFFFF00 255) topRegion).map
    (fun res => res.1)).getD topRegion

/-- A state of the region `[0x1000, 0x1100)` with a direct array, at address
1, over zeroed guest memory: block 2, at `0x1040`, is in the direct array, is
marked (`need_test` set) and its stored hash is not the hash of its guest
bytes; its son, block 3, at `0x1200`, is in the hash. -/
def sonInHash : State :=
  { emptyState with
    lists := fun p =>
      if p = 1 then
        some { text := 0x1000, textsz := 0x100, base := 0x1000, nolinker := 0,
               blocks := [(0x200, 3)], direct := some (fun i => if i = 0x40 then 2 else 0) }
      else none
    dbs := fun p =>
      if p = 2 then
        some { parent := 1, x86_addr := 0x1040, x86_size := 4, hash := 1, need_test := 1,
               sons := [3] }
      else if p = 3 then some { parent := 1, x86_addr := 0x1200, x86_size := 4, father := 2 }
      else none
    brk := 4 }

/-- The state `topRegionFull` after `DBGetBlock(emu, 0xFFFFFFFF, 1, NULL)`. -/
def topRegionAsked : State :=
  ((DBGetBlock (simpleExt 1) topRegionFull 0xFFFFFFFF 1 0).map (fun res => res.1)).getD
    topRegionFull

/-- The state `sonInHash` after `DBGetBlock(emu, 0x1200, 1, NULL)`. -/
def sonInHashAsked : State :=
  ((DBGetBlock (simpleExt 1) sonInHash 0x1200 1 0).map (fun res => res.1)).getD sonInHash

/-! ## Concrete states for the examples on the slots of a freed block -/

theorem readByte_lt (mem : Mem) (a : Nat) : readByte mem a < 256 := by
  unfold readByte; omega

theorem X31_step_eq (h b : Nat) (hh : h < 2 ^ 32) :
    X31_step h b = (h * 32 - h + b) % 2 ^ 32 := by
  unfold X31_step add32 sub32 shl5 W32
  norm_num at hh ⊢
  omega

theorem X31_step_lt (h b : Nat) : X31_step h b < 2 ^ 32 := by
  unfold X31_step add32 W32
  norm_num
  omega

theorem X31_loop_eq (mem : Mem) (addr : Nat) :
    ∀ (k j h : Nat), h < 2 ^ 32 →
      X31_loop mem k (addr + j) h =
        (List.range' j k).foldl
          (fun h i => (h * 32 - h + readByte mem (addr + i)) % 2 ^ 32) h
  | 0, _, _, _ => by simp [X31_loop]
  | k + 1, j, h, hh => by
      have ih := X31_loop_eq mem addr k (j + 1) (X31_step h (readByte mem (addr + j)))
        (X31_step_lt _ _)
      simp only [X31_loop, List.range'_succ, List.foldl_cons]
      rw [← X31_step_eq h _ hh, ← ih, Nat.add_assoc]

theorem foldl_poly (p : Nat → Nat) :
    ∀ (k j h : Nat),
      (List.range' j k).foldl (fun h i => (h * 32 - h + p i) % 2 ^ 32) h % 2 ^ 32 =
        (h * 31 ^ k + ((List.range k).map (fun i => p (j + i) * 31 ^ (k - 1 - i))).sum) % 2 ^ 32
  | 0, _, h => by simp
  | k + 1, j, h => by
      have ih := foldl_poly p k (j + 1) ((h * 32 - h + p j) % 2 ^ 32)
      simp only [List.range'_succ, List.foldl_cons]
      rw [ih, List.range_succ_eq_map, List.map_cons, List.sum_cons, List.map_map]
      have e : (fun i => p (j + i) * 31 ^ (k + 1 - 1 - i)) ∘ Nat.succ =
          fun i => p (j + 1 + i) * 31 ^ (k - 1 - i) := by
        funext i
        simp only [Function.comp, Nat.succ_eq_add_one]
        congr 2 <;> omega
      rw [e]
      have e2 : h * 32 - h = h * 31 := by omega
      rw [e2]
      simp only [Nat.add_zero, Nat.sub_zero, Nat.add_sub_cancel]
      generalize ((List.range k).map (fun i => p (j + 1 + i) * 31 ^ (k - 1 - i))).sum = S
      have : (h * 31 + p j) % 2 ^ 32 * 31 ^ k % 2 ^ 32 = (h * 31 + p j) * 31 ^ k % 2 ^ 32 := by
        rw [Nat.mul_mod, Nat.mod_mod, ← Nat.mul_mod]
      rw [Nat.add_mod, this, ← Nat.add_mod]
      congr 1
      ring

theorem X31_spec_lt (p : Nat → Nat) (hp : ∀ i, p i < 256) (n : Nat) :
    X31_spec p n < 2 ^ 32 := by
  unfold X31_spec
  cases hk : n - 1 with
  | zero => simpa using lt_trans (hp 0) (by norm_num)
  | succ k =>
      rw [List.range'_concat, List.foldl_append]
      simp only [List.foldl_cons, List.foldl_nil]
      exact Nat.mod_lt _ (by norm_num)

/-- C1: for a byte sequence of length `n ≥ 1` stored at `addr`, `X31_hash_code`
returns the value obtained from `h = p[0]` by `h = (h * 32 - h + p[i]) mod 2^32`
for `i = 1 .. n-1`, which is the sum of `p[i] * 31^(n-1-i)` modulo `2^32`, an
unsigned 32-bit number. -/
theorem X31_hash_code_refines (mem : Mem) (addr n : Nat) (h1 : 1 ≤ n) (hn : n < 2 ^ 31) :
    X31_hash_code mem addr n = X31_spec (fun i => readByte mem (addr + i)) n ∧
    X31_hash_code mem addr n = X31_poly (fun i => readByte mem (addr + i)) n ∧
    X31_hash_code mem addr n < 2 ^ 32 := by
  have hcode : X31_hash_code mem addr n = X31_spec (fun i => readByte mem (addr + i)) n := by
    have hb : readByte mem addr < 2 ^ 32 := lt_trans (readByte_lt mem addr) (by norm_num)
    have hs : sub32 n 1 = n - 1 := by
      unfold sub32 W32
      norm_num at hn ⊢
      omega
    unfold X31_hash_code X31_spec
    rw [hs, X31_loop_eq mem addr (n - 1) 1 _ hb]
    simp
  have hlt := X31_spec_lt (fun i => readByte mem (addr + i)) (fun i => readByte_lt mem _) n
  refine ⟨hcode, ?_, hcode ▸ hlt⟩
  rw [hcode, ← Nat.mod_eq_of_lt hlt]
  unfold X31_spec X31_poly
  rw [foldl_poly]
  obtain ⟨k, rfl⟩ : ∃ k, n = k + 1 := ⟨n - 1, by omega⟩
  rw [List.range_succ_eq_map, List.map_cons, List.sum_cons, List.map_map]
  simp only [Nat.add_sub_cancel, Nat.sub_zero, Nat.add_zero]
  have e : ((fun i => readByte mem (addr + i) * 31 ^ (k - i)) ∘ Nat.succ) =
      fun i => readByte mem (addr + (1 + i)) * 31 ^ (k - 1 - i) := by
    funext i
    simp only [Function.comp, Nat.succ_eq_add_one, Nat.add_comm i 1, Nat.sub_add_eq]
  rw [e]

/-- C1 at the seven bytes of "dynarec". -/
theorem X31_hash_code_refines_witness :
    (1 ≤ 7 ∧ 7 < 2 ^ 31) ∧
    (X31_hash_code dynarecBytes 0 7 = X31_spec (fun i => readByte dynarecBytes (0 + i)) 7 ∧
     X31_hash_code dynarecBytes 0 7 = X31_poly (fun i => readByte dynarecBytes (0 + i)) 7 ∧
     X31_hash_code dynarecBytes 0 7 < 2 ^ 32) := by
  have h1 : 1 ≤ 7 := by norm_num
  have h2 : 7 < 2 ^ 31 := by norm_num
  exact ⟨⟨h1, h2⟩, X31_hash_code_refines dynarecBytes 0 7 h1 h2⟩

/-- C2, as stated, fails: the hash of the seven bytes of "dynarec" is not
`0x5E46A01F`. -/
theorem X31_dynarec_ne : X31_hash_code dynarecBytes 0 7 ≠ 0x5E46A01F := by decide

/-- C2 (amended): `X31_hash_code` applied to the seven ASCII bytes of "dynarec"
with `len = 7` returns `0x7EA57288`. -/
theorem X31_dynarec_value : X31_hash_code dynarecBytes 0 7 = 0x7EA57288 := by decide

/-! ## Theorems: evaluations at concrete inputs -/

/-- C3: in the direct-mode region `[0x1000, 0x1100)`, `AddNewDynablock` at
`0x1100 = text + textsz` takes the direct branch (`addr <= text + textsz`) and
stores the new block in `direct[0x100]`, outside the array of `0x100` slots:
the call has no defined result, whereas the lookup of `0x1100` completes and
finds nothing. -/
theorem AddNewDynablock_at_window_end :
    (AddNewDynablock directRegion 1 0x1100).isNone = true ∧
    (probe directRegion 1 0x1100) = some 0 := by
  decide

/-- C5: in a region without direct array, a marked block whose guest bytes
changed is returned again by `DBGetBlock(addr, create = 1)`: it is the block
created first (address 2), still marked, nothing was freed and `FillBlock` ran
once only. -/
theorem DBGetBlock_stale_in_hash :
    staleScenario.map (fun r => (r.2, r.1.trace, (r.1.db 2).map (fun b => b.need_test))) =
      some (2, [Event.calloc 1, Event.calloc 2, Event.FillBlock 2 0x3000], some 1) := by
  decide

/-- The scenario of `DBGetBlock_stale_in_hash` in a region with a direct array:
the stale block 2 is freed and a new block 3 is created and filled. -/
theorem DBGetBlock_stale_in_direct :
    staleDirectScenario.map (fun r => (r.2, r.1.trace, (r.1.db 2).isSome)) =
      some (3, [Event.calloc 1, Event.calloc 2, Event.FillBlock 2 0x1040,
        Event.FreeDynarecMap 0 0, Event.free 0, Event.free 2, Event.calloc 3,
        Event.FillBlock 3 0x1040], false) := by
  decide

/-! ## Theorems: khash tables -/

theorem kh_get_append_one (h : kh_dynablocks_t) (key v k : Nat) :
    kh_get (h ++ [(key, v)]) k =
      match kh_get h k with
      | some w => some w
      | none => if key = k then some v else none := by
  induction h with
  | nil => simp [kh_get]
  | cons e rest ih =>
      obtain ⟨k1, v1⟩ := e
      simp only [List.cons_append, kh_get]
      by_cases h1 : k1 = k
      · simp [h1]
      · simp [h1, ih]

theorem kh_get_mem (h : kh_dynablocks_t) (k v : Nat) (hg : kh_get h k = some v) :
    (k, v) ∈ h := by
  induction h with
  | nil => simp [kh_get] at hg
  | cons e rest ih =>
      obtain ⟨k1, v1⟩ := e
      simp only [kh_get] at hg
      by_cases h1 : k1 = k
      · simp only [h1, if_true, Option.some.injEq] at hg
        simp [h1, hg]
      · simp only [h1, if_false] at hg
        exact List.mem_cons_of_mem _ (ih hg)

theorem kh_get_of_mem (h : kh_dynablocks_t) (hn : (h.map Prod.fst).Nodup) (k v : Nat)
    (hm : (k, v) ∈ h) : kh_get h k = some v := by
  induction h with
  | nil => simp at hm
  | cons e rest ih =>
      obtain ⟨k1, v1⟩ := e
      simp only [List.map_cons, List.nodup_cons, List.mem_map, Prod.exists, exists_and_right,
        exists_eq_right, not_exists] at hn
      simp only [kh_get]
      rcases List.mem_cons.mp hm with h1 | h1
      · simp only [Prod.mk.injEq] at h1
        simp [h1.1, h1.2]
      · have hne : k1 ≠ k := by
          intro e1
          exact hn.1 v (e1 ▸ h1)
        simp only [hne, if_false]
        exact ih hn.2 h1

/-! ## Theorems: ConvertHash2Direct -/

/-- Hash of the new table after the transfer loop. -/
theorem ConvertHash2Direct_transfer_hash (textsz start end1 : Nat) :
    ∀ (es : kh_dynablocks_t) (d0 : Nat → Nat) (b0 : kh_dynablocks_t) (d1 : Nat → Nat)
      (b1 : kh_dynablocks_t),
      ConvertHash2Direct_transfer textsz start end1 es d0 b0 = some (d1, b1) →
      ∀ k, kh_get b1 k =
        match kh_get b0 k with
        | some w => some w
        | none => if start ≤ k ∧ k < end1 then none else kh_get es k
  | [], d0, b0, d1, b1, h, k => by
      simp only [ConvertHash2Direct_transfer, Option.some.injEq, Prod.mk.injEq] at h
      rw [← h.2]
      cases kh_get b0 k <;> simp [kh_get]
  | (key, db) :: rest, d0, b0, d1, b1, h, k => by
      simp only [ConvertHash2Direct_transfer] at h
      by_cases hr : start ≤ key ∧ key < end1
      · simp only [hr, and_self, if_true] at h
        cases hw : writeDirect textsz d0 (key - start) db with
        | none => simp [hw] at h
        | some d2 =>
            simp only [hw] at h
            rw [ConvertHash2Direct_transfer_hash textsz start end1 rest d2 b0 d1 b1 h k]
            cases kh_get b0 k with
            | some w => rfl
            | none =>
                simp only [kh_get]
                by_cases hk : start ≤ k ∧ k < end1
                · simp [hk]
                · have : key ≠ k := fun e => hk (e ▸ hr)
                  simp [hk, this]
      · simp only [hr, if_false] at h
        cases hg : kh_get b0 key with
        | some w0 =>
            simp only [hg] at h
            rw [ConvertHash2Direct_transfer_hash textsz start end1 rest d0 b0 d1 b1 h k]
            cases hk0 : kh_get b0 k with
            | some w => rfl
            | none =>
                simp only [kh_get]
                have : key ≠ k := by
                  intro e
                  rw [e] at hg
                  rw [hg] at hk0
                  cases hk0
                simp [this]
        | none =>
            simp only [hg] at h
            rw [ConvertHash2Direct_transfer_hash textsz start end1 rest d0 _ d1 b1 h k]
            unfold kh_put_value
            rw [kh_get_append_one]
            cases hk0 : kh_get b0 k with
            | some w => rfl
            | none =>
                simp only [kh_get]
                by_cases e : key = k
                · have hk : ¬ (start ≤ k ∧ k < end1) := e ▸ hr
                  simp [e, hk]
                · simp [e]

/-- Direct array after the transfer loop, for a table whose keys are distinct:
an entry in `[start, end)` is at its index, any other index is untouched; the
loop completes when every index is in the array. -/
theorem ConvertHash2Direct_transfer_direct (textsz start end1 : Nat)
    (hidx : ∀ k, start ≤ k → k < end1 → k - start < textsz) :
    ∀ (es : kh_dynablocks_t) (d0 : Nat → Nat) (b0 : kh_dynablocks_t),
      (es.map Prod.fst).Nodup →
      ∃ d1 b1, ConvertHash2Direct_transfer textsz start end1 es d0 b0 = some (d1, b1) ∧
        (∀ k v, (k, v) ∈ es → start ≤ k → k < end1 → d1 (k - start) = v) ∧
        (∀ i, (∀ k v, (k, v) ∈ es → start ≤ k → k < end1 → k - start ≠ i) → d1 i = d0 i)
  | [], d0, b0, _ => ⟨d0, b0, by simp [ConvertHash2Direct_transfer]⟩
  | (key, db) :: rest, d0, b0, hn => by
      simp only [List.map_cons, List.nodup_cons, List.mem_map, Prod.exists, exists_and_right,
        exists_eq_right, not_exists] at hn
      simp only [ConvertHash2Direct_transfer]
      by_cases hr : start ≤ key ∧ key < end1
      · have hlt := hidx key hr.1 hr.2
        simp only [hr, and_self, if_true, writeDirect, hlt]
        obtain ⟨d1, b1, he, hA, hB⟩ :=
          ConvertHash2Direct_transfer_direct textsz start end1 hidx rest
            (Function.update d0 (key - start) db) b0 hn.2
        refine ⟨d1, b1, he, ?_, ?_⟩
        · intro k v hm h1 h2
          rcases List.mem_cons.mp hm with e | e
          · simp only [Prod.mk.injEq] at e
            rw [e.1, e.2]
            rw [hB (key - start)]
            · simp
            · intro k2 v2 hm2 h3 _ he2
              have : k2 = key := by omega
              exact hn.1 v2 (this ▸ hm2)
          · exact hA k v e h1 h2
        · intro i hi
          rw [hB i (fun k v hm h1 h2 => hi k v (List.mem_cons_of_mem _ hm) h1 h2)]
          have : i ≠ key - start := fun e => hi key db (List.mem_cons_self _ _) hr.1 hr.2 e.symm
          simp [Function.update, this]
      · simp only [hr, if_false]
        cases hg : kh_get b0 key with
        | some w0 =>
            simp only []
            obtain ⟨d1, b1, he, hA, hB⟩ :=
              ConvertHash2Direct_transfer_direct textsz start end1 hidx rest d0 b0 hn.2
            refine ⟨d1, b1, he, ?_, ?_⟩
            · intro k v hm h1 h2
              rcases List.mem_cons.mp hm with e | e
              · simp only [Prod.mk.injEq] at e
                exact absurd ⟨e.1 ▸ h1, e.1 ▸ h2⟩ hr
              · exact hA k v e h1 h2
            · intro i hi
              exact hB i (fun k v hm h1 h2 => hi k v (List.mem_cons_of_mem _ hm) h1 h2)
        | none =>
            simp only []
            obtain ⟨d1, b1, he, hA, hB⟩ :=
              ConvertHash2Direct_transfer_direct textsz start end1 hidx rest d0
                (kh_put_value b0 key db) hn.2
            refine ⟨d1, b1, he, ?_, ?_⟩
            · intro k v hm h1 h2
              rcases List.mem_cons.mp hm with e | e
              · simp only [Prod.mk.injEq] at e
                exact absurd ⟨e.1 ▸ h1, e.1 ▸ h2⟩ hr
              · exact hA k v e h1 h2
            · intro i hi
              exact hB i (fun k v hm h1 h2 => hi k v (List.mem_cons_of_mem _ hm) h1 h2)

theorem State.list_ne_zero (s : State) (r : Nat) (l : dynablocklist_t)
    (h : s.list r = some l) : r ≠ 0 := by
  intro e
  simp [State.list, e] at h

theorem State.db_ne_zero (s : State) (p : Nat) (b : dynablock_t)
    (h : s.db p = some b) : p ≠ 0 := by
  intro e
  simp [State.db, e] at h

theorem State.list_setList (s : State) (r q : Nat) (l : dynablocklist_t) :
    (s.setList r l).list q = if q = 0 then none else if q = r then some l else s.list q := by
  unfold State.list State.setList
  by_cases h0 : q = 0
  · simp [h0]
  · by_cases h1 : q = r
    · subst h1
      simp [h0]
    · simp [h0, h1, Function.update]

theorem inWindow_iff (l : dynablocklist_t) (a : Nat) :
    inWindow l a = true ↔ l.text ≤ a ∧ a < add32 l.text l.textsz := by
  simp [inWindow]

theorem window_index_lt (T Z B k : Nat)
    (h1 : sub32 T B ≤ k) (h2 : k < sub32 (add32 T Z) B) : k - sub32 T B < Z := by
  unfold sub32 add32 W32 at *
  omega

theorem window_of_key (T Z B a : Nat) (hw : T + Z < W32) (ha : a < W32)
    (h1 : sub32 T B ≤ sub32 a B) (h2 : sub32 a B < sub32 (add32 T Z) B) :
    T ≤ a ∧ a < add32 T Z ∧ sub32 a B - sub32 T B = a - T := by
  unfold sub32 add32 W32 at *
  omega

theorem key_of_index (T Z B a k : Nat) (hw : T + Z < W32)
    (h1 : sub32 T B ≤ k) (h2 : k < sub32 (add32 T Z) B) (hT : T ≤ a)
    (he : k - sub32 T B = a - T) : k = sub32 a B := by
  unfold sub32 add32 W32 at *
  omega

/-- The probes of a region without direct array: the hash alone. -/
theorem probe_hash_mode (s : State) (r : Nat) (l : dynablocklist_t) (a : Nat)
    (hl : s.list r = some l) (hd : l.direct = none) :
    probe s r a = some ((kh_get l.blocks (sub32 a l.base)).getD 0) := by
  unfold probe probeDirect
  simp only [hl, hd]
  cases kh_get l.blocks (sub32 a l.base) <;> simp

/-- The probes before and after `ConvertHash2Direct`, for a region without
direct array whose window lies in the 32-bit address space and whose hash
holds each key once: the conversion completes and the probes of every address
give what they gave. -/
theorem ConvertHash2Direct_keeps_probe (s : State) (r : Nat) (l : dynablocklist_t)
    (hl : s.list r = some l) (hd : l.direct = none)
    (hw : l.text + l.textsz < W32) (hn : (l.blocks.map Prod.fst).Nodup) :
    ∃ s1, ConvertHash2Direct s r = some s1 ∧
      ∀ a, a < W32 → probe s1 r a = probe s r a := by
  have hr0 := State.list_ne_zero s r l hl
  unfold ConvertHash2Direct
  simp only [hl]
  by_cases hz : l.textsz = 0 ∨ l.text = 0
  · simp only [hz, if_true]
    exact ⟨s, rfl, fun _ _ => rfl⟩
  · simp only [hz, if_false]
    obtain ⟨d1, b1, he, hA, hB⟩ :=
      ConvertHash2Direct_transfer_direct l.textsz (sub32 l.text l.base)
        (sub32 (add32 l.text l.textsz) l.base)
        (fun k h1 h2 => window_index_lt _ _ _ k h1 h2) l.blocks (fun _ => 0) [] hn
    have hH := ConvertHash2Direct_transfer_hash _ _ _ _ _ _ _ _ he
    simp only [he]
    refine ⟨_, rfl, ?_⟩
    intro a ha
    rw [probe_hash_mode s r l a hl hd]
    unfold probe probeDirect
    simp only [State.list_setList, hr0, if_false, if_true]
    have hHa := hH (sub32 a l.base)
    simp only [kh_get] at hHa
    by_cases hin : sub32 l.text l.base ≤ sub32 a l.base ∧
        sub32 a l.base < sub32 (add32 l.text l.textsz) l.base
    · -- the key is in the direct range
      obtain ⟨hT, hZ, hidx⟩ := window_of_key _ _ _ a hw ha hin.1 hin.2
      have hwin : inWindow l a = true := (inWindow_iff l a).mpr ⟨hT, hZ⟩
      have hlt : a - l.text < l.textsz := by
        rw [← hidx]
        exact window_index_lt _ _ _ _ hin.1 hin.2
      have hwin1 : inWindow { l with blocks := b1, direct := some d1 } a = true := hwin
      simp only [hwin1, if_true, readDirect, hlt, hin, and_self] at hHa ⊢
      cases hg : kh_get l.blocks (sub32 a l.base) with
      | none =>
          have hd1 : d1 (a - l.text) = 0 := by
            rw [hB (a - l.text)]
            intro k v hm h1 h2 he2
            have hk := key_of_index _ _ _ a k hw h1 h2 hT he2
            have hg2 := kh_get_of_mem l.blocks hn k v hm
            rw [hk, hg] at hg2
            cases hg2
          simp [hd1, hHa]
      | some v =>
          have hd1 : d1 (a - l.text) = v := by
            rw [← hidx]
            exact hA _ v (kh_get_mem _ _ _ hg) hin.1 hin.2
          by_cases hv : v = 0
          · simp [hd1, hv, hHa]
          · simp [hd1, hv]
    · -- the key stays in the hash
      simp only [hin, if_false] at hHa
      have hdir : (if inWindow { l with blocks := b1, direct := some d1 } a = true then
            readDirect l.textsz d1 (a - l.text) else some 0) = some 0 := by
        by_cases hwin : inWindow l a = true
        · have hwin1 : inWindow { l with blocks := b1, direct := some d1 } a = true := hwin
          obtain ⟨hT, hZ⟩ := (inWindow_iff l a).mp hwin
          have hlt : a - l.text < l.textsz := by
            unfold add32 W32 at hZ
            unfold W32 at hw
            omega
          simp only [hwin1, if_true, readDirect, hlt, Option.some.injEq]
          rw [hB (a - l.text)]
          intro k v _ h1 h2 he2
          have hk := key_of_index _ _ _ a k hw h1 h2 hT he2
          exact hin (hk ▸ ⟨h1, h2⟩)
        · have hwin1 : ¬ inWindow { l with blocks := b1, direct := some d1 } a = true := hwin
          simp [hwin1]
      simp only [hdir, hHa]
      cases kh_get l.blocks (sub32 a l.base) <;> simp

/-- Equivalence of the lookups across `ConvertHash2Direct`: for a region
without direct array whose window lies in the 32-bit address space
(`text + textsz < 2^32`) and whose hash holds each key once,
`ConvertHash2Direct` completes; every guest address at which the lookup (direct probe in the
window, then hash probe under `addr - base`) found a block before finds the
same block after, and no address gains a block it did not have. -/
theorem ConvertHash2Direct_probe (s : State) (r : Nat) (l : dynablocklist_t)
    (hl : s.list r = some l) (hd : l.direct = none)
    (hw : l.text + l.textsz < W32) (hn : (l.blocks.map Prod.fst).Nodup) :
    ∃ s1, ConvertHash2Direct s r = some s1 ∧
      (∀ a B, a < W32 → B ≠ 0 → probe s r a = some B → probe s1 r a = some B) ∧
      (∀ a B, a < W32 → B ≠ 0 → probe s1 r a = some B → probe s r a = some B) ∧
      (∀ a, a < W32 → probe s r a = some 0 → probe s1 r a = some 0) := by
  obtain ⟨s1, he, hp⟩ := ConvertHash2Direct_keeps_probe s r l hl hd hw hn
  refine ⟨s1, he, ?_, ?_, ?_⟩
  · intro a B ha _ hb
    rw [hp a ha]
    exact hb
  · intro a B ha _ hb
    rw [← hp a ha]
    exact hb
  · intro a ha h0
    rw [hp a ha]
    exact h0

/-- The lookups across `ConvertHash2Direct` at a region whose hash holds a
block in the window and one outside. -/
theorem ConvertHash2Direct_probe_witness :
    (hashTwo.list 1 = some hashTwoList ∧ hashTwoList.direct = none ∧
      hashTwoList.text + hashTwoList.textsz < W32 ∧
      (hashTwoList.blocks.map Prod.fst).Nodup) ∧
    ∃ s1, ConvertHash2Direct hashTwo 1 = some s1 ∧
      (∀ a B, a < W32 → B ≠ 0 → probe hashTwo 1 a = some B → probe s1 1 a = some B) ∧
      (∀ a B, a < W32 → B ≠ 0 → probe s1 1 a = some B → probe hashTwo 1 a = some B) ∧
      (∀ a, a < W32 → probe hashTwo 1 a = some 0 → probe s1 1 a = some 0) :=
  ⟨⟨rfl, rfl, by decide, by decide⟩,
    ConvertHash2Direct_probe hashTwo 1 hashTwoList rfl rfl (by decide) (by decide)⟩

/-! ## Theorems: AddNewDynablock in a region without direct array -/

theorem State.db_setDb (s : State) (p q : Nat) (b : dynablock_t) :
    (s.setDb p b).db q = if q = 0 then none else if q = p then some b else s.db q := by
  unfold State.db State.setDb
  by_cases h0 : q = 0
  · simp [h0]
  · by_cases h1 : q = p
    · subst h1
      simp [h0]
    · simp [h0, h1, Function.update]

/-- One insertion in a region without direct array, the key being absent and
the hash not reaching `MAGIC_SIZE`: the new block is the next allocation and
is appended to the hash. -/
theorem AddNewDynablock_hash_small (s : State) (r : Nat) (l : dynablocklist_t) (a : Nat)
    (hl : s.list r = some l) (hd : l.direct = none)
    (hg : kh_get l.blocks (sub32 a l.base) = none) (hbrk : s.brk ≠ 0)
    (hsz : l.blocks.length + 1 ≠ MAGIC_SIZE) :
    ∃ s1, AddNewDynablock s r a = some (s1, s.brk, 1) ∧ s1.brk = s.brk + 1 ∧
      s1.list r = some { l with blocks := l.blocks ++ [(sub32 a l.base, s.brk)] } := by
  have hr0 := State.list_ne_zero s r l hl
  unfold AddNewDynablock probeDirect
  simp only [hl, hd, ne_eq, not_true_eq_false, if_false]
  unfold AddNewDynablock_hash
  simp only [hg, callocBlock, kh_put_value, kh_size, List.length_append, List.length_singleton,
    hsz, and_false, if_false, setParent]
  simp only [State.setList, State.log, State.setDb, State.db, hbrk, if_false,
    Function.update_same]
  refine ⟨_, rfl, rfl, ?_⟩
  simp [State.list, hr0, hd]

/-- The insertion that brings the hash of a region without direct array to
`MAGIC_SIZE` entries: the new block is the next allocation, and the region is
left with the tables the transfer loop builds. -/
theorem AddNewDynablock_hash_magic (s : State) (r : Nat) (l : dynablocklist_t) (a : Nat)
    (d1 : Nat → Nat) (b1 : kh_dynablocks_t)
    (hl : s.list r = some l) (hd : l.direct = none)
    (hg : kh_get l.blocks (sub32 a l.base) = none) (hbrk : s.brk ≠ 0)
    (hsz : l.blocks.length + 1 = MAGIC_SIZE) (hz : l.textsz ≠ 0) (ht : l.text ≠ 0)
    (htr : ConvertHash2Direct_transfer l.textsz (sub32 l.text l.base)
      (sub32 (add32 l.text l.textsz) l.base) (l.blocks ++ [(sub32 a l.base, s.brk)])
      (fun _ => 0) [] = some (d1, b1)) :
    ∃ s1, AddNewDynablock s r a = some (s1, s.brk, 1) ∧ s1.brk = s.brk + 1 ∧
      s1.list r = some { l with blocks := b1, direct := some d1 } := by
  have hr0 := State.list_ne_zero s r l hl
  unfold AddNewDynablock probeDirect
  simp only [hl, hd, ne_eq, not_true_eq_false, if_false]
  unfold AddNewDynablock_hash
  simp only [hg, callocBlock, kh_put_value, kh_size, List.length_append, List.length_singleton,
    hsz, hd, and_true, Option.isNone_none, if_true, ConvertHash2Direct, State.list_setList, hr0,
    if_false, hz, ht, or_self, htr, setParent]
  simp only [State.setList, State.log, State.setDb, State.db, hbrk, if_false,
    Function.update_same]
  refine ⟨_, rfl, rfl, ?_⟩
  simp [State.list, hr0]

theorem sub32_inj (a b B : Nat) (ha : a < W32) (hb : b < W32)
    (h : sub32 a B = sub32 b B) : a = b := by
  unfold sub32 W32 at *
  omega

theorem key_in_range (T Z B a : Nat) (hw : T + Z < W32) (hB : B ≤ T)
    (hT : T ≤ a) (hZ : a < T + Z) :
    sub32 T B ≤ sub32 a B ∧ sub32 a B < sub32 (add32 T Z) B ∧
      sub32 a B - sub32 T B = a - T := by
  unfold sub32 add32 W32 at *
  omega

/-- Insertions at addresses whose keys are distinct and absent, in a region
without direct array, as long as the hash stays below `MAGIC_SIZE`: every call
creates the next allocation and appends it to the hash. -/
theorem AddNewDynablock_all_hash (r : Nat) :
    ∀ (addrs : List Nat) (s : State) (l : dynablocklist_t),
      s.list r = some l → l.direct = none → s.brk ≠ 0 →
      l.blocks.length + addrs.length < MAGIC_SIZE →
      (∀ a ∈ addrs, kh_get l.blocks (sub32 a l.base) = none) →
      (addrs.map (fun a => sub32 a l.base)).Nodup →
      ∃ s1, AddNewDynablock_all r addrs s =
          some (s1, (List.range' s.brk addrs.length).map (fun b => (b, 1))) ∧
        s1.brk = s.brk + addrs.length ∧
        s1.list r = some { l with blocks := l.blocks ++
          (addrs.map (fun a => sub32 a l.base)).zip (List.range' s.brk addrs.length) }
  | [], s, l, hl, _, _, _, _, _ => by
      refine ⟨s, by simp [AddNewDynablock_all], by simp, ?_⟩
      simp [hl]
  | a :: rest, s, l, hl, hd, hbrk, hlen, habs, hnd => by
      simp only [List.length_cons, MAGIC_SIZE] at hlen
      simp only [List.map_cons, List.nodup_cons] at hnd
      have hsz : l.blocks.length + 1 ≠ MAGIC_SIZE := by
        unfold MAGIC_SIZE
        omega
      obtain ⟨s1, he1, hb1, hl1⟩ :=
        AddNewDynablock_hash_small s r l a hl hd (habs a (List.mem_cons_self _ _)) hbrk hsz
      have habs1 : ∀ a2 ∈ rest,
          kh_get (l.blocks ++ [(sub32 a l.base, s.brk)]) (sub32 a2 l.base) = none := by
        intro a2 h2
        rw [kh_get_append_one, habs a2 (List.mem_cons_of_mem _ h2)]
        have : sub32 a l.base ≠ sub32 a2 l.base := by
          intro e
          exact hnd.1 (e ▸ List.mem_map_of_mem _ h2)
        simp [this]
      obtain ⟨s2, he2, hb2, hl2⟩ :=
        AddNewDynablock_all_hash r rest s1
          { l with blocks := l.blocks ++ [(sub32 a l.base, s.brk)] } hl1 hd
          (by omega)
          (by simp only [List.length_append, List.length_singleton, MAGIC_SIZE]; omega)
          habs1 hnd.2
      refine ⟨s2, ?_, ?_, ?_⟩
      · simp only [AddNewDynablock_all, he1, he2, hb1, List.length_cons, List.range'_succ,
          List.map_cons]
      · rw [hb2, hb1, List.length_cons]
        omega
      · rw [hl2, hb1]
        simp only [List.length_cons, List.range'_succ, List.map_cons, List.zip_cons_cons,
          List.append_assoc, List.singleton_append]

theorem AddNewDynablock_all_append (r : Nat) :
    ∀ (xs ys : List Nat) (s s1 s2 : State) (bs1 bs2 : List (Nat × Nat)),
      AddNewDynablock_all r xs s = some (s1, bs1) →
      AddNewDynablock_all r ys s1 = some (s2, bs2) →
      AddNewDynablock_all r (xs ++ ys) s = some (s2, bs1 ++ bs2)
  | [], ys, s, s1, s2, bs1, bs2, h1, h2 => by
      simp only [AddNewDynablock_all, Option.some.injEq, Prod.mk.injEq] at h1
      rw [← h1.1] at h2
      simp [← h1.2, h2]
  | x :: xs, ys, s, s1, s2, bs1, bs2, h1, h2 => by
      simp only [AddNewDynablock_all, List.cons_append] at h1 ⊢
      show (match AddNewDynablock s r x with
        | none => none
        | some (s1, b, created) =>
          match AddNewDynablock_all r (xs ++ ys) s1 with
          | none => none
          | some (s2, bs) => some (s2, (b, created) :: bs)) = some (s2, bs1 ++ bs2)
      cases hx : AddNewDynablock s r x with
      | none => simp [hx] at h1
      | some res =>
          obtain ⟨sx, b, c⟩ := res
          simp only [hx] at h1 ⊢
          cases hr : AddNewDynablock_all r xs sx with
          | none => simp [hr] at h1
          | some res2 =>
              obtain ⟨sy, bs⟩ := res2
              simp only [hr, Option.some.injEq, Prod.mk.injEq] at h1
              rw [AddNewDynablock_all_append r xs ys sx sy s2 bs bs2 hr (h1.1 ▸ h2)]
              simp [← h1.2]

theorem kh_get_none_of_not_mem (h : kh_dynablocks_t) (k : Nat)
    (hk : k ∉ h.map Prod.fst) : kh_get h k = none := by
  cases hg : kh_get h k with
  | none => rfl
  | some v =>
      exact absurd (List.mem_map_of_mem Prod.fst (kh_get_mem h k v hg)) hk

theorem zip_key_mem (f : Nat → Nat) :
    ∀ (addrs ps : List Nat) (a : Nat) (p : Nat × Nat),
      (a, p) ∈ addrs.zip (ps.map (fun b => (b, 1))) →
      p.2 = 1 ∧ (f a, p.1) ∈ (addrs.map f).zip ps
  | [], _, _, _, h => by simp at h
  | _ :: _, [], _, _, h => by simp at h
  | x :: xs, y :: ys, a, p, h => by
      simp only [List.map_cons, List.zip_cons_cons, List.mem_cons] at h ⊢
      rcases h with h | h
      · simp only [Prod.mk.injEq] at h
        obtain ⟨h1, h2⟩ := h
        subst h1
        subst h2
        exact ⟨rfl, Or.inl rfl⟩
      · have := zip_key_mem f xs ys a p h
        exact ⟨this.1, Or.inr this.2⟩

theorem map_key_nodup (base : Nat) (addrs : List Nat) (hnd : addrs.Nodup)
    (hlt : ∀ a ∈ addrs, a < W32) : (addrs.map (fun a => sub32 a base)).Nodup := by
  apply List.Nodup.map_on _ hnd
  intro a ha b hb e
  exact sub32_inj a b base (hlt a ha) (hlt b hb) e

/-- The state and region of `NewDynablockList` called without direct array. -/
theorem NewDynablockList_hash (s : State) (base text textsz nolinker : Nat) (hbrk : s.brk ≠ 0) :
    (NewDynablockList s base text textsz nolinker 0).2 = s.brk ∧
    (NewDynablockList s base text textsz nolinker 0).1.brk = s.brk + 1 ∧
    (NewDynablockList s base text textsz nolinker 0).1.list s.brk =
      some { text := text, textsz := textsz, base := base, nolinker := nolinker,
             blocks := [], direct := none } := by
  simp [NewDynablockList, State.log, State.setList, State.list, hbrk]

/-- The keys of the addresses of the window, when the range of keys
`[text - base, text - base + textsz)` does not wrap: the key of `a` is in the
range `[start, end)` of `ConvertHash2Direct`, at the index `a - text`. -/
theorem key_in_key_range (T Z B a : Nat) (hs : sub32 T B + Z < W32) (ha : a < W32)
    (hT : T ≤ a) (hZ : a < T + Z) :
    sub32 T B ≤ sub32 a B ∧ sub32 a B < sub32 (add32 T Z) B ∧
      sub32 a B - sub32 T B = a - T := by
  unfold sub32 add32 W32 at *
  omega

/-- `MAGIC_SIZE` insertions at addresses of distinct keys in a region created
without direct array, `textsz` and `text` not being zero: every call creates a
block, and the region is left with the tables that the transfer loop of
`ConvertHash2Direct` builds from the `MAGIC_SIZE` entries of the hash. -/
theorem AddNewDynablock_all_full (s0 : State) (r : Nat) (l0 : dynablocklist_t)
    (addrs : List Nat) (hl0 : s0.list r = some l0) (hd0 : l0.direct = none)
    (hb0 : l0.blocks = []) (hbrk : s0.brk ≠ 0) (hz : l0.textsz ≠ 0) (ht : l0.text ≠ 0)
    (hkeys : (addrs.map (fun a => sub32 a l0.base)).Nodup)
    (hfull : addrs.length = MAGIC_SIZE) :
    ∃ s2 bs entries d1 b1,
      AddNewDynablock_all r addrs s0 = some (s2, bs) ∧ bs.length = addrs.length ∧
      (∀ p ∈ bs, p.1 ≠ 0 ∧ p.2 = 1) ∧
      s2.list r = some { l0 with blocks := b1, direct := some d1 } ∧
      ConvertHash2Direct_transfer l0.textsz (sub32 l0.text l0.base)
        (sub32 (add32 l0.text l0.textsz) l0.base) entries (fun _ => 0) [] = some (d1, b1) ∧
      (entries.map Prod.fst).Nodup ∧
      (∀ p ∈ addrs.zip bs, (sub32 p.1 l0.base, p.2.1) ∈ entries) := by
  have hpos : ∀ (n : Nat) (p : Nat × Nat),
      p ∈ (List.range' s0.brk n).map (fun b => (b, 1)) → p.1 ≠ 0 ∧ p.2 = 1 := by
    intro n p hp
    simp only [List.mem_map, List.mem_range'_1] at hp
    obtain ⟨b, hb, rfl⟩ := hp
    exact ⟨by simp only; omega, rfl⟩
  rcases List.eq_nil_or_concat addrs with hnil | ⟨init, last, hcat⟩
  · rw [hnil] at hfull
    simp [MAGIC_SIZE] at hfull
  rw [List.concat_eq_append] at hcat
  subst hcat
  simp only [List.length_append, List.length_singleton] at hfull
  simp only [List.map_append, List.map_cons, List.map_nil] at hkeys
  have hkeys1 := (List.nodup_append.mp hkeys)
  obtain ⟨s1, he1, hb1, hl1⟩ :=
    AddNewDynablock_all_hash r init s0 l0 hl0 hd0 hbrk
      (by rw [hb0]; simp only [List.length_nil, MAGIC_SIZE] at hfull ⊢; omega)
      (fun a _ => by rw [hb0]; rfl) hkeys1.1
  simp only [hb0, List.nil_append] at hl1
  have hzl : ((init.map (fun a => sub32 a l0.base)).zip (List.range' s0.brk init.length)).map
      Prod.fst = init.map (fun a => sub32 a l0.base) := by
    apply List.map_fst_zip
    simp
  have hlast : sub32 last l0.base ∉ init.map (fun a => sub32 a l0.base) := by
    intro hm
    exact hkeys1.2.2 hm (List.mem_singleton_self _)
  have hg : kh_get ((init.map (fun a => sub32 a l0.base)).zip
      (List.range' s0.brk init.length)) (sub32 last l0.base) = none := kh_get_none_of_not_mem _ _ (by rw [hzl]; exact hlast)
  have hnd1 : ((((init.map (fun a => sub32 a l0.base)).zip
      (List.range' s0.brk init.length)) ++
      [(sub32 last l0.base, s1.brk)]).map Prod.fst).Nodup := by
    rw [List.map_append, hzl]
    exact hkeys
  obtain ⟨d1, b1, htr, _, _⟩ :=
    ConvertHash2Direct_transfer_direct l0.textsz (sub32 l0.text l0.base)
      (sub32 (add32 l0.text l0.textsz) l0.base) (fun k h1 h2 => window_index_lt _ _ _ k h1 h2)
      (((init.map (fun a => sub32 a l0.base)).zip (List.range' s0.brk init.length)) ++
        [(sub32 last l0.base, s1.brk)]) (fun _ => 0) [] hnd1
  obtain ⟨s2, he2, _, hl2⟩ :=
    AddNewDynablock_hash_magic s1 r _ last d1 b1 hl1 hd0 hg (by omega)
      (by simpa using hfull) hz ht htr
  have hall := AddNewDynablock_all_append r init [last] s0 s1 s2 _ [(s1.brk, 1)] he1
    (by simp [AddNewDynablock_all, he2])
  refine ⟨s2, _, _, d1, b1, hall, by simp, ?_, hl2, htr, hnd1, ?_⟩
  · intro p hp
    rcases List.mem_append.mp hp with h | h
    · exact hpos _ p h
    · simp only [List.mem_singleton] at h
      subst h
      exact ⟨by simp only; omega, rfl⟩
  · intro p hp
    have hzip : (init ++ [last]).zip
        ((List.range' s0.brk init.length).map (fun b => (b, 1)) ++ [(s1.brk, 1)]) =
        init.zip ((List.range' s0.brk init.length).map (fun b => (b, 1))) ++
          [(last, (s1.brk, 1))] := by
      rw [List.zip_append (by simp)]
      rfl
    rw [hzip] at hp
    obtain ⟨a, q⟩ := p
    rcases List.mem_append.mp hp with h | h
    · exact List.mem_append_left _ (zip_key_mem _ _ _ a q h).2
    · simp only [List.mem_singleton, Prod.mk.injEq] at h
      obtain ⟨h1, h2⟩ := h
      subst h1
      subst h2
      exact List.mem_append_right _ (List.mem_singleton_self _)

/-- C8 (amended): a region created without direct array, with `textsz > 0`,
`text != 0`, and whose range of keys `[text - base, text - base + textsz)` does
not wrap: `(text - base) mod 2^32 + textsz < 2^32`.  After insertions at
distinct addresses of the window, each call has created a block; with fewer
than `MAGIC_SIZE` insertions the region has no direct array; with
`MAGIC_SIZE` insertions it has one, and the block inserted at `a` is in
`direct[a - text]`, the index `key - (text - base)` of its key `a - base`. -/
theorem AddNewDynablock_promotes (s : State) (base text textsz nolinker : Nat)
    (addrs : List Nat) (hbrk : s.brk ≠ 0) (hz : textsz ≠ 0) (ht : text ≠ 0)
    (hs : sub32 text base + textsz < W32) (hnd : addrs.Nodup)
    (hlt : ∀ a ∈ addrs, a < W32)
    (hin : ∀ a ∈ addrs, text ≤ a ∧ a < text + textsz) (hlen : addrs.length ≤ MAGIC_SIZE) :
    ∃ s1 bs l1,
      AddNewDynablock_all (NewDynablockList s base text textsz nolinker 0).2 addrs
        (NewDynablockList s base text textsz nolinker 0).1 = some (s1, bs) ∧
      bs.length = addrs.length ∧ (∀ p ∈ bs, p.1 ≠ 0 ∧ p.2 = 1) ∧
      s1.list (NewDynablockList s base text textsz nolinker 0).2 = some l1 ∧
      (addrs.length < MAGIC_SIZE → l1.direct = none) ∧
      (addrs.length = MAGIC_SIZE → ∃ d, l1.direct = some d ∧
        ∀ p ∈ addrs.zip bs, readDirect l1.textsz d (p.1 - text) = some p.2.1 ∧
          sub32 p.1 base - sub32 text base = p.1 - text) := by
  obtain ⟨hr, hb0, hl0⟩ := NewDynablockList_hash s base text textsz nolinker hbrk
  rw [hr]
  generalize (NewDynablockList s base text textsz nolinker 0).1 = s0 at hb0 hl0
  have hkeys := map_key_nodup base addrs hnd hlt
  rcases Nat.lt_or_eq_of_le hlen with hsmall | hfull
  · -- fewer than MAGIC_SIZE insertions
    have hpos : ∀ (n : Nat) (p : Nat × Nat),
        p ∈ (List.range' s0.brk n).map (fun b => (b, 1)) → p.1 ≠ 0 ∧ p.2 = 1 := by
      intro n p hp
      simp only [List.mem_map, List.mem_range'_1] at hp
      obtain ⟨b, hb, rfl⟩ := hp
      exact ⟨by simp only; omega, rfl⟩
    obtain ⟨s1, he, _, hl1⟩ :=
      AddNewDynablock_all_hash s.brk addrs s0 _ hl0 rfl (by omega)
        (by simpa using hsmall) (fun a _ => rfl) hkeys
    refine ⟨s1, _, _, he, by simp, hpos _, hl1, fun _ => rfl, fun h => ?_⟩
    omega
  · -- exactly MAGIC_SIZE insertions
    obtain ⟨s2, bs, entries, d1, b1, hall, hlen2, hpos, hl2, htr, hnd1, hmem⟩ :=
      AddNewDynablock_all_full s0 s.brk _ addrs hl0 rfl rfl (by omega) hz ht hkeys hfull
    simp only at htr hmem
    obtain ⟨d1', b1', htr', hA, _⟩ :=
      ConvertHash2Direct_transfer_direct textsz (sub32 text base)
        (sub32 (add32 text textsz) base) (fun k h1 h2 => window_index_lt _ _ _ k h1 h2)
        entries (fun _ => 0) [] hnd1
    rw [htr] at htr'
    simp only [Option.some.injEq, Prod.mk.injEq] at htr'
    obtain ⟨e1, _⟩ := htr'
    subst e1
    refine ⟨s2, bs, _, hall, hlen2, hpos, hl2, fun h => ?_, fun _ => ⟨d1, rfl, ?_⟩⟩
    · omega
    · intro p hp
      have ha : p.1 ∈ addrs := (List.of_mem_zip hp).1
      obtain ⟨hT, hZ⟩ := hin p.1 ha
      obtain ⟨k1, k2, k3⟩ := key_in_key_range text textsz base p.1 hs (hlt p.1 ha) hT hZ
      have hd := hA _ _ (hmem p hp) k1 k2
      simp only [readDirect]
      rw [k3] at hd
      have : p.1 - text < textsz := by omega
      simp [this, hd, k3]

/-- C8 (amended) at the 256 addresses of the window `[0x1000, 0x1100)` of a
region whose base, `0x2000`, is above the window. -/
theorem AddNewDynablock_promotes_witness :
    (emptyState.brk ≠ 0 ∧ 0x100 ≠ 0 ∧ 0x1000 ≠ 0 ∧ sub32 0x1000 0x2000 + 0x100 < W32 ∧
      (List.range' 0x1000 256).Nodup ∧ (∀ a ∈ List.range' 0x1000 256, a < W32) ∧
      (∀ a ∈ List.range' 0x1000 256, 0x1000 ≤ a ∧ a < 0x1000 + 0x100) ∧
      (List.range' 0x1000 256).length ≤ MAGIC_SIZE) ∧
    ∃ s1 bs l1,
      AddNewDynablock_all (NewDynablockList emptyState 0x2000 0x1000 0x100 0 0).2
        (List.range' 0x1000 256)
        (NewDynablockList emptyState 0x2000 0x1000 0x100 0 0).1 = some (s1, bs) ∧
      bs.length = (List.range' 0x1000 256).length ∧ (∀ p ∈ bs, p.1 ≠ 0 ∧ p.2 = 1) ∧
      s1.list (NewDynablockList emptyState 0x2000 0x1000 0x100 0 0).2 = some l1 ∧
      ((List.range' 0x1000 256).length < MAGIC_SIZE → l1.direct = none) ∧
      ((List.range' 0x1000 256).length = MAGIC_SIZE → ∃ d, l1.direct = some d ∧
        ∀ p ∈ (List.range' 0x1000 256).zip bs,
          readDirect l1.textsz d (p.1 - 0x1000) = some p.2.1 ∧
          sub32 p.1 0x2000 - sub32 0x1000 0x2000 = p.1 - 0x1000) := by
  have h1 : emptyState.brk ≠ 0 := by decide
  have h2 : sub32 0x1000 0x2000 + 0x100 < W32 := by decide
  have h3 : (List.range' 0x1000 256).Nodup := List.nodup_range' _ _
  have h4 : ∀ a ∈ List.range' 0x1000 256, 0x1000 ≤ a ∧ a < 0x1000 + 0x100 := by
    intro a ha
    simp only [List.mem_range'_1] at ha
    omega
  have h6 : ∀ a ∈ List.range' 0x1000 256, a < W32 := by
    intro a ha
    simp only [List.mem_range'_1] at ha
    unfold W32
    omega
  have h5 : (List.range' 0x1000 256).length ≤ MAGIC_SIZE := by simp [MAGIC_SIZE]
  exact ⟨⟨h1, by decide, by decide, h2, h3, h6, h4, h5⟩,
    AddNewDynablock_promotes emptyState 0x2000 0x1000 0x100 0 (List.range' 0x1000 256)
      h1 (by decide) (by decide) h2 h3 h6 h4 h5⟩

set_option maxRecDepth 1000000 in
/-- C8, as stated, fails when the base is in `(text, text + textsz]`: in the
region of `NewDynablockList(0x2000, 0x1000, 0x1000, 0, 0)`, whose base is
`text + textsz`, after insertions at the 256 addresses `0x1000 .. 0x10FF` the
region has a direct array, the block created at `0x1000` is block 2, and
`direct[0]` is `NULL`. -/
theorem AddNewDynablock_promotes_high_base :
    (AddNewDynablock_all 1 (List.range' 0x1000 256) highBaseRegion).map
      (fun res => ((res.1.list 1).map (fun l => l.direct.map (fun d => d 0)), res.2.head?)) =
      some (some (some 0), some (2, 1)) := by
  decide

/-! ## Theorems: AddMark -/

theorem mem_kh_del_mark (m : kh_mark_t) (key k : Nat) :
    k ∈ kh_del_mark m key ↔ k ∈ m ∧ k ≠ key := by
  simp [kh_del_mark]

theorem mem_kh_put_mark (m : kh_mark_t) (key k : Nat) :
    k ∈ kh_put_mark m key ↔ k ∈ m ∨ k = key := by
  unfold kh_put_mark
  by_cases h : key ∈ m
  · simp only [h, if_true]
    constructor
    · exact Or.inl
    · rintro (h1 | h1)
      · exact h1
      · exact h1 ▸ h
  · simp [h]

theorem marksOf_setDb (s : State) (p q : Nat) (b : dynablock_t) (hp : p ≠ 0) :
    marksOf (s.setDb p b) q = if q = p then b.marks else marksOf s q := by
  unfold marksOf
  rw [State.db_setDb]
  by_cases h0 : q = 0
  · subst h0
    have : (0 : Nat) ≠ p := fun e => hp e.symm
    simp [State.db, this]
  · by_cases h1 : q = p
    · simp [h1, hp]
    · simp [h0, h1]

/-- The stage "remove old value if any" of `AddMark` completes when the old
callee is `NULL` or live; it changes the marks of that block only. -/
theorem AddMark_remove_spec (s : State) (S O : Nat) (hOl : O ≠ 0 → (s.db O).isSome) :
    ∃ s1, AddMark_remove s O S = some s1 ∧ s1.words = s.words ∧
      (∀ p, (s1.db p).map (fun b => b.father) = (s.db p).map (fun b => b.father)) ∧
      (∀ p, marksOf s1 p =
        if p = O then (marksOf s p).map (fun m => kh_del_mark m S) else marksOf s p) := by
  unfold AddMark_remove
  by_cases h0 : O = 0
  · subst h0
    refine ⟨s, by simp, rfl, fun _ => rfl, fun p => ?_⟩
    by_cases hp : p = 0
    · subst hp
      simp [marksOf, State.db]
    · simp [hp]
  · obtain ⟨o, ho⟩ := Option.isSome_iff_exists.mp (hOl h0)
    simp only [ne_eq, h0, not_false_eq_true, if_true, ho]
    cases hm : o.marks with
    | none =>
        refine ⟨s, rfl, rfl, fun _ => rfl, fun p => ?_⟩
        by_cases hp : p = O
        · subst hp
          simp [marksOf, ho, hm]
        · simp [hp]
    | some m =>
        refine ⟨_, rfl, rfl, fun p => ?_, fun p => ?_⟩
        · rw [State.db_setDb]
          by_cases hp0 : p = 0
          · subst hp0
            simp [State.db]
          · by_cases hp : p = O
            · subst hp
              simp [hp0, ho]
            · simp [hp0, hp]
        · rw [marksOf_setDb _ _ _ _ h0]
          by_cases hp : p = O
          · subst hp
            simp [marksOf, ho, hm]
          · simp [hp]

/-- The marks sets after `AddMark(source, dest, table)`, when the pointers it
follows are live: the slot is deleted from the set of the father-resolved old
callee `O`, then put in the set of the father-resolved `dest`, `D`; word 3 of
the slot is `D`. -/
theorem AddMark_marksOf (s : State) (src newD S O D : Nat)
    (hO : resolveFather s (s.words (S + 4 * 3)) = some O)
    (hOl : O ≠ 0 → (s.db O).isSome)
    (hN : newD ≠ 0) (hD : resolveFather s newD = some D) (hDl : (s.db D).isSome) :
    ∃ s1, AddMark s src newD S = some s1 ∧ s1.words (S + 4 * 3) = D ∧
      ∀ p, marksOf s1 p =
        if p = D then
          ((if p = O then (marksOf s p).map (fun m => kh_del_mark m S) else marksOf s p)).map
            (fun m => kh_put_mark m S)
        else if p = O then (marksOf s p).map (fun m => kh_del_mark m S) else marksOf s p := by
  unfold AddMark
  rw [hO]
  simp only []
  obtain ⟨s1, h1, hw1, hf1, hm1⟩ := AddMark_remove_spec s S O hOl
  rw [h1]
  simp only []
  unfold resolveFather at hD
  simp only [hN, if_false] at hD
  cases hd0 : s.db newD with
  | none => simp [hd0] at hD
  | some d0 =>
    simp only [hd0, Option.map_some', Option.some.injEq] at hD
    have hf0 := hf1 newD
    rw [hd0] at hf0
    cases hd0' : s1.db newD with
    | none => simp [hd0'] at hf0
    | some d0' =>
      simp only [hd0', Option.map_some', Option.some.injEq] at hf0
      simp only [hf0, hD]
      have hD0 : D ≠ 0 := by
        intro e
        simp [e, State.db] at hDl
      obtain ⟨d, hd⟩ := Option.isSome_iff_exists.mp hDl
      have hfD := hf1 D
      rw [hd] at hfD
      unfold AddMark_add
      cases hd' : s1.db D with
      | none => simp [hd'] at hfD
      | some d' =>
        simp only []
        have hmD : marksOf s1 D = d'.marks := by simp [marksOf, hd']
        cases hmk : d'.marks with
        | none =>
            refine ⟨_, rfl, by simp, fun p => ?_⟩
            show marksOf s1 p = _
            rw [hm1 p]
            by_cases hp : p = D
            · subst hp
              rw [hm1, hmk] at hmD
              simp only [if_true]
              rw [hmD]
              rfl
            · simp [hp]
        | some m =>
            refine ⟨_, rfl, by simp, fun p => ?_⟩
            show marksOf (s1.setDb D _) p = _
            rw [marksOf_setDb _ _ _ _ hD0]
            by_cases hp : p = D
            · subst hp
              rw [hm1, hmk] at hmD
              simp only [if_true]
              rw [hmD]
              rfl
            · simp only [hp, if_false]
              exact hm1 p

/-- C10: after `AddMark(src, newD, S)`, with `O` the father-resolved block that
word 3 of the slot `S` named and `D` the father-resolved `newD` (the pointers
followed being live): word 3 of `S` is `D`; when `D` has marks, `S` is in them;
when `O` is not `NULL`, has marks and is not `D`, `S` is not in them; no other
element of any marks set is added or removed, and no marks set appears or
disappears. -/
theorem AddMark_links (s : State) (src newD S O D : Nat)
    (hO : resolveFather s (s.words (S + 4 * 3)) = some O)
    (hOl : O ≠ 0 → (s.db O).isSome)
    (hN : newD ≠ 0) (hD : resolveFather s newD = some D) (hDl : (s.db D).isSome) :
    ∃ s1, AddMark s src newD S = some s1 ∧ s1.words (S + 4 * 3) = D ∧
      ((marksOf s D).isSome → hasMark s1 D S) ∧
      (O ≠ 0 → (marksOf s O).isSome → O ≠ D → ¬ hasMark s1 O S) ∧
      (∀ p k, ¬ (k = S ∧ (p = O ∨ p = D)) → (hasMark s1 p k ↔ hasMark s p k)) ∧
      (∀ p, (marksOf s1 p).isSome = (marksOf s p).isSome) := by
  obtain ⟨s1, he, hw, hm⟩ := AddMark_marksOf s src newD S O D hO hOl hN hD hDl
  refine ⟨s1, he, hw, ?_, ?_, ?_, ?_⟩
  · intro hsome
    obtain ⟨m, hmD⟩ := Option.isSome_iff_exists.mp hsome
    unfold hasMark
    rw [hm D, hmD]
    by_cases hOD : D = O
    · exact ⟨kh_put_mark (kh_del_mark m S) S, by simp [hOD],
        (mem_kh_put_mark _ _ _).mpr (Or.inr rfl)⟩
    · exact ⟨kh_put_mark m S, by simp [hOD], (mem_kh_put_mark _ _ _).mpr (Or.inr rfl)⟩
  · intro _ hsome hne
    obtain ⟨m, hmO⟩ := Option.isSome_iff_exists.mp hsome
    unfold hasMark
    rw [hm O, hmO]
    simp only [hne, if_false, if_true, Option.map_some', Option.some.injEq]
    rintro ⟨m1, rfl, hk⟩
    exact ((mem_kh_del_mark _ _ _).mp hk).2 rfl
  · intro p k hpk
    unfold hasMark
    rw [hm p]
    cases hmp : marksOf s p with
    | none => by_cases h1 : p = D <;> by_cases h2 : p = O <;> simp [h1, h2]
    | some m =>
        by_cases h1 : p = D
        · have hk : k ≠ S := fun e => hpk ⟨e, Or.inr h1⟩
          by_cases h2 : p = O
          · simp [h1.symm, h2.symm, mem_kh_put_mark, mem_kh_del_mark, hk]
          · simp [h1.symm, h2, mem_kh_put_mark, hk]
        · by_cases h2 : p = O
          · have hk : k ≠ S := fun e => hpk ⟨e, Or.inl h2⟩
            simp [h1, h2.symm, mem_kh_del_mark, hk]
          · simp [h1, h2]
  · intro p
    rw [hm p]
    cases marksOf s p <;> split_ifs <;> rfl

/-- C10 at a slot that named block 3 and is linked to block 4. -/
theorem AddMark_links_witness :
    (resolveFather linkState (linkState.words (0x100 + 4 * 3)) = some 3 ∧
      (3 ≠ 0 → (linkState.db 3).isSome) ∧ 4 ≠ 0 ∧ resolveFather linkState 4 = some 4 ∧
      (linkState.db 4).isSome) ∧
    ∃ s1, AddMark linkState 2 4 0x100 = some s1 ∧ s1.words (0x100 + 4 * 3) = 4 ∧
      ((marksOf linkState 4).isSome → hasMark s1 4 0x100) ∧
      (3 ≠ 0 → (marksOf linkState 3).isSome → 3 ≠ 4 → ¬ hasMark s1 3 0x100) ∧
      (∀ p k, ¬ (k = 0x100 ∧ (p = 3 ∨ p = 4)) → (hasMark s1 p k ↔ hasMark linkState p k)) ∧
      (∀ p, (marksOf s1 p).isSome = (marksOf linkState p).isSome) :=
  ⟨⟨by decide, fun _ => by decide, by decide, by decide, by decide⟩,
    AddMark_links linkState 2 4 0x100 3 4 (by decide) (fun _ => by decide) (by decide)
      (by decide) (by decide)⟩
/-! ## Theorems: lookup -/

theorem State.list_congr (s s1 : State) (h : s1.lists = s.lists) (r : Nat) :
    s1.list r = s.list r := by
  simp [State.list, h]

theorem probe_congr (s s1 : State) (h : s1.lists = s.lists) (r a : Nat) :
    probe s1 r a = probe s r a := by
  unfold probe
  rw [State.list_congr s s1 h]

theorem internalDBGetBlock_quick_congr (s s1 : State) (h : SameDirectory s s1) (a cur : Nat) :
    internalDBGetBlock_quick s1 a cur = internalDBGetBlock_quick s a cur := by
  unfold internalDBGetBlock_quick
  by_cases hc : cur = 0
  · simp [hc]
  · simp only [ne_eq, hc, not_false_eq_true, if_true]
    have hp := h.2 cur
    cases h1 : s1.db cur with
    | none =>
        cases h0 : s.db cur with
        | none => rfl
        | some b0 => simp [h1, h0] at hp
    | some b1 =>
        cases h0 : s.db cur with
        | none => simp [h1, h0] at hp
        | some b0 =>
            simp only [h1, h0, Option.map_some', Option.some.injEq] at hp
            simp only [hp, State.list_congr s s1 h.1]

/-- A lookup that finds a block does so in every state holding the same
directory, whatever `create` is, and leaves the state as it is. -/
theorem internalDBGetBlock_found (ext : Extern) (s s1 : State) (h : SameDirectory s s1)
    (a cur B c0 c1 : Nat) (hB : B ≠ 0) (s0 : State)
    (hf : internalDBGetBlock ext s a c0 cur = some (s0, B)) (hc0 : c0 = 0) :
    internalDBGetBlock ext s1 a c1 cur = some (s1, B) := by
  subst hc0
  unfold internalDBGetBlock at hf ⊢
  rw [internalDBGetBlock_quick_congr s s1 h]
  cases hq : internalDBGetBlock_quick s a cur with
  | none => simp [hq] at hf
  | some q =>
      obtain ⟨r0, blk⟩ := q
      simp only [hq] at hf ⊢
      by_cases hb : blk = 0
      · simp only [hb, ne_eq, not_true_eq_false, if_false] at hf ⊢
        by_cases hr : (if r0 = 0 then ext.GetDynablocksFromAddress a else r0) = 0
        · simp only [hr, if_true, Option.some.injEq, Prod.mk.injEq] at hf
          exact absurd hf.2.symm hB
        · simp only [hr, if_false] at hf ⊢
          unfold internalDBGetBlock_slow at hf ⊢
          rw [probe_congr s s1 h.1]
          cases hp : probe s (if r0 = 0 then ext.GetDynablocksFromAddress a else r0) a with
          | none => simp [hp] at hf
          | some found =>
              simp only [hp] at hf ⊢
              by_cases hfd : found = 0
              · simp only [hfd, ne_eq, not_true_eq_false, if_false, if_true, Option.some.injEq,
                  Prod.mk.injEq] at hf
                exact absurd hf.2.symm hB
              · simp only [hfd, ne_eq, not_false_eq_true, if_true, Option.some.injEq,
                  Prod.mk.injEq] at hf ⊢
                exact ⟨trivial, hf.2⟩
      · simp only [hb, ne_eq, not_false_eq_true, if_true, Option.some.injEq,
          Prod.mk.injEq] at hf ⊢
        exact ⟨trivial, hf.2⟩

/-! ## Theorems: MarkDynablock and the test of DBGetBlock -/

theorem resetMarks_fields (ext : Extern) (m : kh_mark_t) :
    ∀ s : State, (resetMarks ext s m).lists = s.lists ∧ (resetMarks ext s m).dbs = s.dbs ∧
      (resetMarks ext s m).brk = s.brk ∧ (resetMarks ext s m).mem = s.mem := by
  unfold resetMarks
  induction m with
  | nil => intro s; exact ⟨rfl, rfl, rfl, rfl⟩
  | cons k rest ih =>
      intro s
      simp only [List.foldl_cons]
      obtain ⟨h1, h2, h3, h4⟩ := ih ({ s with words := ext.resettable s.words k }.log
        (Event.resettable k))
      exact ⟨h1, h2, h3, h4⟩

theorem resetMarks_db (ext : Extern) (m : kh_mark_t) (s : State) (p : Nat) :
    (resetMarks ext s m).db p = s.db p := by
  simp [State.db, (resetMarks_fields ext m s).2.1]

/-- The state after `MarkDynablock(B)`, `F` being the father-resolved `B` and
both being live. -/
theorem MarkDynablock_spec (ext : Extern) (s : State) (B F : Nat) (b f : dynablock_t)
    (hb : s.db B = some b) (hF : F = if b.father ≠ 0 then b.father else B)
    (hf : s.db F = some f) :
    MarkDynablock ext s B = some
      ((if f.marks.isSome ∧ f.need_test = 0 then resetMarks ext s (f.marks.getD []) else s).setDb F
        { f with marks := if f.need_test = 0 then f.marks.map (fun _ => []) else f.marks,
                 need_test := 1 }) := by
  have hB0 := State.db_ne_zero s B b hb
  unfold MarkDynablock
  simp only [hB0, if_false, hb, ← hF, hf]
  cases hm : f.marks with
  | none => simp
  | some m =>
      by_cases hn : f.need_test = 0
      · simp [hn]
      · simp [hn]

/-- When the lookup finds a block that needs a test and the guest bytes of its
father-resolved block hash to the stored value, `DBGetBlock` returns the block
and clears `need_test` of the father-resolved block. -/
theorem DBGetBlock_test_pass (ext : Extern) (s : State) (addr create current B F : Nat)
    (b f : dynablock_t)
    (hfind : internalDBGetBlock ext s addr create current = some (s, B)) (hB : B ≠ 0)
    (hb : s.db B = some b) (hF : F = if b.father ≠ 0 then b.father else B)
    (hf : s.db F = some f)
    (htest : b.need_test ≠ 0 ∨ (b.father ≠ 0 ∧ f.need_test ≠ 0))
    (hhash : X31_hash_code s.mem f.x86_addr f.x86_size = f.hash) :
    DBGetBlock ext s addr create current = some (s.setDb F { f with need_test := 0 }, B) := by
  unfold DBGetBlock needsTest DBGetBlock_retest
  simp only [hfind, hB, if_false, hb]
  by_cases hn : b.need_test = 0
  · have hfa : b.father ≠ 0 := by
      rcases htest with h | h
      · exact absurd hn h
      · exact h.1
    have hfn : f.need_test ≠ 0 := by
      rcases htest with h | h
      · exact absurd hn h
      · exact h.2
    simp only [hfa, if_true, ne_eq, not_false_eq_true] at hF
    subst hF
    simp only [hn, ne_eq, not_true_eq_false, if_false, hfa, not_false_eq_true, if_true,
      hf, hfn, decide_True, hhash]
  · simp only [hn, ne_eq, not_false_eq_true, if_true, ← hF, hf, hhash, not_true_eq_false,
      if_false]

/-- When the lookup finds a block that needs no test, `DBGetBlock` returns it
and leaves the state as it is. -/
theorem DBGetBlock_no_test (ext : Extern) (s : State) (addr create current B : Nat)
    (b : dynablock_t)
    (hfind : internalDBGetBlock ext s addr create current = some (s, B))
    (hb : s.db B = some b) (hn : b.need_test = 0)
    (hfa : b.father ≠ 0 → ∃ f, s.db b.father = some f ∧ f.need_test = 0) :
    DBGetBlock ext s addr create current = some (s, B) := by
  have hB := State.db_ne_zero s B b hb
  unfold DBGetBlock needsTest
  simp only [hfind, hB, if_false, hb, hn, ne_eq, not_true_eq_false]
  by_cases h0 : b.father = 0
  · simp [h0]
  · obtain ⟨f, hf, hfn⟩ := hfa h0
    simp [h0, hf, hfn]

/-- C6: a block `B` that the lookup of `addr` finds, whose father-resolved
block is `F`, both live.  `MarkDynablock(B)` completes, and a following
`DBGetBlock(addr, create, current)`, over guest bytes of `F` that hash to
`F.hash`, returns `B`; afterwards `need_test` of `F` is clear, the regions are
as they were, and the same blocks are allocated: none is freed, none is
created, no external call is made. -/
theorem DBGetBlock_after_mark (ext : Extern) (s s0 : State) (addr create current B F : Nat)
    (b f : dynablock_t) (mem1 : Mem)
    (hfind : internalDBGetBlock ext s addr 0 current = some (s0, B)) (hB : B ≠ 0)
    (hb : s.db B = some b) (hF : F = if b.father ≠ 0 then b.father else B)
    (hf : s.db F = some f)
    (hhash : X31_hash_code mem1 f.x86_addr f.x86_size = f.hash) :
    ∃ s1 s2, MarkDynablock ext s B = some s1 ∧
      DBGetBlock ext { s1 with mem := mem1 } addr create current = some (s2, B) ∧
      (∃ f2, s2.db F = some f2 ∧ f2.need_test = 0) ∧
      s2.lists = s1.lists ∧ SameBlocks { s1 with mem := mem1 } s2 := by
  have hF0 := State.db_ne_zero s F f hf
  have hmark := MarkDynablock_spec ext s B F b f hb hF hf
  generalize hbase : (if f.marks.isSome ∧ f.need_test = 0 then
    resetMarks ext s (f.marks.getD []) else s) = sb
  have hsb : sb.lists = s.lists ∧ ∀ p, sb.db p = s.db p := by
    rw [← hbase]
    split_ifs
    · exact ⟨(resetMarks_fields ext _ s).1, resetMarks_db ext _ s⟩
    · exact ⟨rfl, fun _ => rfl⟩
  generalize hf1 : ({ f with
    marks := (if f.need_test = 0 then f.marks.map (fun _ => []) else f.marks)
    need_test := 1 } : dynablock_t) = f1
  have hf1p : f1.parent = f.parent ∧ f1.father = f.father ∧ f1.x86_addr = f.x86_addr ∧
      f1.x86_size = f.x86_size ∧ f1.hash = f.hash ∧ f1.need_test = 1 := by
    rw [← hf1]
    exact ⟨rfl, rfl, rfl, rfl, rfl, rfl⟩
  rw [hbase, hf1] at hmark
  generalize hsm : ({ sb.setDb F f1 with mem := mem1 } : State) = sm
  have hdb : ∀ p, sm.db p = if p = F then some f1 else s.db p := by
    intro p
    rw [← hsm]
    show (sb.setDb F f1).db p = _
    rw [State.db_setDb, hsb.2]
    by_cases hp0 : p = 0
    · subst hp0
      have : (0 : Nat) ≠ F := fun e => hF0 e.symm
      simp [State.db, this]
    · simp [hp0]
  have hlists : sm.lists = s.lists := by
    rw [← hsm]
    exact hsb.1
  have hmem : sm.mem = mem1 := by
    rw [← hsm]
  have hsame : SameDirectory s sm := by
    refine ⟨hlists, fun p => ?_⟩
    rw [hdb p]
    by_cases hp : p = F
    · subst hp
      simp [hf, hf1p.1]
    · simp [hp]
  have hfind1 := internalDBGetBlock_found ext s sm hsame addr current B 0 create hB s0 hfind rfl
  have hFm : sm.db F = some f1 := by simp [hdb]
  obtain ⟨b1, hb1, hfa1, htest⟩ : ∃ b1, sm.db B = some b1 ∧ b1.father = b.father ∧
      (b1.need_test ≠ 0 ∨ (b1.father ≠ 0 ∧ f1.need_test ≠ 0)) := by
    by_cases hBF : B = F
    · subst hBF
      rw [hb] at hf
      cases hf
      exact ⟨f1, hFm, hf1p.2.1, Or.inl (by rw [hf1p.2.2.2.2.2]; decide)⟩
    · refine ⟨b, by simp [hdb, hBF, hb], rfl, Or.inr ⟨?_, by rw [hf1p.2.2.2.2.2]; decide⟩⟩
      intro h0
      simp only [h0, ne_eq, not_true_eq_false, if_false] at hF
      exact hBF hF.symm
  have hres := DBGetBlock_test_pass ext sm addr create current B F b1 f1 hfind1 hB hb1
    (by rw [hfa1]; exact hF) hFm htest
    (by rw [hmem, hf1p.2.2.1, hf1p.2.2.2.1, hf1p.2.2.2.2.1]; exact hhash)
  refine ⟨sb.setDb F f1, sm.setDb F { f1 with need_test := 0 }, hmark, hsm ▸ hres,
    ⟨{ f1 with need_test := 0 }, by rw [State.db_setDb]; simp [hF0], rfl⟩, ?_, ?_, ?_,
    fun p => ?_⟩
  · show sm.lists = _
    rw [hlists]
    exact hsb.1.symm
  · rw [hsm]
    rfl
  · rw [hsm]
    rfl
  · rw [hsm, State.db_setDb]
    by_cases hp0 : p = 0
    · simp [hp0, State.db]
    · by_cases hp : p = F
      · simp [hp, hFm, hF0]
      · simp [hp0, hp]

/-- C6 at the block at `0x2100` of `linkState`. -/
theorem DBGetBlock_after_mark_witness :
    (internalDBGetBlock (simpleExt 1) linkState 0x2100 0 0 = some (linkState, 3) ∧ 3 ≠ 0 ∧
      linkState.db 3 = some linkBlock3 ∧
      3 = (if linkBlock3.father ≠ 0 then linkBlock3.father else 3) ∧
      X31_hash_code linkState.mem linkBlock3.x86_addr linkBlock3.x86_size = linkBlock3.hash) ∧
    ∃ s1 s2, MarkDynablock (simpleExt 1) linkState 3 = some s1 ∧
      DBGetBlock (simpleExt 1) { s1 with mem := linkState.mem } 0x2100 1 0 = some (s2, 3) ∧
      (∃ f2, s2.db 3 = some f2 ∧ f2.need_test = 0) ∧
      s2.lists = s1.lists ∧ SameBlocks { s1 with mem := linkState.mem } s2 :=
  ⟨⟨rfl, by decide, rfl, by decide, by decide⟩,
    DBGetBlock_after_mark (simpleExt 1) linkState linkState 0x2100 1 0 3 3 linkBlock3 linkBlock3
      linkState.mem rfl (by decide) rfl (by decide) rfl (by decide)⟩
/-! ## Theorems: FreeDynablock and FreeDirectDynablock -/

theorem ShrunkList_refl (l : dynablocklist_t) : ShrunkList l l := by
  refine ⟨rfl, rfl, rfl, rfl, rfl, ?_⟩
  cases l.direct with
  | none => trivial
  | some d => exact fun _ => Or.inl rfl

theorem ShrunkList_trans (l l1 l2 : dynablocklist_t) (h1 : ShrunkList l l1)
    (h2 : ShrunkList l1 l2) : ShrunkList l l2 := by
  obtain ⟨a1, a2, a3, a4, a5, a6⟩ := h1
  obtain ⟨b1, b2, b3, b4, b5, b6⟩ := h2
  refine ⟨b1.trans a1, b2.trans a2, b3.trans a3, b4.trans a4, b5.trans a5, ?_⟩
  cases hd : l.direct with
  | none =>
      cases hd1 : l1.direct with
      | none =>
          cases hd2 : l2.direct with
          | none => trivial
          | some d2 => simp [hd1, hd2] at b6
      | some d1 => simp [hd, hd1] at a6
  | some d =>
      cases hd1 : l1.direct with
      | none => simp [hd, hd1] at a6
      | some d1 =>
          cases hd2 : l2.direct with
          | none => simp [hd1, hd2] at b6
          | some d2 =>
              simp only [hd, hd1] at a6
              simp only [hd1, hd2] at b6
              intro j
              rcases b6 j with h | h
              · rcases a6 j with h3 | h3
                · exact Or.inl (h.trans h3)
                · exact Or.inr (h.trans h3)
              · exact Or.inr h

theorem Shrunk_refl (s : State) : Shrunk s s :=
  fun _ l hl => ⟨l, hl, ShrunkList_refl l⟩

theorem Shrunk_trans (s s1 s2 : State) (h1 : Shrunk s s1) (h2 : Shrunk s1 s2) : Shrunk s s2 := by
  intro r l hl
  obtain ⟨l1, hl1, hs1⟩ := h1 r l hl
  obtain ⟨l2, hl2, hs2⟩ := h2 r l1 hl1
  exact ⟨l2, hl2, ShrunkList_trans l l1 l2 hs1 hs2⟩

theorem Shrunk_of_lists (s s1 : State) (h : s1.lists = s.lists) : Shrunk s s1 := by
  intro r l hl
  exact ⟨l, by rw [State.list_congr s s1 h]; exact hl, ShrunkList_refl l⟩

/-- Clearing one direct slot of a region shrinks the state. -/
theorem Shrunk_clear (s : State) (r : Nat) (l : dynablocklist_t) (d : Nat → Nat) (i : Nat)
    (hl : s.list r = some l) (hd : l.direct = some d) :
    Shrunk s (s.setList r { l with direct := some (Function.update d i 0) }) := by
  intro q lq hq
  rw [State.list_setList]
  have hq0 := State.list_ne_zero s q lq hq
  by_cases hqr : q = r
  · subst hqr
    rw [hl] at hq
    cases hq
    refine ⟨{ l with direct := some (Function.update d i 0) }, by simp [hq0],
      rfl, rfl, rfl, rfl, rfl, ?_⟩
    simp only [hd]
    intro j
    by_cases hj : j = i
    · subst hj
      exact Or.inr (Function.update_same _ _ _)
    · exact Or.inl (Function.update_noteq hj _ _)
  · exact ⟨lq, by simp [hq0, hqr, hq], ShrunkList_refl lq⟩

theorem FreeDynablock_table_lists (table : Nat) :
    ∀ (n i : Nat) (s s1 : State), FreeDynablock_table table n i s = some s1 →
      s1.lists = s.lists
  | 0, _, s, s1, h => by
      simp only [FreeDynablock_table, Option.some.injEq] at h
      rw [← h]
  | n + 1, i, s, s1, h => by
      simp only [FreeDynablock_table] at h
      by_cases hc : s.words (table + 4 * (i + 3)) = 0
      · simp only [hc, ne_eq, not_true_eq_false, if_false] at h
        exact FreeDynablock_table_lists table n (i + 4) s s1 h
      · simp only [hc, ne_eq, not_false_eq_true, if_true] at h
        cases hp : s.db (s.words (table + 4 * (i + 3))) with
        | none => simp [hp] at h
        | some p =>
            simp only [hp] at h
            cases hm : p.marks with
            | none =>
                simp only [hm] at h
                exact FreeDynablock_table_lists table n (i + 4) s s1 h
            | some m =>
                simp only [hm] at h
                have h2 := FreeDynablock_table_lists table n (i + 4) _ s1 h
                rw [h2]
                rfl

theorem FreeDynablock_sons_shrunk (parent : Nat) :
    ∀ (sons : List Nat) (s s1 : State), FreeDynablock_sons parent sons s = some s1 →
      Shrunk s s1
  | [], s, s1, h => by
      simp only [FreeDynablock_sons, Option.some.injEq] at h
      rw [← h]
      exact Shrunk_refl s
  | son :: rest, s, s1, h => by
      simp only [FreeDynablock_sons] at h
      by_cases h0 : son = 0
      · simp only [h0, ne_eq, not_true_eq_false, if_false] at h
        exact FreeDynablock_sons_shrunk parent rest s s1 h
      · simp only [h0, ne_eq, not_false_eq_true, if_true] at h
        cases hs : s.db son with
        | none => simp [hs] at h
        | some sn =>
            cases hl : s.list parent with
            | none => simp [hs, hl] at h
            | some l =>
                simp only [hs, hl] at h
                by_cases hin : l.text ≤ sn.x86_addr ∧ sn.x86_addr ≤ add32 l.text l.textsz
                · simp only [hin, and_self, if_true] at h
                  cases hd : l.direct with
                  | none => simp [hd] at h
                  | some d =>
                      simp only [hd] at h
                      unfold writeDirect at h
                      by_cases hlt : sn.x86_addr - l.text < l.textsz
                      · simp only [hlt, if_true] at h
                        exact Shrunk_trans _ _ _ (Shrunk_clear s parent l d _ hl hd)
                          (FreeDynablock_sons_shrunk parent rest _ s1 h)
                      · simp [hlt] at h
                · simp only [hin, if_false] at h
                  exact FreeDynablock_sons_shrunk parent rest s s1 h

theorem FreeDynablock_marks_lists (ext : Extern) (s : State) (b : dynablock_t) :
    (FreeDynablock_marks ext s b).lists = s.lists := by
  unfold FreeDynablock_marks
  cases b.marks with
  | none => rfl
  | some m => exact (resetMarks_fields ext m s).1

theorem FreeDynablock_purge_shrunk (s s1 : State) (b : dynablock_t)
    (h : FreeDynablock_purge s b = some s1) : Shrunk s s1 := by
  unfold FreeDynablock_purge at h
  by_cases hlen : b.sons.length = 0
  · simp only [hlen, ne_eq, not_true_eq_false, if_false, Option.some.injEq] at h
    rw [← h]
    exact Shrunk_refl s
  · simp only [hlen, ne_eq, not_false_eq_true, if_true] at h
    cases hl : s.list b.parent with
    | none => simp [hl] at h
    | some l =>
        simp only [hl] at h
        by_cases hd : l.direct.isSome = true
        · simp only [hd, if_true] at h
          exact FreeDynablock_sons_shrunk _ _ _ _ h
        · simp only [hd] at h
          simp only [Bool.false_eq_true, if_false, Option.some.injEq] at h
          rw [← h]
          exact Shrunk_refl s

/-- `FreeDynablock` keeps every region, clearing direct slots at most. -/
theorem FreeDynablock_shrunk (ext : Extern) (s s1 : State) (db nolinker : Nat)
    (h : FreeDynablock ext s db nolinker = some s1) : Shrunk s s1 := by
  unfold FreeDynablock at h
  by_cases h0 : db = 0
  · simp only [h0, if_true, Option.some.injEq] at h
    rw [← h]
    exact Shrunk_refl s
  · simp only [h0, if_false] at h
    cases hb : s.db db with
    | none => simp [hb] at h
    | some b =>
        simp only [hb] at h
        cases ht : FreeDynablock_table b.table ((b.tablesz + 3) / 4) 0
            (FreeDynablock_marks ext s b) with
        | none => simp [ht] at h
        | some s2 =>
            simp only [ht] at h
            have hs2 : s2.lists = s.lists :=
              (FreeDynablock_table_lists _ _ _ _ _ ht).trans (FreeDynablock_marks_lists ext s b)
            cases hp : FreeDynablock_purge s2 b with
            | none => simp [hp] at h
            | some s3 =>
                simp only [hp, Option.some.injEq] at h
                have h23 := FreeDynablock_purge_shrunk s2 s3 b hp
                have h3 : Shrunk s3 s1 := by
                  apply Shrunk_of_lists
                  rw [← h]
                  rfl
                exact Shrunk_trans _ _ _
                  (Shrunk_trans _ _ _ (Shrunk_of_lists s s2 hs2) h23) h3

/-- The loop of `FreeDirectDynablock`, when it completes: every region is
kept, direct slots being cleared at most, and in the region of the loop the
slots of the addresses visited are `NULL`. -/
theorem FreeDirectDynablock_loop_spec (ext : Extern) (r : Nat) :
    ∀ (n i : Nat) (s s1 : State), FreeDirectDynablock_loop ext r n i s = some s1 →
      Shrunk s s1 ∧
      ∀ l1 d1, s1.list r = some l1 → l1.direct = some d1 →
        ∀ x, i ≤ x → x < i + n → l1.text ≤ i → d1 (x - l1.text) = 0
  | 0, i, s, s1, h => by
      simp only [FreeDirectDynablock_loop, Option.some.injEq] at h
      rw [← h]
      exact ⟨Shrunk_refl s, fun _ _ _ _ x h1 h2 _ => by omega⟩
  | n + 1, i, s, s1, h => by
      simp only [FreeDirectDynablock_loop] at h
      cases hl : s.list r with
      | none => simp [hl] at h
      | some l =>
        simp only [hl] at h
        cases hd : l.direct with
        | none => simp [hd] at h
        | some d =>
          simp only [hd] at h
          cases hrd : readDirect l.textsz d (i - l.text) with
          | none => simp [hrd] at h
          | some blk =>
            simp only [hrd] at h
            have hblk : d (i - l.text) = blk := by
              unfold readDirect at hrd
              by_cases hlt : i - l.text < l.textsz
              · simpa [hlt] using hrd
              · simp [hlt] at hrd
            -- the state in which the rest of the loop runs has slot `i` cleared
            have key : ∀ sm, Shrunk s sm →
                (∀ lm dm, sm.list r = some lm → lm.direct = some dm → dm (i - lm.text) = 0) →
                FreeDirectDynablock_loop ext r n (i + 1) sm = some s1 →
                Shrunk s s1 ∧
                ∀ l1 d1, s1.list r = some l1 → l1.direct = some d1 →
                  ∀ x, i ≤ x → x < i + (n + 1) → l1.text ≤ i → d1 (x - l1.text) = 0 := by
              intro sm hsm hzero hloop
              obtain ⟨hsh, hz⟩ := FreeDirectDynablock_loop_spec ext r n (i + 1) sm s1 hloop
              refine ⟨Shrunk_trans _ _ _ hsm hsh, ?_⟩
              intro l1 d1 hl1 hd1 x hx1 hx2 ht
              by_cases hxi : x = i
              · subst hxi
                obtain ⟨lm, hlm, hslm⟩ := hsm r l hl
                obtain ⟨l1', hl1', hs1'⟩ := hsh r lm hlm
                rw [hl1] at hl1'
                cases hl1'
                obtain ⟨e1, _, _, _, _, e6⟩ := hs1'
                cases hdm : lm.direct with
                | none =>
                    obtain ⟨_, _, _, _, _, e7⟩ := hslm
                    simp [hd, hdm] at e7
                | some dm =>
                    simp only [hdm, hd1] at e6
                    have hz0 := hzero lm dm hlm hdm
                    rcases e6 (x - l1.text) with h3 | h3
                    · rw [h3, e1]
                      exact hz0
                    · exact h3
              · exact hz l1 d1 hl1 hd1 x (by omega) (by omega) (by omega)
            by_cases hb0 : blk = 0
            · simp only [hb0, ne_eq, not_true_eq_false, if_false] at h
              refine key s (Shrunk_refl s) ?_ h
              intro lm dm hlm hdm
              rw [hl] at hlm
              cases hlm
              rw [hd] at hdm
              cases hdm
              rw [hblk, hb0]
            · simp only [hb0, ne_eq, not_false_eq_true, if_true] at h
              cases hdb : s.db blk with
              | none => simp [hdb] at h
              | some b =>
                simp only [hdb] at h
                cases hfr : (if b.father = 0 then FreeDynablock ext s blk l.nolinker
                    else some s) with
                | none => simp [hfr] at h
                | some sf =>
                  simp only [hfr] at h
                  have hsf : Shrunk s sf := by
                    by_cases hfa : b.father = 0
                    · simp only [hfa, if_true] at hfr
                      exact FreeDynablock_shrunk ext s sf blk _ hfr
                    · simp only [hfa, if_false, Option.some.injEq] at hfr
                      rw [← hfr]
                      exact Shrunk_refl s
                  cases hlf : sf.list r with
                  | none => simp [hlf] at h
                  | some lf =>
                    simp only [hlf] at h
                    cases hdf : lf.direct with
                    | none => simp [hdf] at h
                    | some df =>
                      simp only [hdf] at h
                      unfold writeDirect at h
                      by_cases hlt : i - lf.text < lf.textsz
                      · simp only [hlt, if_true] at h
                        have hr0 := State.list_ne_zero sf r lf hlf
                        refine key _ (Shrunk_trans _ _ _ hsf (Shrunk_clear sf r lf df _ hlf hdf))
                          ?_ h
                        intro lm dm hlm hdm
                        rw [State.list_setList] at hlm
                        simp only [hr0, if_false, if_true, Option.some.injEq] at hlm
                        rw [← hlm] at hdm ⊢
                        simp only [Option.some.injEq] at hdm
                        rw [← hdm]
                        exact Function.update_same _ _ _
                      · simp [hlt] at h

theorem Kept_refl (s : State) : Kept s s :=
  ⟨rfl, fun _ b1 h => ⟨b1, h, rfl⟩⟩

theorem Kept_trans (s s1 s2 : State) (h1 : Kept s s1) (h2 : Kept s1 s2) : Kept s s2 := by
  refine ⟨h2.1.trans h1.1, fun p b2 hb2 => ?_⟩
  obtain ⟨b1, hb1, e2⟩ := h2.2 p b2 hb2
  obtain ⟨b, hb, e1⟩ := h1.2 p b1 hb1
  refine ⟨b, hb, ?_⟩
  rw [e2, e1]

theorem Kept_of_dbs (s s1 : State) (hm : s1.mem = s.mem) (hd : s1.dbs = s.dbs) : Kept s s1 := by
  refine ⟨hm, fun p b1 h => ⟨b1, ?_, rfl⟩⟩
  simpa [State.db, hd] using h

theorem Kept_setMarks (s : State) (p : Nat) (b : dynablock_t) (m : Option kh_mark_t)
    (hb : s.db p = some b) : Kept s (s.setDb p { b with marks := m }) := by
  refine ⟨rfl, fun q b1 h => ?_⟩
  rw [State.db_setDb] at h
  by_cases hq0 : q = 0
  · simp [hq0] at h
  · by_cases hq : q = p
    · subst hq
      simp only [hq0, if_false, if_true, Option.some.injEq] at h
      exact ⟨b, hb, by rw [← h]⟩
    · simp only [hq0, hq, if_false] at h
      exact ⟨b1, h, rfl⟩

theorem Kept_remove (s : State) (p : Nat) :
    Kept s { s with dbs := Function.update s.dbs p none } := by
  refine ⟨rfl, fun q b1 h => ⟨b1, ?_, rfl⟩⟩
  unfold State.db at h ⊢
  by_cases hq0 : q = 0
  · simp [hq0] at h
  · by_cases hq : q = p
    · subst hq
      simp [hq0] at h
    · simpa [hq0, hq, Function.update] using h

theorem FreeDynablock_table_kept (table : Nat) :
    ∀ (n i : Nat) (s s1 : State), FreeDynablock_table table n i s = some s1 → Kept s s1
  | 0, _, s, s1, h => by
      simp only [FreeDynablock_table, Option.some.injEq] at h
      rw [← h]
      exact Kept_refl s
  | n + 1, i, s, s1, h => by
      simp only [FreeDynablock_table] at h
      by_cases hc : s.words (table + 4 * (i + 3)) = 0
      · simp only [hc, ne_eq, not_true_eq_false, if_false] at h
        exact FreeDynablock_table_kept table n (i + 4) s s1 h
      · simp only [hc, ne_eq, not_false_eq_true, if_true] at h
        cases hp : s.db (s.words (table + 4 * (i + 3))) with
        | none => simp [hp] at h
        | some p =>
            simp only [hp] at h
            cases hm : p.marks with
            | none =>
                simp only [hm] at h
                exact FreeDynablock_table_kept table n (i + 4) s s1 h
            | some m =>
                simp only [hm] at h
                exact Kept_trans _ _ _ (Kept_setMarks s _ p _ hp)
                  (FreeDynablock_table_kept table n (i + 4) _ s1 h)

theorem FreeDynablock_sons_kept (parent : Nat) :
    ∀ (sons : List Nat) (s s1 : State), FreeDynablock_sons parent sons s = some s1 → Kept s s1
  | [], s, s1, h => by
      simp only [FreeDynablock_sons, Option.some.injEq] at h
      rw [← h]
      exact Kept_refl s
  | son :: rest, s, s1, h => by
      simp only [FreeDynablock_sons] at h
      by_cases h0 : son = 0
      · simp only [h0, ne_eq, not_true_eq_false, if_false] at h
        exact FreeDynablock_sons_kept parent rest s s1 h
      · simp only [h0, ne_eq, not_false_eq_true, if_true] at h
        cases hs : s.db son with
        | none => simp [hs] at h
        | some sn =>
            cases hl : s.list parent with
            | none => simp [hs, hl] at h
            | some l =>
                simp only [hs, hl] at h
                by_cases hin : l.text ≤ sn.x86_addr ∧ sn.x86_addr ≤ add32 l.text l.textsz
                · simp only [hin, and_self, if_true] at h
                  cases hd : l.direct with
                  | none => simp [hd] at h
                  | some d =>
                      simp only [hd] at h
                      unfold writeDirect at h
                      by_cases hlt : sn.x86_addr - l.text < l.textsz
                      · simp only [hlt, if_true] at h
                        have h2 := FreeDynablock_sons_kept parent rest _ s1 h
                        exact Kept_trans _ _ _ (Kept_of_dbs s _ rfl rfl) h2
                      · simp [hlt] at h
                · simp only [hin, if_false] at h
                  exact FreeDynablock_sons_kept parent rest s s1 h

theorem FreeDynablock_kept (ext : Extern) (s s1 : State) (db nolinker : Nat)
    (h : FreeDynablock ext s db nolinker = some s1) : Kept s s1 := by
  unfold FreeDynablock at h
  by_cases h0 : db = 0
  · simp only [h0, if_true, Option.some.injEq] at h
    rw [← h]
    exact Kept_refl s
  · simp only [h0, if_false] at h
    cases hb : s.db db with
    | none => simp [hb] at h
    | some b =>
        simp only [hb] at h
        have hk0 : Kept s (FreeDynablock_marks ext s b) := by
          unfold FreeDynablock_marks
          cases b.marks with
          | none => exact Kept_refl s
          | some m =>
              exact Kept_of_dbs _ _ (resetMarks_fields ext m s).2.2.2 (resetMarks_fields ext m s).2.1
        cases ht : FreeDynablock_table b.table ((b.tablesz + 3) / 4) 0
            (FreeDynablock_marks ext s b) with
        | none => simp [ht] at h
        | some s2 =>
            simp only [ht] at h
            have hk2 := FreeDynablock_table_kept _ _ _ _ _ ht
            cases hp : FreeDynablock_purge s2 b with
            | none => simp [hp] at h
            | some s3 =>
                simp only [hp, Option.some.injEq] at h
                have hk3 : Kept s2 s3 := by
                  unfold FreeDynablock_purge at hp
                  by_cases hlen : b.sons.length = 0
                  · simp only [hlen, ne_eq, not_true_eq_false, if_false, Option.some.injEq] at hp
                    rw [← hp]
                    exact Kept_refl s2
                  · simp only [hlen, ne_eq, not_false_eq_true, if_true] at hp
                    cases hl : s2.list b.parent with
                    | none => simp [hl] at hp
                    | some l =>
                        simp only [hl] at hp
                        by_cases hd : l.direct.isSome = true
                        · simp only [hd, if_true] at hp
                          exact FreeDynablock_sons_kept _ _ _ _ hp
                        · simp only [hd] at hp
                          simp only [Bool.false_eq_true, if_false, Option.some.injEq] at hp
                          rw [← hp]
                          exact Kept_refl s2
                have hk4 : Kept s3 s1 := by
                  rw [← h]
                  exact Kept_trans _ _ _
                    (Kept_remove ((s3.log (Event.FreeDynarecMap b.block b.size)).log
                      (Event.free b.table)) db)
                    (Kept_of_dbs _ _ rfl rfl) |> Kept_trans _ _ _ (Kept_of_dbs _ _ rfl rfl)
                exact Kept_trans _ _ _ (Kept_trans _ _ _ (Kept_trans _ _ _ hk0 hk2) hk3) hk4

theorem FreeDirectDynablock_loop_kept (ext : Extern) (r : Nat) :
    ∀ (n i : Nat) (s s1 : State), FreeDirectDynablock_loop ext r n i s = some s1 → Kept s s1
  | 0, i, s, s1, h => by
      simp only [FreeDirectDynablock_loop, Option.some.injEq] at h
      rw [← h]
      exact Kept_refl s
  | n + 1, i, s, s1, h => by
      simp only [FreeDirectDynablock_loop] at h
      cases hl : s.list r with
      | none => simp [hl] at h
      | some l =>
        simp only [hl] at h
        cases hd : l.direct with
        | none => simp [hd] at h
        | some d =>
          simp only [hd] at h
          cases hrd : readDirect l.textsz d (i - l.text) with
          | none => simp [hrd] at h
          | some blk =>
            simp only [hrd] at h
            by_cases hb0 : blk = 0
            · simp only [hb0, ne_eq, not_true_eq_false, if_false] at h
              exact FreeDirectDynablock_loop_kept ext r n (i + 1) s s1 h
            · simp only [hb0, ne_eq, not_false_eq_true, if_true] at h
              cases hdb : s.db blk with
              | none => simp [hdb] at h
              | some b =>
                simp only [hdb] at h
                cases hfr : (if b.father = 0 then FreeDynablock ext s blk l.nolinker
                    else some s) with
                | none => simp [hfr] at h
                | some sf =>
                  simp only [hfr] at h
                  have hsf : Kept s sf := by
                    by_cases hfa : b.father = 0
                    · simp only [hfa, if_true] at hfr
                      exact FreeDynablock_kept ext s sf blk _ hfr
                    · simp only [hfa, if_false, Option.some.injEq] at hfr
                      rw [← hfr]
                      exact Kept_refl s
                  cases hlf : sf.list r with
                  | none => simp [hlf] at h
                  | some lf =>
                    simp only [hlf] at h
                    cases hdf : lf.direct with
                    | none => simp [hdf] at h
                    | some df =>
                      simp only [hdf] at h
                      unfold writeDirect at h
                      by_cases hlt : i - lf.text < lf.textsz
                      · simp only [hlt, if_true] at h
                        have h2 := FreeDirectDynablock_loop_kept ext r n (i + 1) _ s1 h
                        exact Kept_trans _ _ _ (Kept_trans _ _ _ hsf (Kept_of_dbs sf _ rfl rfl)) h2
                      · simp [hlt] at h

/-- A loop of `FreeDirectDynablock` that completes has read, at each address,
a slot of the direct array of the region it started with. -/
theorem FreeDirectDynablock_loop_bounds (ext : Extern) (r : Nat) :
    ∀ (n i : Nat) (s s1 : State) (l : dynablocklist_t),
      FreeDirectDynablock_loop ext r n i s = some s1 → s.list r = some l → 0 < n →
      l.direct.isSome ∧ ∀ x, i ≤ x → x < i + n → x - l.text < l.textsz
  | 0, _, _, _, _, _, _, hn => by omega
  | n + 1, i, s, s1, l, h, hl, _ => by
      have hsh : ∀ sm, Shrunk s sm → FreeDirectDynablock_loop ext r n (i + 1) sm = some s1 →
          ∀ x, i + 1 ≤ x → x < i + 1 + n → x - l.text < l.textsz := by
        intro sm hsm hloop x hx1 hx2
        obtain ⟨lm, hlm, t1, t2, _⟩ := hsm r l hl
        have := (FreeDirectDynablock_loop_bounds ext r n (i + 1) sm s1 lm hloop hlm
          (by omega)).2 x hx1 hx2
        rw [t1, t2] at this
        exact this
      simp only [FreeDirectDynablock_loop, hl] at h
      cases hd : l.direct with
      | none => simp [hd] at h
      | some d =>
        simp only [hd] at h
        refine ⟨rfl, ?_⟩
        cases hrd : readDirect l.textsz d (i - l.text) with
        | none => simp [hrd] at h
        | some blk =>
          simp only [hrd] at h
          have hi : i - l.text < l.textsz := by
            unfold readDirect at hrd
            by_cases hlt : i - l.text < l.textsz
            · exact hlt
            · simp [hlt] at hrd
          have fin : (∀ x, i + 1 ≤ x → x < i + 1 + n → x - l.text < l.textsz) →
              ∀ x, i ≤ x → x < i + (n + 1) → x - l.text < l.textsz := by
            intro hrest x hx1 hx2
            by_cases hxi : x = i
            · rw [hxi]
              exact hi
            · exact hrest x (by omega) (by omega)
          apply fin
          by_cases hb0 : blk = 0
          · simp only [hb0, ne_eq, not_true_eq_false, if_false] at h
            exact hsh s (Shrunk_refl s) h
          · simp only [hb0, ne_eq, not_false_eq_true, if_true] at h
            cases hdb : s.db blk with
            | none => simp [hdb] at h
            | some b =>
              simp only [hdb] at h
              cases hfr : (if b.father = 0 then FreeDynablock ext s blk l.nolinker
                  else some s) with
              | none => simp [hfr] at h
              | some sf =>
                simp only [hfr] at h
                have hsf : Shrunk s sf := by
                  by_cases hfa : b.father = 0
                  · simp only [hfa, if_true] at hfr
                    exact FreeDynablock_shrunk ext s sf blk _ hfr
                  · simp only [hfa, if_false, Option.some.injEq] at hfr
                    rw [← hfr]
                    exact Shrunk_refl s
                cases hlf : sf.list r with
                | none => simp [hlf] at h
                | some lf =>
                  simp only [hlf] at h
                  cases hdf : lf.direct with
                  | none => simp [hdf] at h
                  | some df =>
                    simp only [hdf] at h
                    unfold writeDirect at h
                    by_cases hlt : i - lf.text < lf.textsz
                    · simp only [hlt, if_true] at h
                      exact hsh _ (Shrunk_trans _ _ _ hsf (Shrunk_clear sf r lf df _ hlf hdf)) h
                    · simp [hlt] at h

/-- The loop of `FreeDirectDynablock` over slots that are all `NULL` leaves the
state as it is. -/
theorem FreeDirectDynablock_loop_zero (ext : Extern) (r : Nat) (s : State)
    (l : dynablocklist_t) (d : Nat → Nat) (hl : s.list r = some l) (hd : l.direct = some d) :
    ∀ (n i : Nat), (∀ x, i ≤ x → x < i + n → x - l.text < l.textsz ∧ d (x - l.text) = 0) →
      FreeDirectDynablock_loop ext r n i s = some s
  | 0, _, _ => rfl
  | n + 1, i, h => by
      obtain ⟨h1, h2⟩ := h i (le_refl _) (by omega)
      simp only [FreeDirectDynablock_loop, hl, hd, readDirect, h1, if_true, h2, ne_eq,
        not_true_eq_false, if_false]
      exact FreeDirectDynablock_loop_zero ext r s l d hl hd n (i + 1)
        (fun x hx1 hx2 => h x (by omega) (by omega))

/-- What `FreeDirectDynablock` leaves, when it completes: the regions with
direct slots cleared at most, the blocks it has not freed with their marks
changed at most; and the same call on the state it leaves changes nothing. -/
theorem FreeDirectDynablock_spec (ext : Extern) (s s1 : State) (r a n : Nat)
    (h : FreeDirectDynablock ext s r a n = some s1) :
    Shrunk s s1 ∧ Kept s s1 ∧ FreeDirectDynablock ext s1 r a n = some s1 := by
  unfold FreeDirectDynablock at h
  by_cases hr0 : r = 0
  · simp only [hr0, if_true, Option.some.injEq] at h
    rw [← h]
    exact ⟨Shrunk_refl s, Kept_refl s, by simp [FreeDirectDynablock, hr0]⟩
  · simp only [hr0, if_false] at h
    cases hl : s.list r with
    | none => simp [hl] at h
    | some l =>
        simp only [hl] at h
        by_cases hc : (if add32 a n > add32 l.text l.textsz then add32 l.text l.textsz
            else add32 a n) > l.text ∧ (if a < l.text then l.text else a) < add32 l.text l.textsz
        · simp only [hc, and_self, if_true] at h
          obtain ⟨hsh, hz⟩ := FreeDirectDynablock_loop_spec ext r _ _ s s1 h
          refine ⟨hsh, FreeDirectDynablock_loop_kept ext r _ _ s s1 h, ?_⟩
          obtain ⟨l1, hl1, t1, t2, t3, t4, t5, t6⟩ := hsh r l hl
          unfold FreeDirectDynablock
          simp only [hr0, if_false, hl1, t1, t2, hc, and_self, if_true]
          by_cases hn : 0 < (if add32 a n > add32 l.text l.textsz then add32 l.text l.textsz
              else add32 a n) - (if a < l.text then l.text else a)
          · obtain ⟨hds, hbd⟩ := FreeDirectDynablock_loop_bounds ext r _ _ s s1 l h hl hn
            obtain ⟨d, hd⟩ := Option.isSome_iff_exists.mp hds
            cases hd1 : l1.direct with
            | none => simp [hd, hd1] at t6
            | some d1 =>
                apply FreeDirectDynablock_loop_zero ext r s1 l1 d1 hl1 hd1
                intro x hx1 hx2
                refine ⟨by rw [t1, t2]; exact hbd x hx1 hx2, ?_⟩
                apply hz l1 d1 hl1 hd1 x hx1 hx2
                rw [t1]
                split_ifs <;> omega
          · have h0 : (if add32 a n > add32 l.text l.textsz then add32 l.text l.textsz
              else add32 a n) - (if a < l.text then l.text else a) = 0 := by omega
            rw [h0]
            rfl
        · simp only [hc, if_false, Option.some.injEq] at h
          rw [← h]
          refine ⟨Shrunk_refl s, Kept_refl s, ?_⟩
          unfold FreeDirectDynablock
          simp [hr0, hl, hc]
/-! ## Theorems: AddNewDynablock after a lookup that found nothing -/

theorem kh_get_none_not_mem (h : kh_dynablocks_t) (k : Nat) (hg : kh_get h k = none) :
    k ∉ h.map Prod.fst := by
  induction h with
  | nil => simp
  | cons e rest ih =>
      obtain ⟨k1, v1⟩ := e
      simp only [kh_get] at hg
      by_cases h1 : k1 = k
      · simp [h1] at hg
      · simp only [h1, if_false] at hg
        simp only [List.map_cons, List.mem_cons, not_or]
        exact ⟨fun e => h1 e.symm, ih hg⟩

theorem ConvertHash2Direct_dbs (s s1 : State) (r : Nat) (h : ConvertHash2Direct s r = some s1) :
    s1.dbs = s.dbs := by
  unfold ConvertHash2Direct at h
  cases hl : s.list r with
  | none => simp [hl] at h
  | some l =>
      simp only [hl] at h
      by_cases hz : l.textsz = 0 ∨ l.text = 0
      · simp only [hz, if_true, Option.some.injEq] at h
        rw [← h]
      · simp only [hz, if_false] at h
        cases ht : ConvertHash2Direct_transfer l.textsz (sub32 l.text l.base)
            (sub32 (add32 l.text l.textsz) l.base) l.blocks (fun _ => 0) [] with
        | none => simp [ht] at h
        | some res =>
            obtain ⟨d1, b1⟩ := res
            simp only [ht, Option.some.injEq] at h
            rw [← h]
            rfl

theorem probe_setDb (s : State) (p : Nat) (b : dynablock_t) (r a : Nat) :
    probe (s.setDb p b) r a = probe s r a :=
  probe_congr s _ rfl r a

/-- `AddNewDynablock` called where the probes found nothing, in a region whose
window lies in the address space and whose hash holds each key once: when it
returns a block, that block is new (`created = 1`), zeroed but for its parent,
and it is the block the probes find afterwards. -/
theorem AddNewDynablock_fresh (s sa : State) (r addr blk c : Nat) (l : dynablocklist_t)
    (hl : s.list r = some l) (hw : l.text + l.textsz < W32) (ha : addr < W32)
    (hnd : (l.blocks.map Prod.fst).Nodup)
    (hp : probe s r addr = some 0)
    (h : AddNewDynablock s r addr = some (sa, blk, c)) (hblk : blk ≠ 0) :
    c = 1 ∧ probe sa r addr = some blk ∧ sa.db blk = some { parent := r } ∧
      (sa.list r).isSome := by
  have hr0 := State.list_ne_zero s r l hl
  have e1 : add32 l.text l.textsz = l.text + l.textsz := Nat.mod_eq_of_lt hw
  unfold probe at hp
  simp only [hl] at hp
  unfold AddNewDynablock at h
  simp only [hl] at h
  cases hfirst : probeDirect l addr with
  | none => simp [hfirst] at h
  | some block0 =>
    simp only [hfirst] at h hp
    by_cases hb0 : block0 = 0
    · subst hb0
      simp only [ne_eq, not_true_eq_false, if_false] at h hp
      -- the hash branch
      have hash : AddNewDynablock_hash s r l addr = some (sa, blk, c) →
          (∀ d, l.direct = some d → ¬ (l.text ≤ addr ∧ addr ≤ add32 l.text l.textsz)) →
          c = 1 ∧ probe sa r addr = some blk ∧ sa.db blk = some { parent := r } ∧
            (sa.list r).isSome := by
        intro hh hout
        unfold AddNewDynablock_hash at hh
        cases hg : kh_get l.blocks (sub32 addr l.base) with
        | some v =>
            simp only [hg, Option.some.injEq, Prod.mk.injEq] at hh hp
            exact absurd (hh.2.1.symm.trans hp) hblk
        | none =>
            simp only [hg, callocBlock] at hh
            obtain ⟨l2, hl2e⟩ : ∃ l2 : dynablocklist_t, l2 =
                { l with blocks := kh_put_value l.blocks (sub32 addr l.base) s.brk } := ⟨_, rfl⟩
            rw [← hl2e] at hh
            have hl2f : l2.text = l.text ∧ l2.textsz = l.textsz ∧ l2.base = l.base ∧
                l2.direct = l.direct ∧
                l2.blocks = kh_put_value l.blocks (sub32 addr l.base) s.brk := by
              rw [hl2e]
              exact ⟨rfl, rfl, rfl, rfl, rfl⟩
            generalize hs2 : (({ s with brk := s.brk + 1 }.setDb s.brk {}).log
              (Event.calloc s.brk)).setList r l2 = s2 at hh
            have hl2 : s2.list r = some l2 := by
              rw [← hs2, State.list_setList]
              simp [hr0]
            have hdb2 : s2.dbs s.brk = some {} := by
              rw [← hs2]
              simp [State.setList, State.log, State.setDb]
            have hpr2 : probe s2 r addr = some s.brk ∨ s.brk = 0 := by
              by_cases hbrk : s.brk = 0
              · exact Or.inr hbrk
              · left
                unfold probe
                simp only [hl2]
                have hpd : probeDirect l2 addr = some 0 := by
                  unfold probeDirect
                  rw [hl2f.2.2.2.1]
                  cases hd : l.direct with
                  | none => rfl
                  | some d =>
                      have hnw : inWindow l2 addr = false := by
                        have := hout d hd
                        simp only [inWindow, hl2f.1, hl2f.2.1, Bool.and_eq_false_imp,
                          decide_eq_true_eq, decide_eq_false_iff_not]
                        intro h1 h2
                        exact this ⟨h1, le_of_lt h2⟩
                      simp [hnw]
                simp only [hpd, ne_eq, not_true_eq_false, if_false, hl2f.2.2.2.2, hl2f.2.2.1,
                  kh_put_value, kh_get_append_one, hg, if_true]
            cases hconv : (if l.direct.isNone ∧
                kh_size (kh_put_value l.blocks (sub32 addr l.base) s.brk) = MAGIC_SIZE
                then ConvertHash2Direct s2 r else some s2) with
            | none => simp [hconv] at hh
            | some s3 =>
                simp only [hconv] at hh
                have h3 : s3.dbs = s2.dbs ∧ (s3.list r).isSome ∧
                    (s.brk ≠ 0 → probe s3 r addr = some s.brk) := by
                  by_cases hcv : l.direct.isNone ∧
                      kh_size (kh_put_value l.blocks (sub32 addr l.base) s.brk) = MAGIC_SIZE
                  · simp only [hcv, and_self, if_true] at hconv
                    have hdn : l.direct = none := Option.isNone_iff_eq_none.mp hcv.1
                    have hnd2 : (l2.blocks.map Prod.fst).Nodup := by
                      rw [hl2f.2.2.2.2]
                      unfold kh_put_value
                      rw [List.map_append, List.nodup_append]
                      refine ⟨hnd, by simp, ?_⟩
                      intro k hk1 hk2
                      simp only [List.map_cons, List.map_nil, List.mem_singleton] at hk2
                      exact kh_get_none_not_mem _ _ hg (hk2 ▸ hk1)
                    obtain ⟨s3', he3, hpr3⟩ := ConvertHash2Direct_keeps_probe s2 r l2 hl2
                      (hl2f.2.2.2.1.trans hdn) (by rw [hl2f.1, hl2f.2.1]; exact hw) hnd2
                    rw [hconv] at he3
                    cases he3
                    refine ⟨ConvertHash2Direct_dbs s2 s3 r hconv, ?_, fun hbrk => ?_⟩
                    · have hq := hpr3 addr ha
                      rcases hpr2 with h5 | h5
                      · rw [h5] at hq
                        cases hx : s3.list r with
                        | none => simp [probe, hx] at hq
                        | some _ => rfl
                      · simp [setParent, State.db, h5] at hh
                    · rw [hpr3 addr ha]
                      rcases hpr2 with h5 | h5
                      · exact h5
                      · exact absurd h5 hbrk
                  · simp only [hcv, if_false, Option.some.injEq] at hconv
                    rw [← hconv]
                    refine ⟨rfl, by simp [hl2], fun hbrk => ?_⟩
                    rcases hpr2 with h5 | h5
                    · exact h5
                    · exact absurd h5 hbrk
                unfold setParent at hh
                by_cases hbrk : s.brk = 0
                · simp [State.db, hbrk] at hh
                · have hdb3 : s3.db s.brk = some {} := by
                    simp [State.db, hbrk, h3.1, hdb2]
                  simp only [hdb3, Option.some.injEq, Prod.mk.injEq] at hh
                  obtain ⟨hh1, hh2, hh3⟩ := hh
                  subst hh2
                  refine ⟨hh3.symm, ?_, ?_, ?_⟩
                  · rw [← hh1, probe_setDb]
                    exact h3.2.2 hbrk
                  · rw [← hh1, State.db_setDb]
                    simp [hbrk]
                  · rw [← hh1]
                    exact h3.2.1
      cases hd : l.direct with
      | none =>
          simp only [hd] at h
          exact hash h (fun d hd2 => by simp [hd] at hd2)
      | some d =>
          simp only [hd] at h
          by_cases hin : l.text ≤ addr ∧ addr ≤ add32 l.text l.textsz
          · simp only [hin, and_self, if_true, callocBlock] at h
            unfold writeDirect at h
            by_cases hlt : addr - l.text < l.textsz
            · simp only [hlt, if_true, setParent] at h
              by_cases hbrk : s.brk = 0
              · simp [State.db, hbrk] at h
              · simp only [State.db, hbrk, if_false, State.setList, State.log, State.setDb,
                  Function.update_same, Option.some.injEq, Prod.mk.injEq] at h
                obtain ⟨hh1, hh2, hh3⟩ := h
                subst hh2
                refine ⟨hh3.symm, ?_, ?_, ?_⟩
                · rw [← hh1]
                  unfold probe probeDirect
                  have hwin : inWindow l addr = true := by
                    rw [inWindow_iff, e1]
                    omega
                  have hwin2 := (inWindow_iff l addr).mp hwin
                  simp [State.list, hr0, inWindow, readDirect, hlt, hbrk, hwin2]
                · rw [← hh1]
                  simp [State.db, hbrk]
                · rw [← hh1]
                  simp [State.list, hr0]
            · simp [hlt] at h
          · simp only [hin, if_false] at h
            exact hash h (fun d2 _ => hin)
    · simp only [hb0, ne_eq, not_false_eq_true, if_true, Option.some.injEq] at hp

/-! ## Theorems: two lookups in a row -/

/-- The lookup without current block returns the block the probes find in the
region of the registry, and leaves the state as it is. -/
theorem internalDBGetBlock_of_probe (ext : Extern) (s : State) (addr c r B : Nat)
    (hr : ext.GetDynablocksFromAddress addr = r) (hp : probe s r addr = some B) (hB : B ≠ 0) :
    internalDBGetBlock ext s addr c 0 = some (s, B) := by
  have hr0 : r ≠ 0 := by
    intro e
    simp [probe, State.list, e] at hp
  unfold internalDBGetBlock internalDBGetBlock_quick internalDBGetBlock_slow
  simp [hr, hr0, hp, hB]

/-- The lookup with creation and without current block, when it returns a
block: either the probes found it and the state is as it was, or they found
nothing and the block was created and filled; under the contract of the code
generator it is then found by the probes, with `need_test` clear and without
father. -/
theorem internalDBGetBlock_create (ext : Extern) (s s1 : State) (addr B r : Nat)
    (l : dynablocklist_t)
    (hr : ext.GetDynablocksFromAddress addr = r) (hl : s.list r = some l)
    (hw : l.text + l.textsz < W32) (ha : addr < W32) (hnd : (l.blocks.map Prod.fst).Nodup)
    (hfill : FillKeeps ext addr)
    (h : internalDBGetBlock ext s addr 1 0 = some (s1, B)) (hB : B ≠ 0) :
    (s1 = s ∧ probe s r addr = some B) ∨
    (probe s1 r addr = some B ∧ ∃ b, s1.db B = some b ∧ b.need_test = 0 ∧ b.father = 0) := by
  have hr0 := State.list_ne_zero s r l hl
  unfold internalDBGetBlock internalDBGetBlock_quick at h
  simp only [ne_eq, not_true_eq_false, if_false, if_true, hr, hr0] at h
  unfold internalDBGetBlock_slow at h
  cases hp : probe s r addr with
  | none => simp [hp] at h
  | some found =>
    simp only [hp] at h
    by_cases hf : found = 0
    · subst hf
      simp only [ne_eq, not_true_eq_false, if_false, one_ne_zero] at h
      cases hadd : AddNewDynablock s r addr with
      | none => simp [hadd] at h
      | some res =>
        obtain ⟨sa, blk, c⟩ := res
        simp only [hadd] at h
        by_cases hc : c = 0
        · simp only [hc, if_true, Option.some.injEq, Prod.mk.injEq] at h
          have := (AddNewDynablock_fresh s sa r addr blk c l hl hw ha hnd hp hadd
            (h.2 ▸ hB)).1
          omega
        · simp only [hc, if_false] at h
          cases hla : sa.list r with
          | none => simp [hla] at h
          | some la =>
            cases hdb : sa.db blk with
            | none => simp [hla, hdb] at h
            | some b =>
              simp only [hla, hdb, Option.some.injEq, Prod.mk.injEq] at h
              obtain ⟨h1, h2⟩ := h
              subst h2
              obtain ⟨_, hpa, hda, _⟩ :=
                AddNewDynablock_fresh s sa r addr blk c l hl hw ha hnd hp hadd hB
              rw [hdb] at hda
              cases hda
              right
              rw [← h1]
              by_cases hnl : la.nolinker = 0
              · simp only [hnl, ne_eq, not_true_eq_false, if_false]
                exact hfill _ r blk { parent := r } hB
                  (by rw [← hpa]; exact probe_congr sa _ rfl r addr)
                  (by simpa [State.db, State.log] using hdb) rfl rfl
              · simp only [hnl, ne_eq, not_false_eq_true, if_true]
                exact hfill _ r blk { parent := r, marks := some [] } hB
                  (by rw [← hpa]; exact probe_congr sa _ rfl r addr)
                  (by simp [State.db, State.log, State.setDb, hB]) rfl rfl
    · simp only [hf, ne_eq, not_false_eq_true, if_true, Option.some.injEq, Prod.mk.injEq] at h
      left
      exact ⟨h.1.symm, by rw [← h.2]⟩
/-- The ways `DBGetBlock` returns a block: the lookup found or created a block
that needs no test; or the block needs a test and the guest bytes hash to the
stored value, and `need_test` is cleared; or they do not, the range of the
father-resolved block is freed and the lookup is made again. -/
theorem DBGetBlock_cases (ext : Extern) (s s1 : State) (addr create current B : Nat)
    (h : DBGetBlock ext s addr create current = some (s1, B)) (hB : B ≠ 0) :
    ∃ si db bi, internalDBGetBlock ext s addr create current = some (si, db) ∧ db ≠ 0 ∧
      si.db db = some bi ∧
      ((s1 = si ∧ B = db ∧ bi.need_test = 0 ∧
          (bi.father ≠ 0 → ∃ f, si.db bi.father = some f ∧ f.need_test = 0)) ∨
       (∃ F f, F = (if bi.father ≠ 0 then bi.father else db) ∧ si.db F = some f ∧
          (bi.need_test ≠ 0 ∨ (bi.father ≠ 0 ∧ f.need_test ≠ 0)) ∧
          ((X31_hash_code si.mem f.x86_addr f.x86_size = f.hash ∧
              s1 = si.setDb F { f with need_test := 0 } ∧ B = db) ∨
           (X31_hash_code si.mem f.x86_addr f.x86_size ≠ f.hash ∧
              ∃ sf, FreeDirectDynablock ext si f.parent f.x86_addr f.x86_size = some sf ∧
                internalDBGetBlock ext sf addr create current = some (s1, B))))) := by
  unfold DBGetBlock at h
  cases hi : internalDBGetBlock ext s addr create current with
  | none => simp [hi] at h
  | some res =>
    obtain ⟨si, db⟩ := res
    simp only [hi] at h
    by_cases hdb : db = 0
    · simp only [hdb, if_true, Option.some.injEq, Prod.mk.injEq] at h
      exact absurd h.2.symm hB
    · simp only [hdb, if_false] at h
      cases hbi : si.db db with
      | none => simp [hbi] at h
      | some bi =>
        simp only [hbi] at h
        refine ⟨si, db, bi, rfl, hdb, hbi, ?_⟩
        generalize hFd : (if bi.father ≠ 0 then bi.father else db) = F at h
        cases hnt : needsTest si bi with
        | none => simp [hnt] at h
        | some t =>
          cases t with
          | false =>
            simp only [hnt, Option.some.injEq, Prod.mk.injEq] at h
            left
            unfold needsTest at hnt
            by_cases hn : bi.need_test = 0
            · refine ⟨h.1.symm, h.2.symm, hn, fun hfa => ?_⟩
              simp only [hn, ne_eq, not_true_eq_false, if_false, hfa, not_false_eq_true,
                if_true] at hnt
              cases hf : si.db bi.father with
              | none => simp [hf] at hnt
              | some f =>
                simp only [hf, Option.some.injEq, decide_eq_false_iff_not, not_not] at hnt
                exact ⟨f, rfl, hnt⟩
            · simp [hn] at hnt
          | true =>
            simp only [hnt] at h
            right
            unfold DBGetBlock_retest at h
            cases hf : si.db F with
            | none => simp [hf] at h
            | some f =>
              simp only [hf] at h
              refine ⟨F, f, rfl, hf, ?_, ?_⟩
              · unfold needsTest at hnt
                by_cases hn : bi.need_test = 0
                · right
                  by_cases hfa : bi.father = 0
                  · simp [hn, hfa] at hnt
                  · simp only [hfa, ne_eq, not_false_eq_true, if_true] at hFd
                    subst hFd
                    simp only [hn, ne_eq, not_true_eq_false, if_false, hfa, not_false_eq_true,
                      if_true, hf, Option.some.injEq, decide_eq_true_eq] at hnt
                    exact ⟨hfa, hnt⟩
                · exact Or.inl hn
              · by_cases hh : X31_hash_code si.mem f.x86_addr f.x86_size = f.hash
                · simp only [hh, ne_eq, not_true_eq_false, if_false, Option.some.injEq,
                    Prod.mk.injEq] at h
                  exact Or.inl ⟨hh, h.1.symm, h.2.symm⟩
                · simp only [hh, ne_eq, not_false_eq_true, if_true] at h
                  cases hfr : FreeDirectDynablock ext si f.parent f.x86_addr f.x86_size with
                  | none => simp [hfr] at h
                  | some sf =>
                    simp only [hfr] at h
                    exact Or.inr ⟨hh, sf, rfl, h⟩

/-- When the lookup finds a block that needs a test and the guest bytes of its
father-resolved block do not hash to the stored value, `DBGetBlock` frees the
range of that block and makes the lookup again. -/
theorem DBGetBlock_test_fail (ext : Extern) (s sf : State) (addr create current B F : Nat)
    (b f : dynablock_t)
    (hfind : internalDBGetBlock ext s addr create current = some (s, B)) (hB : B ≠ 0)
    (hb : s.db B = some b) (hF : F = if b.father ≠ 0 then b.father else B)
    (hf : s.db F = some f)
    (htest : b.need_test ≠ 0 ∨ (b.father ≠ 0 ∧ f.need_test ≠ 0))
    (hhash : X31_hash_code s.mem f.x86_addr f.x86_size ≠ f.hash)
    (hfree : FreeDirectDynablock ext s f.parent f.x86_addr f.x86_size = some sf) :
    DBGetBlock ext s addr create current = internalDBGetBlock ext sf addr create current := by
  unfold DBGetBlock needsTest DBGetBlock_retest
  simp only [hfind, hB, if_false, hb]
  by_cases hn : b.need_test = 0
  · have hfa : b.father ≠ 0 := by
      rcases htest with h | h
      · exact absurd hn h
      · exact h.1
    have hfn : f.need_test ≠ 0 := by
      rcases htest with h | h
      · exact absurd hn h
      · exact h.2
    simp only [hfa, if_true, ne_eq, not_false_eq_true] at hF
    subst hF
    simp only [hn, ne_eq, not_true_eq_false, if_false, hfa, not_false_eq_true, if_true,
      hf, hfn, decide_True, hhash, hfree]
  · simp only [hn, ne_eq, not_false_eq_true, if_true, ← hF, hf, hhash, hfree]

theorem probeDirect_shrunk (l lf : dynablocklist_t) (addr x y : Nat) (h : ShrunkList l lf)
    (hx : probeDirect l addr = some x) (hy : probeDirect lf addr = some y) :
    y = x ∨ y = 0 := by
  obtain ⟨t1, t2, _, _, _, t6⟩ := h
  have hwin : inWindow lf addr = inWindow l addr := by simp [inWindow, t1, t2]
  unfold probeDirect at hx hy
  cases hd : l.direct with
  | none =>
      cases hdf : lf.direct with
      | none =>
          simp only [hdf, Option.some.injEq] at hy
          exact Or.inr hy.symm
      | some df => simp [hd, hdf] at t6
  | some d =>
      cases hdf : lf.direct with
      | none => simp [hd, hdf] at t6
      | some df =>
          simp only [hd, hdf] at t6
          simp only [hd] at hx
          simp only [hdf, hwin, t1, t2] at hy
          by_cases hw : inWindow l addr = true
          · simp only [hw, if_true, readDirect] at hx hy
            by_cases hlt : addr - l.text < l.textsz
            · simp only [hlt, if_true, Option.some.injEq] at hx hy
              rw [← hx, ← hy]
              exact t6 _
            · simp [hlt] at hx
          · simp only [hw, Bool.false_eq_true, if_false, Option.some.injEq] at hy
            exact Or.inr hy.symm

/-- After direct slots have been cleared, the probes of an address find the
block they found before or nothing, when no address is held both by the direct
array and by the hash. -/
theorem probe_after_shrunk (s sf : State) (r addr db B : Nat) (l : dynablocklist_t)
    (hl : s.list r = some l) (hsh : Shrunk s sf)
    (hsingle : ∀ blk, probeDirect l addr = some blk → blk ≠ 0 →
      kh_get l.blocks (sub32 addr l.base) = none)
    (hp : probe s r addr = some db) (hq : probe sf r addr = some B) (hB : B ≠ 0) :
    B = db := by
  obtain ⟨lf, hlf, hs⟩ := hsh r l hl
  unfold probe at hp hq
  simp only [hl] at hp
  simp only [hlf] at hq
  cases hx : probeDirect l addr with
  | none => simp [hx] at hp
  | some x =>
    cases hy : probeDirect lf addr with
    | none => simp [hy] at hq
    | some y =>
      simp only [hx] at hp
      simp only [hy, hs.2.2.2.2.1, hs.2.2.1] at hq
      by_cases hy0 : y = 0
      · subst hy0
        simp only [ne_eq, not_true_eq_false, if_false] at hq
        by_cases hx0 : x = 0
        · subst hx0
          simp only [ne_eq, not_true_eq_false, if_false] at hp
          rw [hp] at hq
          exact (Option.some.inj hq).symm
        · rw [hsingle x hx hx0] at hq
          simp only [Option.some.injEq] at hq
          exact absurd hq.symm hB
      · rcases probeDirect_shrunk l lf addr x y hs hx hy with h1 | h1
        · subst h1
          simp only [hy0, ne_eq, not_false_eq_true, if_true, Option.some.injEq] at hp hq
          rw [← hp, ← hq]
        · exact absurd h1 hy0

/-- Repeated lookup: `DBGetBlock(addr, create = 1, NULL)` has returned a block `B` whose
`need_test` is clear, in a region whose window lies in the address space and
whose directory holds each key once and no address twice; the father of `B`,
when it has one, is live, and the code generator keeps the block it fills where
the lookup finds it.  Then `DBGetBlock(addr, create, NULL)` returns `B` again
and leaves the state as it is: no block is allocated, `FillBlock` is not
called. -/
theorem DBGetBlock_again (ext : Extern) (s s1 : State) (addr create B r : Nat)
    (l : dynablocklist_t) (b : dynablock_t)
    (h1 : DBGetBlock ext s addr 1 0 = some (s1, B))
    (hb : s1.db B = some b) (hn : b.need_test = 0)
    (hlive : b.father ≠ 0 → (s1.db b.father).isSome)
    (hr : ext.GetDynablocksFromAddress addr = r) (hl : s.list r = some l)
    (hw : l.text + l.textsz < W32) (ha : addr < W32) (hnd : (l.blocks.map Prod.fst).Nodup)
    (hsingle : ∀ blk, probeDirect l addr = some blk → blk ≠ 0 →
      kh_get l.blocks (sub32 addr l.base) = none)
    (hfill : FillKeeps ext addr) :
    DBGetBlock ext s1 addr create 0 = some (s1, B) := by
  have hB := State.db_ne_zero s1 B b hb
  -- a fresh block, found by the probes, needs no test
  have fresh : ∀ b1, probe s1 r addr = some B → s1.db B = some b1 → b1.need_test = 0 →
      b1.father = 0 → DBGetBlock ext s1 addr create 0 = some (s1, B) := by
    intro b1 hp hb1 h2 h3
    exact DBGetBlock_no_test ext s1 addr create 0 B b1
      (internalDBGetBlock_of_probe ext s1 addr create r B hr hp hB) hb1 h2
      (fun hfa => absurd h3 hfa)
  obtain ⟨si, db, bi, hi, hdb, hbi, hcase⟩ := DBGetBlock_cases ext s s1 addr 1 0 B h1 hB
  rcases internalDBGetBlock_create ext s si addr db r l hr hl hw ha hnd hfill hi hdb with
    ⟨hsi, hps⟩ | ⟨hps, b2, hb2, hn2, hf2⟩
  · -- the first lookup found `db` in `s`
    subst hsi
    rcases hcase with ⟨e1, e2, hn0, hfa0⟩ | ⟨F, f, hF, hf, htest, hhash⟩
    · -- no test
      subst e1
      subst e2
      exact DBGetBlock_no_test ext s1 addr create 0 B bi
        (internalDBGetBlock_of_probe ext s1 addr create r B hr hps hB) hbi hn0 hfa0
    · rcases hhash with ⟨_, e1, e2⟩ | ⟨hne, sf, hfree, hagain⟩
      · -- the hash matches: `need_test` of `F` has been cleared
        subst e2
        have hF0 := State.db_ne_zero si F f hf
        have hp1 : probe s1 r addr = some B := by
          rw [e1, probe_setDb]
          exact hps
        refine DBGetBlock_no_test ext s1 addr create 0 B b
          (internalDBGetBlock_of_probe ext s1 addr create r B hr hp1 hB) hb hn (fun hfa => ?_)
        have hbfa : b.father = bi.father := by
          rw [e1, State.db_setDb] at hb
          simp only [hB, if_false] at hb
          by_cases hBF : B = F
          · simp only [hBF, if_true, Option.some.injEq] at hb
            rw [hBF, hf] at hbi
            rw [← hb, ← Option.some.inj hbi]
          · simp only [hBF, if_false] at hb
            rw [hbi] at hb
            rw [← Option.some.inj hb]
        have hbF : b.father = F := by
          rw [hbfa] at hfa ⊢
          simp only [hfa, ne_eq, not_false_eq_true, if_true] at hF
          exact hF.symm
        rw [hbF, e1, State.db_setDb]
        exact ⟨{ f with need_test := 0 }, by simp [hF0], rfl⟩
      · -- the hash differs: the range of `F` was freed, the lookup made again
        obtain ⟨hsh, hkept, hidem⟩ := FreeDirectDynablock_spec ext si sf _ _ _ hfree
        obtain ⟨lf, hlf, t1, t2, t3, t4, t5, t6⟩ := hsh r l hl
        rcases internalDBGetBlock_create ext sf s1 addr B r lf hr hlf
            (by rw [t1, t2]; exact hw) ha (by rw [t5]; exact hnd) hfill hagain hB with
          ⟨hs1, hpf⟩ | ⟨hpf, b3, hb3, hn3, hf3⟩
        · -- the block is still there
          subst hs1
          have hBdb : B = db := probe_after_shrunk si s1 r addr db B l hl hsh hsingle hps hpf hB
          subst hBdb
          obtain ⟨b0, hb0, eb⟩ := hkept.2 B b hb
          rw [hbi] at hb0
          cases hb0
          have hnb : bi.need_test = 0 := by
            rw [eb] at hn
            exact hn
          have hfab : b.father = bi.father := by
            rw [eb]
          have hfa : bi.father ≠ 0 ∧ f.need_test ≠ 0 := by
            rcases htest with h | h
            · exact absurd hnb h
            · exact h
          simp only [hfa.1, ne_eq, not_false_eq_true, if_true] at hF
          subst hF
          obtain ⟨f1, hf1⟩ := Option.isSome_iff_exists.mp (hlive (by rw [hfab]; exact hfa.1))
          rw [hfab] at hf1
          obtain ⟨f0, hf0, ef⟩ := hkept.2 _ f1 hf1
          rw [hf] at hf0
          cases hf0
          have hfind := internalDBGetBlock_of_probe ext s1 addr create r B hr hpf hB
          have hfail := DBGetBlock_test_fail ext s1 s1 addr create 0 B bi.father b f1 hfind hB hb
            (by rw [hfab]; simp [hfa.1]) hf1
            (Or.inr ⟨by rw [hfab]; exact hfa.1, by rw [ef]; exact hfa.2⟩)
            (by rw [hkept.1, ef]; exact hne)
            (by rw [ef]; exact hidem)
          rw [hfail]
          exact hfind
        · exact fresh b3 hpf hb3 hn3 hf3
  · -- the first lookup created `db`: it needs no test
    rw [hbi] at hb2
    cases hb2
    rcases hcase with ⟨e1, e2, _, _⟩ | ⟨F, f, hF, hf, htest, _⟩
    · subst e1
      subst e2
      exact fresh bi hps hbi hn2 hf2
    · rcases htest with h | h
      · exact absurd hn2 h
      · exact absurd hf2 h.1

/-- The code generator of the examples keeps the contract `FillKeeps`. -/
theorem simpleExt_FillKeeps (r0 addr : Nat) : FillKeeps (simpleExt r0) addr := by
  intro s r blk b hblk hp hb hn hf
  show probe (simpleFill s blk addr) r addr = some blk ∧
    ∃ b1, (simpleFill s blk addr).db blk = some b1 ∧ b1.need_test = 0 ∧ b1.father = 0
  unfold simpleFill
  simp only [hb]
  refine ⟨by rw [probe_setDb]; exact hp,
    { b with x86_addr := addr, x86_size := 4, hash := X31_hash_code s.mem addr 4 },
    by rw [State.db_setDb]; simp [hblk], hn, hf⟩

/-- Repeated lookup at the address `0x1040` of `directRegion`. -/
theorem DBGetBlock_again_witness :
    (DBGetBlock (simpleExt 1) directRegion 0x1040 1 0 = some (createdState, 2) ∧
      createdState.db 2 = some createdBlock ∧ createdBlock.need_test = 0 ∧
      (simpleExt 1).GetDynablocksFromAddress 0x1040 = 1 ∧
      directRegion.list 1 = some directList ∧
      directList.text + directList.textsz < W32 ∧ 0x1040 < W32 ∧
      (directList.blocks.map Prod.fst).Nodup) ∧
    DBGetBlock (simpleExt 1) createdState 0x1040 0 0 = some (createdState, 2) :=
  ⟨⟨rfl, rfl, rfl, rfl, rfl, by decide, by decide, by decide⟩,
    DBGetBlock_again (simpleExt 1) directRegion createdState 0x1040 0 2 1 directList
      createdBlock rfl rfl rfl (fun h => absurd rfl h) rfl rfl (by decide) (by decide)
      (by decide) (fun _ _ _ => rfl) (simpleExt_FillKeeps 1 0x1040)⟩

/-! ## Theorems: MarkDynablock -/

theorem State.setDb_self (s : State) (p : Nat) (b : dynablock_t) (h : s.db p = some b) :
    s.setDb p b = s := by
  have hp := State.db_ne_zero s p b h
  simp only [State.db, hp, if_false] at h
  unfold State.setDb
  have e : Function.update s.dbs p (some b) = s.dbs := by
    rw [Function.update_eq_self_iff]
    exact h.symm
  rw [e]

theorem resetMarks_trace (ext : Extern) (m : kh_mark_t) :
    ∀ s : State, (resetMarks ext s m).trace = s.trace ++ m.map Event.resettable ∧
      (resetMarks ext s m).words = m.foldl ext.resettable s.words := by
  unfold resetMarks
  induction m with
  | nil => intro s; simp
  | cons k rest ih =>
      intro s
      simp only [List.foldl_cons, List.map_cons]
      obtain ⟨h1, h2⟩ := ih ({ s with words := ext.resettable s.words k }.log
        (Event.resettable k))
      rw [h1, h2]
      simp [State.log]

/-- C11: `MarkDynablock(db)` completes when `db` is `NULL` or a live block
whose father, when it has one, is live; a second call right after it completes
and leaves the state of the first as it is: every `need_test` flag, every marks
set, the host memory words and the trace of external calls, so that the second
call makes no call to `resettable`. -/
theorem MarkDynablock_twice (ext : Extern) (s : State) (db : Nat)
    (hlive : db ≠ 0 → ∃ b, s.db db = some b ∧ (b.father ≠ 0 → (s.db b.father).isSome)) :
    ∃ s1, MarkDynablock ext s db = some s1 ∧ MarkDynablock ext s1 db = some s1 := by
  by_cases h0 : db = 0
  · exact ⟨s, by simp [MarkDynablock, h0], by simp [MarkDynablock, h0]⟩
  · obtain ⟨b, hb, hfl⟩ := hlive h0
    obtain ⟨F, hF⟩ : ∃ F, F = if b.father ≠ 0 then b.father else db := ⟨_, rfl⟩
    have hfs : (s.db F).isSome := by
      by_cases hbf : b.father ≠ 0
      · rw [hF, if_pos hbf]; exact hfl hbf
      · rw [hF, if_neg hbf, hb]; rfl
    obtain ⟨f, hf⟩ := Option.isSome_iff_exists.mp hfs
    have hF0 := State.db_ne_zero s F f hf
    have h1 := MarkDynablock_spec ext s db F b f hb hF hf
    refine ⟨_, h1, ?_⟩
    -- the records of `db` and of `F` after the first call
    obtain ⟨f1, hf1⟩ : ∃ f1 : dynablock_t, f1 =
        { f with marks := if f.need_test = 0 then f.marks.map (fun _ => []) else f.marks,
                 need_test := 1 } := ⟨_, rfl⟩
    obtain ⟨s0, hs0⟩ : ∃ s0 : State, s0 =
        (if f.marks.isSome ∧ f.need_test = 0 then resetMarks ext s (f.marks.getD []) else s) :=
      ⟨_, rfl⟩
    rw [← hf1, ← hs0]
    have hs0db : ∀ p, s0.db p = s.db p := by
      intro p
      rw [hs0]
      split_ifs
      · exact resetMarks_db ext _ s p
      · rfl
    have hF1 : (s0.setDb F f1).db F = some f1 := by
      rw [State.db_setDb]; simp [hF0]
    have hff : f1.father = f.father := by rw [hf1]
    obtain ⟨b1, hb1, hbf1⟩ : ∃ b1, (s0.setDb F f1).db db = some b1 ∧ b1.father = b.father := by
      by_cases e : db = F
      · refine ⟨f1, by rw [e]; exact hF1, ?_⟩
        rw [hff]
        rw [← e, hb] at hf
        cases hf
        rfl
      · refine ⟨b, ?_, rfl⟩
        rw [State.db_setDb]
        simp [h0, e, hs0db, hb]
    have hF' : F = if b1.father ≠ 0 then b1.father else db := by rw [hbf1]; exact hF
    have h2 := MarkDynablock_spec ext (s0.setDb F f1) db F b1 f1 hb1 hF' hF1
    rw [h2]
    have hn1 : f1.need_test = 1 := by rw [hf1]
    simp only [hn1, one_ne_zero, and_false, if_false]
    have e1 : ({ f1 with need_test := 1 } : dynablock_t) = f1 := by
      rw [hf1]
    rw [e1, State.setDb_self _ F f1 hF1]

/-- C11 at block 3 of `linkState`, which has one mark. -/
theorem MarkDynablock_twice_witness :
    (3 ≠ 0 → ∃ b, linkState.db 3 = some b ∧ (b.father ≠ 0 → (linkState.db b.father).isSome)) ∧
    ∃ s1, MarkDynablock (simpleExt 1) linkState 3 = some s1 ∧
      MarkDynablock (simpleExt 1) s1 3 = some s1 :=
  ⟨fun _ => ⟨linkBlock3, rfl, fun h => absurd rfl h⟩,
    MarkDynablock_twice (simpleExt 1) linkState 3
      (fun _ => ⟨linkBlock3, rfl, fun h => absurd rfl h⟩)⟩

/-- C12 (amended): `b` is a live block and `F`, the father-resolved `b`, is
live.  `MarkDynablock(b)` completes and leaves `F` live with `need_test` set.
When `need_test` of `F` was clear at the call and `F` has marks, `resettable`
has been applied to every slot address of the marks, in their order, and to
nothing else, and the marks are empty afterwards.  When `need_test` of `F` was
set already, or `F` has no marks, no call to `resettable` is made and the marks
are left as they were. -/
theorem MarkDynablock_severs (ext : Extern) (s : State) (b F : Nat) (rb rf : dynablock_t)
    (hb : s.db b = some rb) (hF : F = if rb.father ≠ 0 then rb.father else b)
    (hf : s.db F = some rf) :
    ∃ s1 f1, MarkDynablock ext s b = some s1 ∧ s1.db F = some f1 ∧ f1.need_test = 1 ∧
      (rf.need_test = 0 → ∀ m, rf.marks = some m →
        s1.trace = s.trace ++ m.map Event.resettable ∧
        s1.words = m.foldl ext.resettable s.words ∧ f1.marks = some []) ∧
      (rf.need_test ≠ 0 ∨ rf.marks = none →
        s1.trace = s.trace ∧ s1.words = s.words ∧ f1.marks = rf.marks) := by
  have hF0 := State.db_ne_zero s F rf hf
  obtain ⟨f1, hf1⟩ : ∃ f1 : dynablock_t, f1 =
      { rf with marks := if rf.need_test = 0 then rf.marks.map (fun _ => []) else rf.marks,
                need_test := 1 } := ⟨_, rfl⟩
  refine ⟨_, f1, MarkDynablock_spec ext s b F rb rf hb hF hf, ?_, by rw [hf1], ?_, ?_⟩
  · rw [State.db_setDb, hf1]; simp [hF0]
  · intro hn m hm
    simp only [hm, hn, Option.isSome_some, and_self, if_true, Option.getD_some, Option.map_some']
    refine ⟨(resetMarks_trace ext m s).1, (resetMarks_trace ext m s).2, ?_⟩
    rw [hf1]
    simp [hn, hm]
  · intro h
    rw [hf1]
    rcases h with hn | hm
    · simp [hn, State.setDb]
    · simp [hm, State.setDb]

/-- C12 (amended) at block 3 of `linkState`, which has the mark `0x100` and
`need_test` clear. -/
theorem MarkDynablock_severs_witness :
    (linkState.db 3 = some linkBlock3 ∧
      3 = (if linkBlock3.father ≠ 0 then linkBlock3.father else 3)) ∧
    ∃ s1 f1, MarkDynablock (simpleExt 1) linkState 3 = some s1 ∧ s1.db 3 = some f1 ∧
      f1.need_test = 1 ∧
      (linkBlock3.need_test = 0 → ∀ m, linkBlock3.marks = some m →
        s1.trace = linkState.trace ++ m.map Event.resettable ∧
        s1.words = m.foldl (simpleExt 1).resettable linkState.words ∧ f1.marks = some []) ∧
      (linkBlock3.need_test ≠ 0 ∨ linkBlock3.marks = none →
        s1.trace = linkState.trace ∧ s1.words = linkState.words ∧
        f1.marks = linkBlock3.marks) :=
  ⟨⟨rfl, by decide⟩,
    MarkDynablock_severs (simpleExt 1) linkState 3 3 linkBlock3 linkBlock3 rfl (by decide) rfl⟩

/-- C12, as stated, fails for a block that is marked already: in
`linkStateRelinked` block 3 has `need_test` set and the slot `0x100` in its
marks (it was marked, then `AddMark` linked the slot to it again);
`MarkDynablock(block 3)` makes no call to `resettable` and leaves the slot in
the marks. -/
theorem MarkDynablock_marked_keeps_marks :
    ((linkStateRelinked.db 3).map (fun f => (f.father, f.need_test, f.marks)) =
      some (0, 1, some [0x100])) ∧
    (MarkDynablock (simpleExt 1) linkStateRelinked 3).map
      (fun s1 => (marksOf s1 3, decide (s1.trace = linkStateRelinked.trace))) =
      some (some [0x100], true) := by
  decide

/-! ## Theorems: lookups that find nothing -/

theorem probe_of_absent (s : State) (r addr : Nat) (l : dynablocklist_t)
    (hl : s.list r = some l) (hd : probeDirect l addr = some 0)
    (hh : kh_get l.blocks (sub32 addr l.base) = none) : probe s r addr = some 0 := by
  unfold probe
  simp [hl, hd, hh]

/-- C14: `r` is the region the registry gives for `addr`.  `DBGetBlock` returns
`NULL` and leaves the state as it is (nothing is allocated, `FillBlock` is not
called, the directory of every region is unchanged) in two cases: the
registry has no region for `addr` and `current` is `NULL`, whatever
`create`; or `create = 0` and the region `r` holds no block for `addr`, neither
in its direct array nor in its hash under the key `addr - base`, `current`
being `NULL` or a live block whose region is `r` or does not cover `addr`. -/
theorem DBGetBlock_null (ext : Extern) (s : State) (addr create current r : Nat)
    (hr : ext.GetDynablocksFromAddress addr = r)
    (hcase : (r = 0 ∧ current = 0) ∨
      (create = 0 ∧
        (∃ l, s.list r = some l ∧ probeDirect l addr = some 0 ∧
          kh_get l.blocks (sub32 addr l.base) = none) ∧
        (current ≠ 0 → ∃ cur lp, s.db current = some cur ∧ s.list cur.parent = some lp ∧
          (inWindow lp addr = true → cur.parent = r)))) :
    DBGetBlock ext s addr create current = some (s, 0) := by
  rcases hcase with ⟨hr0, hc0⟩ | ⟨hcr, ⟨l, hl, hd, hh⟩, hcur⟩
  · unfold DBGetBlock internalDBGetBlock internalDBGetBlock_quick
    simp [hc0, hr, hr0]
  · have hrn := State.list_ne_zero s r l hl
    have hp := probe_of_absent s r addr l hl hd hh
    have hslow : internalDBGetBlock_slow ext s r addr create = some (s, 0) := by
      unfold internalDBGetBlock_slow
      simp [hp, hcr]
    have hint : internalDBGetBlock ext s addr create current = some (s, 0) := by
      unfold internalDBGetBlock
      by_cases hc0 : current = 0
      · simp [internalDBGetBlock_quick, hc0, hr, hrn, hslow]
      · obtain ⟨cur, lp, hcd, hlp, hwin⟩ := hcur hc0
        by_cases hw : inWindow lp addr = true
        · have e := hwin hw
          rw [e, hl] at hlp
          cases hlp
          have hq : internalDBGetBlock_quick s addr current = some (r, 0) := by
            unfold internalDBGetBlock_quick
            simp only [hc0, ne_eq, not_false_eq_true, if_true, hcd, e, hl, hw, not_true_eq_false,
              if_false]
            unfold probeDirect at hd
            cases hdir : l.direct with
            | none => rfl
            | some d =>
                simp only [hdir, hw, if_true] at hd
                simp [hd]
          simp [hq, hrn, hslow]
        · have hq : internalDBGetBlock_quick s addr current = some (0, 0) := by
            unfold internalDBGetBlock_quick
            simp [hc0, hcd, hlp, hw]
          simp [hq, hr, hrn, hslow]
    unfold DBGetBlock
    simp [hint]

/-- C14 at the address `0x1040` of the empty region `directRegion`, without
creation. -/
theorem DBGetBlock_null_witness :
    ((simpleExt 1).GetDynablocksFromAddress 0x1040 = 1 ∧
      ((1 = 0 ∧ 0 = 0) ∨
        (0 = 0 ∧
          (∃ l, directRegion.list 1 = some l ∧ probeDirect l 0x1040 = some 0 ∧
            kh_get l.blocks (sub32 0x1040 l.base) = none) ∧
          (0 ≠ 0 → ∃ cur lp, directRegion.db 0 = some cur ∧
            directRegion.list cur.parent = some lp ∧
            (inWindow lp 0x1040 = true → cur.parent = 1))))) ∧
    DBGetBlock (simpleExt 1) directRegion 0x1040 0 0 = some (directRegion, 0) :=
  ⟨⟨rfl, Or.inr ⟨rfl, ⟨directList, rfl, by decide, by decide⟩, fun h => absurd rfl h⟩⟩,
    DBGetBlock_null (simpleExt 1) directRegion 0x1040 0 0 1 rfl
      (Or.inr ⟨rfl, ⟨directList, rfl, by decide, by decide⟩, fun h => absurd rfl h⟩)⟩

/-! ## Theorems: regions that never get a direct array -/

theorem ConvertHash2Direct_disabled (s : State) (r : Nat) (l : dynablocklist_t)
    (hl : s.list r = some l) (hz : l.textsz = 0 ∨ l.text = 0) :
    ConvertHash2Direct s r = some s := by
  unfold ConvertHash2Direct
  simp [hl, hz]

/-- One call of `AddNewDynablock` in a region without direct array whose
`textsz` or `text` is zero: the call completes and the region is still without
direct array. -/
theorem AddNewDynablock_no_direct (s : State) (r : Nat) (l : dynablocklist_t) (a : Nat)
    (hl : s.list r = some l) (hd : l.direct = none) (hz : l.textsz = 0 ∨ l.text = 0)
    (hbrk : s.brk ≠ 0) :
    ∃ s1 b c l1, AddNewDynablock s r a = some (s1, b, c) ∧ s1.list r = some l1 ∧
      l1.direct = none ∧ l1.text = l.text ∧ l1.textsz = l.textsz ∧ s1.brk ≠ 0 := by
  have hr0 := State.list_ne_zero s r l hl
  unfold AddNewDynablock probeDirect
  simp only [hl, hd, ne_eq, not_true_eq_false, if_false]
  unfold AddNewDynablock_hash
  cases hg : kh_get l.blocks (sub32 a l.base) with
  | some blk =>
      simp only [hg]
      exact ⟨s, blk, 0, l, rfl, hl, hd, rfl, rfl, hbrk⟩
  | none =>
      simp only [hg]
      obtain ⟨l2, hl2⟩ : ∃ l2 : dynablocklist_t, l2 =
          { l with blocks := kh_put_value l.blocks (sub32 a l.base) s.brk } := ⟨_, rfl⟩
      have hl2s : ((callocBlock s).1.setList r l2).list r = some l2 := by
        rw [State.list_setList]; simp [hr0]
      have hz2 : l2.textsz = 0 ∨ l2.text = 0 := by rw [hl2]; exact hz
      have hconv := ConvertHash2Direct_disabled _ r l2 hl2s hz2
      simp only [callocBlock] at hconv hl2s ⊢
      rw [← hl2, hconv]
      simp only [ite_self, setParent]
      simp only [State.setList, State.log, State.setDb, State.db, hbrk, if_false,
        Function.update_same]
      refine ⟨_, _, _, l2, rfl, ?_, ?_, ?_, ?_, ?_⟩
      · simp [State.list, hr0]
      · rw [hl2]; exact hd
      · rw [hl2]
      · rw [hl2]
      · simp

/-- Successive calls of `AddNewDynablock` in a region without direct array
whose `textsz` or `text` is zero all complete and leave the region without
direct array. -/
theorem AddNewDynablock_all_no_direct (r : Nat) (addrs : List Nat) :
    ∀ (s : State) (l : dynablocklist_t), s.list r = some l → l.direct = none →
      (l.textsz = 0 ∨ l.text = 0) → s.brk ≠ 0 →
      ∃ s1 res l1, AddNewDynablock_all r addrs s = some (s1, res) ∧
        res.length = addrs.length ∧ s1.list r = some l1 ∧
        l1.direct = none ∧ l1.text = l.text ∧ l1.textsz = l.textsz := by
  induction addrs with
  | nil =>
      intro s l hl hd _ _
      exact ⟨s, [], l, rfl, rfl, hl, hd, rfl, rfl⟩
  | cons a rest ih =>
      intro s l hl hd hz hbrk
      obtain ⟨s1, b, c, l1, h1, hl1, hd1, ht1, hs1, hb1⟩ :=
        AddNewDynablock_no_direct s r l a hl hd hz hbrk
      have hz1 : l1.textsz = 0 ∨ l1.text = 0 := by rw [ht1, hs1]; exact hz
      obtain ⟨s2, res, l2, h2, hlen, hl2, hd2, ht2, hs2⟩ := ih s1 l1 hl1 hd1 hz1 hb1
      refine ⟨s2, (b, c) :: res, l2, ?_, by simp [hlen], hl2, hd2, by rw [ht2, ht1],
        by rw [hs2, hs1]⟩
      unfold AddNewDynablock_all
      simp [h1, h2]

/-- C13 (amended): the region that `NewDynablockList(base, text, textsz,
nolinker, direct)` creates has no direct array when `textsz` is zero, whatever
the flag `direct`, and when `text` is zero and the flag is clear.  On such a
region `ConvertHash2Direct` changes nothing, and every sequence of calls of
`AddNewDynablock`, however many blocks it brings into the hash, completes and
leaves the region without direct array, on which `ConvertHash2Direct` again
changes nothing. -/
theorem NewDynablockList_stays_hash (s0 : State) (base text textsz nolinker direct : Nat)
    (addrs : List Nat) (hbrk : s0.brk ≠ 0)
    (hz : textsz = 0 ∨ (text = 0 ∧ direct = 0)) :
    (∃ l, (NewDynablockList s0 base text textsz nolinker direct).1.list
        (NewDynablockList s0 base text textsz nolinker direct).2 = some l ∧ l.direct = none) ∧
    ConvertHash2Direct (NewDynablockList s0 base text textsz nolinker direct).1
        (NewDynablockList s0 base text textsz nolinker direct).2 =
      some (NewDynablockList s0 base text textsz nolinker direct).1 ∧
    ∃ s1 res l1, AddNewDynablock_all (NewDynablockList s0 base text textsz nolinker direct).2 addrs
        (NewDynablockList s0 base text textsz nolinker direct).1 = some (s1, res) ∧
      res.length = addrs.length ∧
      s1.list (NewDynablockList s0 base text textsz nolinker direct).2 = some l1 ∧
      l1.direct = none ∧
      ConvertHash2Direct s1 (NewDynablockList s0 base text textsz nolinker direct).2 = some s1 := by
  obtain ⟨l, hl⟩ : ∃ l : dynablocklist_t, l =
      { text := text, textsz := textsz, base := base, nolinker := nolinker, blocks := [],
        direct := if direct ≠ 0 ∧ textsz ≠ 0 then some (fun _ => 0) else none } := ⟨_, rfl⟩
  have hlist : (NewDynablockList s0 base text textsz nolinker direct).1.list
      (NewDynablockList s0 base text textsz nolinker direct).2 = some l := by
    simp only [NewDynablockList, State.log, State.setList, State.list, hbrk, if_false,
      Function.update_same, hl]
  have hd : l.direct = none := by
    rw [hl]
    rcases hz with h | ⟨_, h⟩
    · simp [h]
    · simp [h]
  have hzl : l.textsz = 0 ∨ l.text = 0 := by
    rw [hl]
    rcases hz with h | ⟨h, _⟩
    · exact Or.inl h
    · exact Or.inr h
  have hb1 : (NewDynablockList s0 base text textsz nolinker direct).1.brk ≠ 0 := by
    simp [NewDynablockList, State.log, State.setList]
  refine ⟨⟨l, hlist, hd⟩, ConvertHash2Direct_disabled _ _ l hlist hzl, ?_⟩
  obtain ⟨s1, res, l1, h1, hlen, hl1, hd1, ht1, hs1⟩ :=
    AddNewDynablock_all_no_direct _ addrs _ l hlist hd hzl hb1
  refine ⟨s1, res, l1, h1, hlen, hl1, hd1, ConvertHash2Direct_disabled _ _ l1 hl1 ?_⟩
  rw [ht1, hs1]
  exact hzl

/-- C13 (amended) at the region `NewDynablockList(0, 0, 0x1000, 0, 0)` and the
256 addresses `0 .. 255`. -/
theorem NewDynablockList_stays_hash_witness :
    (emptyState.brk ≠ 0 ∧ ((0x1000 : Nat) = 0 ∨ ((0 : Nat) = 0 ∧ (0 : Nat) = 0))) ∧
    ((∃ l, (NewDynablockList emptyState 0 0 0x1000 0 0).1.list
        (NewDynablockList emptyState 0 0 0x1000 0 0).2 = some l ∧ l.direct = none) ∧
    ConvertHash2Direct (NewDynablockList emptyState 0 0 0x1000 0 0).1
        (NewDynablockList emptyState 0 0 0x1000 0 0).2 =
      some (NewDynablockList emptyState 0 0 0x1000 0 0).1 ∧
    ∃ s1 res l1, AddNewDynablock_all (NewDynablockList emptyState 0 0 0x1000 0 0).2
        (List.range 256) (NewDynablockList emptyState 0 0 0x1000 0 0).1 = some (s1, res) ∧
      res.length = (List.range 256).length ∧
      s1.list (NewDynablockList emptyState 0 0 0x1000 0 0).2 = some l1 ∧
      l1.direct = none ∧
      ConvertHash2Direct s1 (NewDynablockList emptyState 0 0 0x1000 0 0).2 = some s1) :=
  ⟨⟨by decide, Or.inr ⟨rfl, rfl⟩⟩,
    NewDynablockList_stays_hash emptyState 0 0 0x1000 0 0 (List.range 256) (by decide)
      (Or.inr ⟨rfl, rfl⟩)⟩

/-- C13, as stated, fails for a region whose `text` is zero:
`NewDynablockList(0, 0, 0x100, 0, 1)` tests `direct && textsz` only and gives
the region a direct array. -/
theorem NewDynablockList_zero_text_direct :
    ((NewDynablockList emptyState 0 0 0x100 0 1).1.list
        (NewDynablockList emptyState 0 0 0x100 0 1).2).map
      (fun l => (l.text, l.textsz, l.direct.isSome)) = some (0, 0x100, true) := by
  decide

/-! ## Theorems: AddMark twice -/

theorem SameButMarks_refl (s : State) : SameButMarks s s :=
  ⟨rfl, rfl, rfl, rfl, rfl, fun _ => rfl⟩

theorem SameButMarks_trans (s s1 s2 : State) (h1 : SameButMarks s s1)
    (h2 : SameButMarks s1 s2) : SameButMarks s s2 :=
  ⟨h2.1.trans h1.1, h2.2.1.trans h1.2.1, h2.2.2.1.trans h1.2.2.1,
    h2.2.2.2.1.trans h1.2.2.2.1, h2.2.2.2.2.1.trans h1.2.2.2.2.1,
    fun p => (h2.2.2.2.2.2 p).trans (h1.2.2.2.2.2 p)⟩

theorem SameButMarks_setMarks (s : State) (p : Nat) (b : dynablock_t) (m : Option kh_mark_t)
    (hb : s.db p = some b) : SameButMarks s (s.setDb p { b with marks := m }) := by
  refine ⟨rfl, rfl, rfl, rfl, rfl, fun q => ?_⟩
  rw [State.db_setDb]
  by_cases h0 : q = 0
  · subst h0
    simp [State.db]
  · by_cases h1 : q = p
    · subst h1
      simp [h0, hb]
    · simp [h0, h1]

theorem SameButMarks_father (s s1 : State) (h : SameButMarks s s1) (p : Nat) :
    (s1.db p).map (fun b => b.father) = (s.db p).map (fun b => b.father) := by
  have h6 := h.2.2.2.2.2 p
  cases h1 : s1.db p with
  | none =>
      rw [h1] at h6
      cases h0 : s.db p with
      | none => rfl
      | some b => rw [h0] at h6; simp at h6
  | some b1 =>
      rw [h1] at h6
      cases h0 : s.db p with
      | none => rw [h0] at h6; simp at h6
      | some b =>
          rw [h0] at h6
          simp only [Option.map_some', Option.some.injEq] at h6 ⊢
          have e := congrArg dynablock_t.father h6
          simpa using e

theorem resolveFather_congr (s s1 : State) (h : SameButMarks s s1) (p : Nat) :
    resolveFather s1 p = resolveFather s p := by
  unfold resolveFather
  by_cases h0 : p = 0
  · simp [h0]
  · simp only [h0, if_false]
    have hf := SameButMarks_father s s1 h p
    cases h1 : s1.db p with
    | none =>
        rw [h1] at hf
        cases h2 : s.db p with
        | none => rfl
        | some b => rw [h2] at hf; simp at hf
    | some b1 =>
        rw [h1] at hf
        cases h2 : s.db p with
        | none => rw [h2] at hf; simp at hf
        | some b =>
            rw [h2] at hf
            simp only [Option.map_some', Option.some.injEq] at hf ⊢
            rw [hf]

theorem SameButMarks_isSome (s s1 : State) (h : SameButMarks s s1) (p : Nat) :
    (s1.db p).isSome = (s.db p).isSome := by
  have h6 := h.2.2.2.2.2 p
  cases h1 : s1.db p <;> cases h0 : s.db p <;> simp [h1, h0] at h6 ⊢

/-- A completed `AddMark` changes word 3 of the slot and marks sets, nothing
else. -/
theorem AddMark_frame (s s1 : State) (src dest S : Nat) (h : AddMark s src dest S = some s1) :
    SameButMarks s { s1 with words := s.words } ∧
    s1.words = Function.update s.words (S + 4 * 3) (s1.words (S + 4 * 3)) := by
  unfold AddMark at h
  cases hO : resolveFather s (s.words (S + 4 * 3)) with
  | none => simp [hO] at h
  | some old =>
    simp only [hO] at h
    cases hr : AddMark_remove s old S with
    | none => simp [hr] at h
    | some sa =>
      simp only [hr] at h
      have hsa : SameButMarks s sa := by
        unfold AddMark_remove at hr
        by_cases ho : old = 0
        · simp only [ho, ne_eq, not_true_eq_false, if_false, Option.some.injEq] at hr
          rw [← hr]
          exact SameButMarks_refl s
        · simp only [ne_eq, ho, not_false_eq_true, if_true] at hr
          cases hod : s.db old with
          | none => simp [hod] at hr
          | some o =>
            simp only [hod] at hr
            cases hom : o.marks with
            | none =>
                simp only [hom, Option.some.injEq] at hr
                rw [← hr]
                exact SameButMarks_refl s
            | some m =>
                simp only [hom, Option.some.injEq] at hr
                rw [← hr]
                exact SameButMarks_setMarks s old o _ hod
      cases hd0 : sa.db dest with
      | none => simp [hd0] at h
      | some d0 =>
        simp only [hd0] at h
        generalize hD : (if d0.father ≠ 0 then d0.father else dest) = D at h
        cases ha : AddMark_add sa D S with
        | none => simp [ha] at h
        | some sb =>
          simp only [ha, Option.some.injEq] at h
          have hsb : SameButMarks sa sb := by
            unfold AddMark_add at ha
            cases hdd : sa.db D with
            | none => simp [hdd] at ha
            | some d =>
              simp only [hdd] at ha
              cases hdm : d.marks with
              | none =>
                  simp only [hdm, Option.some.injEq] at ha
                  rw [← ha]
                  exact SameButMarks_refl sa
              | some m =>
                  simp only [hdm, Option.some.injEq] at ha
                  rw [← ha]
                  exact SameButMarks_setMarks sa D d _ hdd
          have hall := SameButMarks_trans s sa sb hsa hsb
          rw [← h]
          constructor
          · obtain ⟨a1, a2, a3, a4, a5, a6⟩ := hall
            exact ⟨a1, a2, rfl, a4, a5, a6⟩
          · simp only [Function.update_same]
            rw [hall.2.2.1]

/-- C15: `O` is the father-resolved block that word 3 of the slot `S` names,
`D` the father-resolved `dest`; the pointers `AddMark` follows are live and `D`
is father-resolved (it has no father but itself).  `AddMark(src, dest, S)`
completes, a second call right after it completes, and the state after the
second call is the state after the first: the same host memory words (word 3
of `S` included), the same elements in the marks set of every block, marks
sets in the same blocks, and nothing else changed. -/
theorem AddMark_twice (s : State) (src dest S O D : Nat)
    (hO : resolveFather s (s.words (S + 4 * 3)) = some O)
    (hOl : O ≠ 0 → (s.db O).isSome)
    (hN : dest ≠ 0) (hD : resolveFather s dest = some D) (hDD : resolveFather s D = some D) :
    ∃ s1 s2, AddMark s src dest S = some s1 ∧ AddMark s1 src dest S = some s2 ∧
      s2.words = s1.words ∧ s2.words (S + 4 * 3) = D ∧
      (∀ p k, hasMark s2 p k ↔ hasMark s1 p k) ∧
      (∀ p, (marksOf s2 p).isSome = (marksOf s1 p).isSome) ∧
      SameButMarks s1 s2 := by
  -- `D` is a live block
  have hD0 : D ≠ 0 := by
    intro e
    unfold resolveFather at hD
    simp only [hN, if_false] at hD
    cases hd0 : s.db dest with
    | none => simp [hd0] at hD
    | some d0 =>
        simp only [hd0, Option.map_some', Option.some.injEq] at hD
        by_cases hf : d0.father ≠ 0
        · rw [if_pos hf] at hD; exact hf (hD.trans e)
        · rw [if_neg hf] at hD; exact hN (hD.trans e)
  have hDl : (s.db D).isSome := by
    unfold resolveFather at hDD
    simp only [hD0, if_false] at hDD
    cases hd : s.db D with
    | none => simp [hd] at hDD
    | some d => rfl
  obtain ⟨s1, h1, hw1, hm1⟩ := AddMark_marksOf s src dest S O D hO hOl hN hD hDl
  obtain ⟨hf1, hu1⟩ := AddMark_frame s s1 src dest S h1
  have hrf : ∀ p, resolveFather s1 p = resolveFather s p := by
    intro p
    exact resolveFather_congr s { s1 with words := s.words } hf1 p
  have hl1 : ∀ p, (s1.db p).isSome = (s.db p).isSome := by
    intro p
    exact SameButMarks_isSome s { s1 with words := s.words } hf1 p
  have hO2 : resolveFather s1 (s1.words (S + 4 * 3)) = some D := by
    rw [hw1, hrf, hDD]
  have hDl1 : (s1.db D).isSome := by rw [hl1]; exact hDl
  obtain ⟨s2, h2, hw2, hm2⟩ := AddMark_marksOf s1 src dest S D D hO2 (fun _ => hDl1) hN
    (by rw [hrf]; exact hD) hDl1
  obtain ⟨hf2, hu2⟩ := AddMark_frame s1 s2 src dest S h2
  have hwords : s2.words = s1.words := by
    rw [hu2, hw2, ← hw1]
    exact Function.update_eq_self _ _
  have hmem : ∀ p k, hasMark s2 p k ↔ hasMark s1 p k := by
    intro p k
    unfold hasMark
    rw [hm2 p]
    by_cases hp : p = D
    · subst hp
      simp only [if_true]
      have hs1 := hm1 p
      simp only [if_true] at hs1
      cases hmp : marksOf s1 p with
      | none => simp
      | some m1 =>
          -- `S` is in the marks of `D` after the first call
          have hS : S ∈ m1 := by
            rw [hmp] at hs1
            by_cases hpo : p = O
            · simp only [hpo, if_true] at hs1
              cases hmo : marksOf s O with
              | none => simp [hmo] at hs1
              | some m0 =>
                  simp only [hmo, Option.map_some', Option.some.injEq] at hs1
                  rw [hs1]
                  exact (mem_kh_put_mark _ _ _).mpr (Or.inr rfl)
            · simp only [hpo, if_false] at hs1
              cases hmo : marksOf s p with
              | none => simp [hmo] at hs1
              | some m0 =>
                  simp only [hmo, Option.map_some', Option.some.injEq] at hs1
                  rw [hs1]
                  exact (mem_kh_put_mark _ _ _).mpr (Or.inr rfl)
          simp only [Option.map_some', Option.some.injEq, exists_eq_left']
          rw [mem_kh_put_mark, mem_kh_del_mark]
          constructor
          · rintro (⟨h, _⟩ | h)
            · exact h
            · rw [h]; exact hS
          · intro h
            by_cases hk : k = S
            · exact Or.inr hk
            · exact Or.inl ⟨h, hk⟩
    · simp only [hp, if_false]
  have hsome : ∀ p, (marksOf s2 p).isSome = (marksOf s1 p).isSome := by
    intro p
    rw [hm2 p]
    by_cases hp : p = D
    · simp only [hp, if_true]
      cases marksOf s1 D <;> rfl
    · simp only [hp, if_false]
  refine ⟨s1, s2, h1, h2, hwords, hw2, hmem, hsome, ?_⟩
  obtain ⟨a1, a2, _, a4, a5, a6⟩ := hf2
  exact ⟨a1, a2, hwords, a4, a5, a6⟩

/-- C15 at the slot `0x100` of `linkState`, which names block 3, linked to
block 4. -/
theorem AddMark_twice_witness :
    (resolveFather linkState (linkState.words (0x100 + 4 * 3)) = some 3 ∧
      (3 ≠ 0 → (linkState.db 3).isSome) ∧ 4 ≠ 0 ∧ resolveFather linkState 4 = some 4 ∧
      resolveFather linkState 4 = some 4) ∧
    ∃ s1 s2, AddMark linkState 2 4 0x100 = some s1 ∧ AddMark s1 2 4 0x100 = some s2 ∧
      s2.words = s1.words ∧ s2.words (0x100 + 4 * 3) = 4 ∧
      (∀ p k, hasMark s2 p k ↔ hasMark s1 p k) ∧
      (∀ p, (marksOf s2 p).isSome = (marksOf s1 p).isSome) ∧
      SameButMarks s1 s2 :=
  ⟨⟨by decide, fun _ => by decide, by decide, by decide, by decide⟩,
    AddMark_twice linkState 2 4 0x100 3 4 (by decide) (fun _ => by decide) (by decide)
      (by decide) (by decide)⟩

/-! ## Theorems: the write-locked section of AddNewDynablock, threads -/

/-- The call `AddNewDynablock` is the test of the direct array made without lock,
followed by the write-locked section. -/
theorem AddNewDynablock_eq_locked (s : State) (r addr : Nat) :
    AddNewDynablock s r addr =
      match s.list r with
      | none => none
      | some l =>
        match probeDirect l addr with
        | none => none
        | some block0 =>
          if block0 ≠ 0 then some (s, block0, 0) else AddNewDynablock_locked s r addr := by
  unfold AddNewDynablock AddNewDynablock_locked
  cases hl : s.list r with
  | none => rfl
  | some l => rfl

/-- In the hash branch the write-locked section finds a block that is in the
hash already, returns it with `created = 0` and changes nothing. -/
theorem AddNewDynablock_locked_hash_present (s : State) (r addr blk : Nat) (l : dynablocklist_t)
    (hl : s.list r = some l)
    (hbranch : l.direct = none ∨ ¬ (l.text ≤ addr ∧ addr ≤ add32 l.text l.textsz))
    (hg : kh_get l.blocks (sub32 addr l.base) = some blk) :
    AddNewDynablock_locked s r addr = some (s, blk, 0) := by
  unfold AddNewDynablock_locked
  simp only [hl]
  have hh : AddNewDynablock_hash s r l addr = some (s, blk, 0) := by
    unfold AddNewDynablock_hash
    simp [hg]
  cases hd : l.direct with
  | none => exact hh
  | some d =>
      rcases hbranch with h | h
      · rw [hd] at h; cases h
      · simp only [h, if_false]
        exact hh

/-- C17: in the region `[0x1000, 0x1100)` with a direct array, once block 2 is
installed at `0x1040` (`createdState`), the write-locked section of
`AddNewDynablock` at `0x1040` does not look at `direct[0x40]`: it allocates
block 3, stores it over block 2 and returns it with `created = 1`. -/
theorem AddNewDynablock_locked_overwrites :
    probe createdState 1 0x1040 = some 2 ∧
    (AddNewDynablock_locked createdState 1 0x1040).map
      (fun res => (res.2.1, res.2.2, probe res.1 1 0x1040, res.1.brk)) =
      some (3, 1, some 3, 4) := by
  decide

/-- A thread that runs alone makes the steps of
`internalDBGetBlock(emu, addr, 1, NULL)`. -/
theorem runThreads_alone (ext : Extern) (addr : Nat) (s : State) :
    (runThreads ext addr [0, 0, 0, 0] s [Pc.start]).map
        (fun res => (res.1, (res.2.map Pc.result).headD 0)) =
      internalDBGetBlock ext s addr 1 0 := by
  unfold internalDBGetBlock internalDBGetBlock_quick
  simp only [ne_eq, not_true_eq_false, if_false, if_true]
  by_cases hr : ext.GetDynablocksFromAddress addr = 0
  · simp [runThreads, threadStep, hr, Pc.result]
  · simp only [hr, if_false]
    unfold internalDBGetBlock_slow
    cases hp : probe s (ext.GetDynablocksFromAddress addr) addr with
    | none => simp [runThreads, threadStep, hr, hp]
    | some found =>
      by_cases hf : found = 0
      · subst hf
        simp only [ne_eq, not_true_eq_false, if_false, one_ne_zero]
        rw [AddNewDynablock_eq_locked]
        -- the region is live and its direct probe finds nothing
        unfold probe at hp
        cases hl : s.list (ext.GetDynablocksFromAddress addr) with
        | none => simp [hl] at hp
        | some l =>
          simp only [hl] at hp
          cases hpd : probeDirect l addr with
          | none => simp [hpd] at hp
          | some b0 =>
            simp only [hpd] at hp
            by_cases hb0 : b0 = 0
            · subst hb0
              have hp' : probe s (ext.GetDynablocksFromAddress addr) addr = some 0 := by
                unfold probe
                simp only [hl, hpd]
                exact hp
              simp only [ne_eq, not_true_eq_false, if_false]
              cases hlk : AddNewDynablock_locked s (ext.GetDynablocksFromAddress addr) addr with
              | none => simp [runThreads, threadStep, hr, hp', hl, hpd, hlk]
              | some res =>
                obtain ⟨s1, block, created⟩ := res
                by_cases hc : created = 0
                · simp [runThreads, threadStep, hr, hp', hl, hpd, hlk, hc, Pc.result]
                · cases hl1 : s1.list (ext.GetDynablocksFromAddress addr) with
                  | none => simp [runThreads, threadStep, hr, hp', hl, hpd, hlk, hc, hl1]
                  | some l1 =>
                    cases hb : s1.db block with
                    | none => simp [runThreads, threadStep, hr, hp', hl, hpd, hlk, hc, hl1, hb]
                    | some b =>
                      simp [runThreads, threadStep, hr, hp', hl, hpd, hlk, hc, hl1, hb, Pc.result]
            · simp [hb0] at hp
      · simp [runThreads, threadStep, hr, hp, hf, Pc.result]

/-- C16: two threads ask for the address `0x1040`, which has no block, in the
region `[0x1000, 0x1100)` with a direct array.  When both have made the probes
and the test of the direct array without lock before either takes the write
lock, each allocates a block in its write-locked section: the threads return
the different blocks 2 and 3, both with `created = 1`, `FillBlock` runs twice,
and block 3 has taken the place of block 2 in the direct array. -/
theorem runThreads_race :
    (runThreads (simpleExt 1) 0x1040 [0, 1, 0, 1, 0, 1, 0, 1] directRegion
        [Pc.start, Pc.start]).map
      (fun res => (res.2, res.1.trace, probe res.1 1 0x1040)) =
      some ([Pc.done 2 1, Pc.done 3 1],
        [Event.calloc 1, Event.calloc 2, Event.calloc 3, Event.FillBlock 2 0x1040,
          Event.FillBlock 3 0x1040], some 3) := by
  decide

/-- C20: accesses of the direct array outside its allocation.  In the region
`[0x1000, 0x1100)` created without direct array, `MarkDirectDynablock(region,
0x1000, 1)` and `FreeDirectDynablock(region, 0x1000, 1)` read `direct[0]` of
the `NULL` array.  In `sonAtEnd`, whose region has a direct array of `0x100`
slots, `FreeDynablock(block 2)` clears `direct[0x100]` for the son at
`0x1100 = text + textsz`, and so does `FreeDirectDynablock(region, 0x10F0,
0x10)`, which frees block 2.  In every case the pointers followed are live and
the call has no defined result. -/
theorem direct_access_out_of_bounds :
    ((hashRegion.list 1).map (fun l => (l.text, l.textsz, l.direct.isNone)) =
        some (0x1000, 0x100, true) ∧
      (MarkDirectDynablock (simpleExt 1) hashRegion 1 0x1000 1).isNone = true ∧
      (FreeDirectDynablock (simpleExt 1) hashRegion 1 0x1000 1).isNone = true) ∧
    ((sonAtEnd.list 1).map (fun l => (l.text, l.textsz, l.direct.isSome)) =
        some (0x1000, 0x100, true) ∧
      (sonAtEnd.db 2).map (fun b => (b.parent, b.sons)) = some (1, [3]) ∧
      (sonAtEnd.db 3).map (fun b => b.x86_addr) = some 0x1100 ∧
      (FreeDynablock_sons 1 [3] sonAtEnd).isNone = true ∧
      (FreeDynablock (simpleExt 1) sonAtEnd 2 0).isNone = true ∧
      (FreeDirectDynablock (simpleExt 1) sonAtEnd 1 0x10F0 0x10).isNone = true) := by
  decide

/-- Two threads that ask for `0x1040` one after the other, in the region
`[0x1000, 0x1100)` with a direct array: the first creates block 2 and fills
it, the second finds it; `FillBlock` runs once. -/
theorem runThreads_in_turn :
    (runThreads (simpleExt 1) 0x1040 [0, 0, 0, 0, 1, 1, 1, 1] directRegion
        [Pc.start, Pc.start]).map
      (fun res => (res.2, res.1.trace, probe res.1 1 0x1040)) =
      some ([Pc.done 2 1, Pc.done 2 0],
        [Event.calloc 1, Event.calloc 2, Event.FillBlock 2 0x1040], some 2) := by
  decide

/-! ## Theorems: FreeDynablock and the marks of the callees -/

theorem resetMarks_words_at (ext : Extern) (a : Nat) (m : kh_mark_t)
    (h : ∀ k ∈ m, ∀ w, ext.resettable w k a = w a) :
    ∀ s : State, (resetMarks ext s m).words a = s.words a := by
  unfold resetMarks
  induction m with
  | nil => intro s; rfl
  | cons k rest ih =>
      intro s
      simp only [List.foldl_cons]
      rw [ih (fun k1 hk1 => h k1 (List.mem_cons_of_mem _ hk1))]
      exact h k (List.mem_cons_self _ _) s.words

theorem hasMark_setMarks_del (s : State) (c : Nat) (p : dynablock_t) (m : kh_mark_t) (key : Nat)
    (hp : s.db c = some p) (hm : p.marks = some m) (q k : Nat) :
    hasMark (s.setDb c { p with marks := some (kh_del_mark m key) }) q k ↔
      hasMark s q k ∧ ¬ (q = c ∧ k = key) := by
  have hc0 := State.db_ne_zero s c p hp
  unfold hasMark
  rw [marksOf_setDb _ _ _ _ hc0]
  by_cases hq : q = c
  · subst hq
    have hmo : marksOf s q = some m := by simp [marksOf, hp, hm]
    simp only [if_true, hmo, Option.some.injEq, exists_eq_left', true_and]
    rw [mem_kh_del_mark]
  · simp [hq]

/-- The loop of `FreeDynablock` over the outgoing slots completes when the
callees named are live; it changes marks sets only, adds no mark, and withdraws
the address of every slot from the marks of its callee. -/
theorem FreeDynablock_table_spec (table : Nat) :
    ∀ (n i : Nat) (s : State),
      (∀ j, j < n → s.words (table + 4 * (i + 4 * j + 3)) ≠ 0 →
        (s.db (s.words (table + 4 * (i + 4 * j + 3)))).isSome) →
      ∃ s1, FreeDynablock_table table n i s = some s1 ∧ SameButMarks s s1 ∧
        (∀ p k, hasMark s1 p k → hasMark s p k) ∧
        (∀ j, j < n → s.words (table + 4 * (i + 4 * j + 3)) ≠ 0 →
          ¬ hasMark s1 (s.words (table + 4 * (i + 4 * j + 3))) (table + 4 * (i + 4 * j))) := by
  intro n
  induction n with
  | zero =>
      intro i s _
      exact ⟨s, rfl, SameButMarks_refl s, fun _ _ h => h, fun j hj => absurd hj (Nat.not_lt_zero j)⟩
  | succ n ih =>
      intro i s hlive
      -- the step on the state `s2` that follows the first slot
      have key : ∀ s2 : State, SameButMarks s s2 → (∀ p k, hasMark s2 p k → hasMark s p k) →
          (s.words (table + 4 * (i + 3)) ≠ 0 →
            ¬ hasMark s2 (s.words (table + 4 * (i + 3))) (table + 4 * i)) →
          FreeDynablock_table table (n + 1) i s = FreeDynablock_table table n (i + 4) s2 →
          ∃ s1, FreeDynablock_table table (n + 1) i s = some s1 ∧ SameButMarks s s1 ∧
            (∀ p k, hasMark s1 p k → hasMark s p k) ∧
            (∀ j, j < n + 1 → s.words (table + 4 * (i + 4 * j + 3)) ≠ 0 →
              ¬ hasMark s1 (s.words (table + 4 * (i + 4 * j + 3))) (table + 4 * (i + 4 * j))) := by
        intro s2 hsame hsub h0 heq
        have hw : s2.words = s.words := hsame.2.2.1
        have hlive2 : ∀ j, j < n → s2.words (table + 4 * (i + 4 + 4 * j + 3)) ≠ 0 →
            (s2.db (s2.words (table + 4 * (i + 4 + 4 * j + 3)))).isSome := by
          intro j hj hne
          rw [hw] at hne ⊢
          rw [SameButMarks_isSome s s2 hsame]
          have e : i + 4 + 4 * j + 3 = i + 4 * (j + 1) + 3 := by omega
          rw [e] at hne ⊢
          exact hlive (j + 1) (by omega) hne
        obtain ⟨s1, h1, hs1, hsub1, hrem1⟩ := ih (i + 4) s2 hlive2
        refine ⟨s1, heq.trans h1, SameButMarks_trans s s2 s1 hsame hs1,
          fun p k h => hsub p k (hsub1 p k h), ?_⟩
        intro j hj hne
        cases j with
        | zero =>
            simp only [Nat.mul_zero, Nat.add_zero] at hne ⊢
            exact fun h => h0 hne (hsub1 _ _ h)
        | succ j =>
            have e : i + 4 * (j + 1) + 3 = i + 4 + 4 * j + 3 := by omega
            have e2 : i + 4 * (j + 1) = i + 4 + 4 * j := by omega
            rw [e] at hne ⊢
            rw [e2]
            have := hrem1 j (by omega)
            rw [hw] at this
            exact this hne
      by_cases hc : s.words (table + 4 * (i + 3)) = 0
      · refine key s (SameButMarks_refl s) (fun _ _ h => h) (fun h => absurd hc h) ?_
        rw [FreeDynablock_table]
        simp [hc]
      · have hl0 := hlive 0 (by omega)
        simp only [Nat.mul_zero, Nat.add_zero] at hl0
        obtain ⟨p, hp⟩ := Option.isSome_iff_exists.mp (hl0 hc)
        cases hm : p.marks with
        | none =>
            refine key s (SameButMarks_refl s) (fun _ _ h => h) ?_ ?_
            · intro _ h
              obtain ⟨m, hmo, _⟩ := h
              simp [marksOf, hp, hm] at hmo
            · rw [FreeDynablock_table]
              simp [hc, hp, hm]
        | some m =>
            refine key (s.setDb (s.words (table + 4 * (i + 3)))
                { p with marks := some (kh_del_mark m (table + 4 * i)) })
              (SameButMarks_setMarks s _ p _ hp) ?_ ?_ ?_
            · intro q k h
              exact ((hasMark_setMarks_del s _ p m _ hp hm q k).mp h).1
            · intro _ h
              exact ((hasMark_setMarks_del s _ p m _ hp hm _ _).mp h).2 ⟨rfl, rfl⟩
            · rw [FreeDynablock_table]
              simp [hc, hp, hm]

/-- The loop of `FreeDynablock` over the sons completes when the region has a
direct array and every son is live, with a guest address that is not the end
`text + textsz` of the window; it changes the region only. -/
theorem FreeDynablock_sons_total (parent : Nat) (T Z : Nat) :
    ∀ (sons : List Nat) (s : State) (l : dynablocklist_t), s.list parent = some l →
      l.text = T → l.textsz = Z → l.direct.isSome →
      (∀ son ∈ sons, son ≠ 0 → ∃ sn, s.db son = some sn ∧ sn.x86_addr ≠ add32 T Z) →
      ∃ s1, FreeDynablock_sons parent sons s = some s1 ∧ s1.dbs = s.dbs ∧ s1.words = s.words := by
  intro sons
  induction sons with
  | nil =>
      intro s l _ _ _ _ _
      exact ⟨s, rfl, rfl, rfl⟩
  | cons son rest ih =>
      intro s l hl hT hZ hd hsons
      have hrest : ∀ son1 ∈ rest, son1 ≠ 0 →
          ∃ sn, s.db son1 = some sn ∧ sn.x86_addr ≠ add32 T Z :=
        fun son1 h1 => hsons son1 (List.mem_cons_of_mem _ h1)
      by_cases h0 : son = 0
      · obtain ⟨s1, h1, hd1, hw1⟩ := ih s l hl hT hZ hd hrest
        refine ⟨s1, ?_, hd1, hw1⟩
        rw [FreeDynablock_sons]
        simp [h0, h1]
      · obtain ⟨sn, hsn, hne⟩ := hsons son (List.mem_cons_self _ _) h0
        obtain ⟨d, hdd⟩ := Option.isSome_iff_exists.mp hd
        by_cases hin : l.text ≤ sn.x86_addr ∧ sn.x86_addr ≤ add32 l.text l.textsz
        · have hidx : sn.x86_addr - l.text < l.textsz := by
            rw [hT, hZ] at hin ⊢
            have h2 : sn.x86_addr < add32 T Z := lt_of_le_of_ne hin.2 hne
            have h3 : add32 T Z ≤ T + Z := by
              unfold add32
              exact Nat.mod_le _ _
            omega
          obtain ⟨l2, hl2e⟩ : ∃ l2 : dynablocklist_t, l2 =
              { l with direct := some (Function.update d (sn.x86_addr - l.text) 0) } := ⟨_, rfl⟩
          have hr0 := State.list_ne_zero s parent l hl
          have hl2 : (s.setList parent l2).list parent = some l2 := by
            rw [State.list_setList]; simp [hr0]
          have hrest2 : ∀ son1 ∈ rest, son1 ≠ 0 →
              ∃ sn1, (s.setList parent l2).db son1 = some sn1 ∧ sn1.x86_addr ≠ add32 T Z :=
            fun son1 h1 h2 => hrest son1 h1 h2
          obtain ⟨s1, h1, hd1, hw1⟩ := ih (s.setList parent l2) l2 hl2 (by rw [hl2e]; exact hT)
            (by rw [hl2e]; exact hZ) (by rw [hl2e]; rfl) hrest2
          refine ⟨s1, ?_, hd1, hw1⟩
          rw [FreeDynablock_sons]
          simp only [ne_eq, h0, not_false_eq_true, if_true, hsn, hl, hin, and_self, hdd,
            writeDirect, hidx]
          rw [← hl2e]
          exact h1
        · obtain ⟨s1, h1, hd1, hw1⟩ := ih s l hl hT hZ hd hrest
          refine ⟨s1, ?_, hd1, hw1⟩
          rw [FreeDynablock_sons]
          simp only [ne_eq, h0, not_false_eq_true, if_true, hsn, hl, hin, if_false]
          exact h1

/-- Completion of `FreeDynablock`.  `b` is the record of the live block `db`.
Hypotheses: the calls of `resettable` on the marks of `db` leave word 3 of the
slots of `db`'s table as it is; every non-null callee of a slot of the table is
a live block other than `db`, without father; when `db` has sons, its region is
live and, if it has a direct array, every son is live with a guest address
other than the end `text + textsz` of the window.  Then `FreeDynablock(db)`
completes, `db` is freed, and for every slot `j` of the table with a non-null
callee `C`, `C` survives, is father-resolved, and the address of the slot is
not in its marks.  When, moreover, the marks that hold a slot address of the
table before the call are in the callee of that slot, no block has a slot
address of the table in its marks after the call. -/
theorem FreeDynablock_completes (ext : Extern) (s : State) (db nolinker : Nat) (b : dynablock_t)
    (hb : s.db db = some b)
    (hres : ∀ k ∈ b.marks.getD [], ∀ w j,
      ext.resettable w k (b.table + 4 * (4 * j + 3)) = w (b.table + 4 * (4 * j + 3)))
    (hcal : ∀ j, j < (b.tablesz + 3) / 4 → s.words (b.table + 4 * (4 * j + 3)) ≠ 0 →
      s.words (b.table + 4 * (4 * j + 3)) ≠ db ∧
      ∃ c, s.db (s.words (b.table + 4 * (4 * j + 3))) = some c ∧ c.father = 0)
    (hsons : b.sons ≠ [] → ∃ l, s.list b.parent = some l ∧
      (l.direct.isSome → ∀ son ∈ b.sons, son ≠ 0 →
        ∃ sn, s.db son = some sn ∧ sn.x86_addr ≠ add32 l.text l.textsz)) :
    ∃ s1, FreeDynablock ext s db nolinker = some s1 ∧ s1.db db = none ∧
      (∀ j C, j < (b.tablesz + 3) / 4 → C = s.words (b.table + 4 * (4 * j + 3)) → C ≠ 0 →
        (s1.db C).isSome ∧ resolveFather s1 C = some C ∧
        ¬ hasMark s1 C (b.table + 4 * (4 * j))) ∧
      ((∀ X j, j < (b.tablesz + 3) / 4 → hasMark s X (b.table + 4 * (4 * j)) →
          s.words (b.table + 4 * (4 * j + 3)) = X) →
        ∀ X j, j < (b.tablesz + 3) / 4 → ¬ hasMark s1 X (b.table + 4 * (4 * j))) := by
  have hdb0 := State.db_ne_zero s db b hb
  -- the resets
  obtain ⟨sm, hsm⟩ : ∃ sm, sm = FreeDynablock_marks ext s b := ⟨_, rfl⟩
  have hsm_db : ∀ p, sm.db p = s.db p := by
    intro p
    rw [hsm]
    unfold FreeDynablock_marks
    cases b.marks with
    | none => rfl
    | some m => exact resetMarks_db ext m s p
  have hsm_lists : sm.lists = s.lists := by
    rw [hsm]
    unfold FreeDynablock_marks
    cases b.marks with
    | none => rfl
    | some m => exact (resetMarks_fields ext m s).1
  have hsm_w : ∀ j, sm.words (b.table + 4 * (4 * j + 3)) =
      s.words (b.table + 4 * (4 * j + 3)) := by
    intro j
    rw [hsm]
    unfold FreeDynablock_marks
    cases hm : b.marks with
    | none => rfl
    | some m =>
        refine resetMarks_words_at ext _ m (fun k hk w => ?_) s
        exact hres k (by rw [hm]; exact hk) w j
  have hsm_mark : ∀ p k, hasMark sm p k ↔ hasMark s p k := by
    intro p k
    unfold hasMark marksOf
    rw [hsm_db]
  -- the loop over the slots
  have hlive : ∀ j, j < (b.tablesz + 3) / 4 → sm.words (b.table + 4 * (4 * j + 3)) ≠ 0 →
      (sm.db (sm.words (b.table + 4 * (4 * j + 3)))).isSome := by
    intro j hj hne
    rw [hsm_w] at hne ⊢
    rw [hsm_db]
    obtain ⟨_, c, hc, _⟩ := hcal j hj hne
    rw [hc]
    rfl
  obtain ⟨s2, h2, hsame2, hsub2, hrem2⟩ :=
    FreeDynablock_table_spec b.table ((b.tablesz + 3) / 4) 0 sm
      (by simpa only [Nat.zero_add] using hlive)
  simp only [Nat.zero_add] at hrem2
  have hs2_db : ∀ p, (s2.db p).isSome = (s.db p).isSome := by
    intro p
    rw [SameButMarks_isSome sm s2 hsame2, hsm_db]
  have hs2_lists : s2.lists = s.lists := hsame2.1.trans hsm_lists
  -- the sons
  obtain ⟨s3, h3, hs3d, _⟩ : ∃ s3, FreeDynablock_purge s2 b = some s3 ∧ s3.dbs = s2.dbs ∧
      s3.words = s2.words := by
    unfold FreeDynablock_purge
    by_cases hs : b.sons = []
    · simp [hs]
    · obtain ⟨l, hl, hson⟩ := hsons hs
      have hl2 : s2.list b.parent = some l := by
        rw [State.list_congr s s2 hs2_lists]
        exact hl
      have hlen : b.sons.length ≠ 0 := by
        intro e
        exact hs (List.length_eq_zero.mp e)
      simp only [ne_eq, hlen, not_false_eq_true, if_true, hl2]
      by_cases hd : l.direct.isSome
      · simp only [hd, if_true]
        refine FreeDynablock_sons_total b.parent l.text l.textsz b.sons s2 l hl2 rfl rfl hd ?_
        intro son hmem h0
        obtain ⟨sn, hsn, hne⟩ := hson hd son hmem h0
        have hf := SameButMarks_father sm s2 hsame2 son
        have h6 := hsame2.2.2.2.2.2 son
        rw [hsm_db, hsn] at h6
        cases hs2 : s2.db son with
        | none => rw [hs2] at h6; simp at h6
        | some sn2 =>
            rw [hs2] at h6
            simp only [Option.map_some', Option.some.injEq] at h6
            have e := congrArg dynablock_t.x86_addr h6
            simp only at e
            exact ⟨sn2, rfl, by rw [e]; exact hne⟩
      · simp [hd]
  have hs3_db : ∀ p, s3.db p = s2.db p := by
    intro p
    simp [State.db, hs3d]
  -- the result
  obtain ⟨s1, hs1⟩ : ∃ s1 : State, s1 =
      { ((s3.log (Event.FreeDynarecMap b.block b.size)).log (Event.free b.table)) with
        dbs := Function.update
          ((s3.log (Event.FreeDynarecMap b.block b.size)).log (Event.free b.table)).dbs db
          none }.log (Event.free db) := ⟨_, rfl⟩
  have hfree : FreeDynablock ext s db nolinker = some s1 := by
    unfold FreeDynablock
    simp only [hdb0, if_false, hb]
    rw [← hsm, h2]
    simp only [h3]
    rw [hs1]
  have hs1_db : ∀ p, s1.db p = if p = db then none else s2.db p := by
    intro p
    rw [← hs3_db, hs1]
    unfold State.db State.log
    by_cases hp0 : p = 0
    · simp [hp0]
    · by_cases hp : p = db
      · subst hp
        simp [hp0]
      · simp [hp0, hp, Function.update]
  have hs1_mark : ∀ p k, hasMark s1 p k → hasMark s p k := by
    intro p k h
    apply (hsm_mark p k).mp
    apply hsub2
    unfold hasMark marksOf at h ⊢
    rw [hs1_db] at h
    by_cases hp : p = db
    · obtain ⟨m, hm, _⟩ := h
      simp [hp] at hm
    · simpa [hp] using h
  have hpart : ∀ j C, j < (b.tablesz + 3) / 4 → C = s.words (b.table + 4 * (4 * j + 3)) →
      C ≠ 0 → (s1.db C).isSome ∧ resolveFather s1 C = some C ∧
        ¬ hasMark s1 C (b.table + 4 * (4 * j)) := by
    intro j C hj hC hC0
    rw [hC] at hC0
    obtain ⟨hne, c, hc, hcf⟩ := hcal j hj hC0
    rw [← hC] at hne hc hC0
    have hlive1 : (s1.db C).isSome := by
      rw [hs1_db]
      simp only [hne, if_false]
      rw [hs2_db, hc]
      rfl
    refine ⟨hlive1, ?_, ?_⟩
    · unfold resolveFather
      simp only [hC0, if_false]
      obtain ⟨c1, hc1⟩ := Option.isSome_iff_exists.mp hlive1
      have hf := SameButMarks_father sm s2 hsame2 C
      rw [hsm_db, hc] at hf
      rw [hs1_db] at hc1
      simp only [hne, if_false] at hc1
      rw [hc1] at hf
      simp only [Option.map_some', Option.some.injEq] at hf
      rw [hs1_db]
      simp only [hne, if_false, hc1, Option.map_some', Option.some.injEq]
      rw [hf, hcf]
      simp
    · intro h
      have h2' : hasMark s2 C (b.table + 4 * (4 * j)) := by
        unfold hasMark marksOf at h ⊢
        rw [hs1_db] at h
        simpa [hne] using h
      have hr := hrem2 j hj
      rw [hsm_w, ← hC] at hr
      exact hr hC0 h2'
  refine ⟨s1, hfree, ?_, hpart, ?_⟩
  · rw [hs1_db]
    simp
  · intro hback X j hj h
    have hX := hback X j hj (hs1_mark X _ h)
    have hX0 : X ≠ 0 := by
      intro e
      obtain ⟨m, hm, _⟩ := h
      simp [marksOf, State.db, e] at hm
    exact (hpart j X hj hX.symm hX0).2.2 h

/-- Completion of `FreeDynablock` at block 2 of `linkState`: its table, at
`0x100`, has one slot, which names block 3, and block 3 has the address of the
slot in its marks. -/
theorem FreeDynablock_completes_link :
    (linkState.db 2 = some linkBlock2 ∧
      linkState.words (0x100 + 4 * (4 * 0 + 3)) = 3 ∧ hasMark linkState 3 0x100) ∧
    ∃ s1, FreeDynablock (simpleExt 1) linkState 2 1 = some s1 ∧ s1.db 2 = none ∧
      (∀ j C, j < (4 + 3) / 4 → C = linkState.words (0x100 + 4 * (4 * j + 3)) → C ≠ 0 →
        (s1.db C).isSome ∧ resolveFather s1 C = some C ∧
        ¬ hasMark s1 C (0x100 + 4 * (4 * j))) ∧
      ((∀ X j, j < (4 + 3) / 4 → hasMark linkState X (0x100 + 4 * (4 * j)) →
          linkState.words (0x100 + 4 * (4 * j + 3)) = X) →
        ∀ X j, j < (4 + 3) / 4 → ¬ hasMark s1 X (0x100 + 4 * (4 * j))) :=
  ⟨⟨rfl, rfl, ⟨[0x100], rfl, List.mem_singleton.mpr rfl⟩⟩,
    FreeDynablock_completes (simpleExt 1) linkState 2 1 linkBlock2 rfl
      (fun k hk => absurd hk (List.not_mem_nil k))
      (fun j hj _ => by
        have e : j = 0 := Nat.lt_one_iff.mp hj
        subst e
        exact ⟨by decide, linkBlock3, rfl, rfl⟩)
      (fun h => absurd rfl h)⟩

/-! ## Theorems: the invariant of the directory -/

theorem snd_nodup_key (es : kh_dynablocks_t) (hn : (es.map Prod.snd).Nodup) (k1 k2 p : Nat)
    (h1 : (k1, p) ∈ es) (h2 : (k2, p) ∈ es) : k1 = k2 := by
  induction es with
  | nil => simp at h1
  | cons e rest ih =>
      obtain ⟨k, v⟩ := e
      simp only [List.map_cons, List.nodup_cons, List.mem_map, Prod.exists, exists_eq_right,
        not_exists] at hn
      rcases List.mem_cons.mp h1 with e1 | e1 <;> rcases List.mem_cons.mp h2 with e2 | e2
      · simp only [Prod.mk.injEq] at e1 e2
        rw [e1.1, e2.1]
      · simp only [Prod.mk.injEq] at e1
        exact absurd (e1.2 ▸ e2) (hn.1 k2)
      · simp only [Prod.mk.injEq] at e2
        exact absurd (e2.2 ▸ e1) (hn.1 k1)
      · exact ih hn.2 e1 e2

/-- What the transfer loop of `ConvertHash2Direct` builds: a slot of the new
array is as it was, or holds the value of an entry whose key is in the range
and is the index of the slot; the new hash is the old one followed by entries
of the table, each taken once, whose keys are out of the range. -/
theorem ConvertHash2Direct_transfer_held (textsz start end1 : Nat) :
    ∀ (es : kh_dynablocks_t) (d0 : Nat → Nat) (b0 : kh_dynablocks_t) (d1 : Nat → Nat)
      (b1 : kh_dynablocks_t),
      ConvertHash2Direct_transfer textsz start end1 es d0 b0 = some (d1, b1) →
      (∀ i, d1 i = d0 i ∨
        ∃ k, (k, d1 i) ∈ es ∧ start ≤ k ∧ k < end1 ∧ k - start = i ∧ i < textsz) ∧
      ∃ sub, List.Sublist sub es ∧ b1 = b0 ++ sub ∧
        ∀ e ∈ sub, ¬ (start ≤ e.1 ∧ e.1 < end1)
  | [], d0, b0, d1, b1, h => by
      simp only [ConvertHash2Direct_transfer, Option.some.injEq, Prod.mk.injEq] at h
      rw [← h.1, ← h.2]
      exact ⟨fun _ => Or.inl rfl, [], List.Sublist.refl _, by simp, by simp⟩
  | (key, db) :: rest, d0, b0, d1, b1, h => by
      simp only [ConvertHash2Direct_transfer] at h
      by_cases hr : start ≤ key ∧ key < end1
      · simp only [hr, and_self, if_true] at h
        unfold writeDirect at h
        by_cases hlt : key - start < textsz
        · simp only [hlt, if_true] at h
          obtain ⟨hA, sub, hs, hb, hout⟩ :=
            ConvertHash2Direct_transfer_held textsz start end1 rest _ b0 d1 b1 h
          refine ⟨fun i => ?_, sub, List.Sublist.cons _ hs, hb, hout⟩
          rcases hA i with h1 | ⟨k, hk, h2, h3, h4, h5⟩
          · by_cases hi : i = key - start
            · right
              refine ⟨key, ?_, hr.1, hr.2, hi.symm, hi ▸ hlt⟩
              rw [h1, hi, Function.update_same]
              exact List.mem_cons_self _ _
            · left
              rw [h1, Function.update_noteq hi]
          · exact Or.inr ⟨k, List.mem_cons_of_mem _ hk, h2, h3, h4, h5⟩
        · simp [hlt] at h
      · simp only [hr, if_false] at h
        cases hg : kh_get b0 key with
        | some w =>
            simp only [hg] at h
            obtain ⟨hA, sub, hs, hb, hout⟩ :=
              ConvertHash2Direct_transfer_held textsz start end1 rest d0 b0 d1 b1 h
            refine ⟨fun i => ?_, sub, List.Sublist.cons _ hs, hb, hout⟩
            rcases hA i with h1 | ⟨k, hk, h2, h3, h4, h5⟩
            · exact Or.inl h1
            · exact Or.inr ⟨k, List.mem_cons_of_mem _ hk, h2, h3, h4, h5⟩
        | none =>
            simp only [hg] at h
            obtain ⟨hA, sub, hs, hb, hout⟩ :=
              ConvertHash2Direct_transfer_held textsz start end1 rest d0
                (kh_put_value b0 key db) d1 b1 h
            refine ⟨fun i => ?_, (key, db) :: sub, List.Sublist.cons₂ _ hs, ?_, ?_⟩
            · rcases hA i with h1 | ⟨k, hk, h2, h3, h4, h5⟩
              · exact Or.inl h1
              · exact Or.inr ⟨k, List.mem_cons_of_mem _ hk, h2, h3, h4, h5⟩
            · rw [hb]
              simp [kh_put_value]
            · intro e he
              rcases List.mem_cons.mp he with e1 | e1
              · rw [e1]
                exact hr
              · exact hout e e1

/-- The transfer loop of `ConvertHash2Direct` completes when every key of the
range has its index in the array. -/
theorem ConvertHash2Direct_transfer_total (textsz start end1 : Nat)
    (hidx : ∀ k, start ≤ k → k < end1 → k - start < textsz) :
    ∀ (es : kh_dynablocks_t) (d0 : Nat → Nat) (b0 : kh_dynablocks_t),
      ∃ res, ConvertHash2Direct_transfer textsz start end1 es d0 b0 = some res
  | [], d0, b0 => ⟨(d0, b0), rfl⟩
  | (key, db) :: rest, d0, b0 => by
      simp only [ConvertHash2Direct_transfer]
      by_cases hr : start ≤ key ∧ key < end1
      · simp only [hr, and_self, if_true, writeDirect, hidx key hr.1 hr.2]
        exact ConvertHash2Direct_transfer_total textsz start end1 hidx rest _ b0
      · simp only [hr, if_false]
        cases kh_get b0 key with
        | some w => exact ConvertHash2Direct_transfer_total textsz start end1 hidx rest d0 b0
        | none => exact ConvertHash2Direct_transfer_total textsz start end1 hidx rest d0 _

/-- The tables the transfer loop builds from a hash in which each block is
held once hold each block once, and hold blocks of that hash only. -/
theorem HeldOnce_transfer (l : dynablocklist_t) (start end1 : Nat) (d1 : Nat → Nat)
    (b1 : kh_dynablocks_t) (hn : (l.blocks.map Prod.snd).Nodup)
    (h : ConvertHash2Direct_transfer l.textsz start end1 l.blocks (fun _ => 0) [] =
      some (d1, b1)) :
    HeldOnce { l with blocks := b1, direct := some d1 } ∧
    ∀ p, Holds { l with blocks := b1, direct := some d1 } p → p ∈ l.blocks.map Prod.snd := by
  obtain ⟨hA, sub, hs, hb, hout⟩ :=
    ConvertHash2Direct_transfer_held l.textsz start end1 l.blocks _ _ d1 b1 h
  simp only [List.nil_append] at hb
  subst hb
  have hslot : ∀ i, d1 i ≠ 0 →
      ∃ k, (k, d1 i) ∈ l.blocks ∧ start ≤ k ∧ k < end1 ∧ k - start = i := by
    intro i hi
    rcases hA i with h1 | ⟨k, hk, h2, h3, h4, _⟩
    · exact absurd h1 hi
    · exact ⟨k, hk, h2, h3, h4⟩
  refine ⟨⟨?_, ?_⟩, ?_⟩
  · exact List.Nodup.sublist (List.Sublist.map _ hs) hn
  · intro d hd
    simp only [Option.some.injEq] at hd
    subst hd
    refine ⟨?_, ?_⟩
    · intro i j _ _ hi hij
      obtain ⟨ki, hki, _, _, ei⟩ := hslot i hi
      obtain ⟨kj, hkj, _, _, ej⟩ := hslot j (hij ▸ hi)
      rw [hij] at hki
      have := snd_nodup_key l.blocks hn ki kj _ hki hkj
      rw [← ei, ← ej, this]
    · intro i _ hi hmem
      obtain ⟨ki, hki, h2, h3, _⟩ := hslot i hi
      simp only [List.mem_map, Prod.exists, exists_eq_right] at hmem
      obtain ⟨k, hk⟩ := hmem
      have hkl := hs.subset hk
      have := snd_nodup_key l.blocks hn ki k _ hki hkl
      exact hout _ hk (this ▸ ⟨h2, h3⟩)
  · intro p hp
    obtain ⟨hp0, hp1⟩ := hp
    rcases hp1 with ⟨d, i, hd, _, hdi⟩ | hmem
    · simp only [Option.some.injEq] at hd
      subst hd
      obtain ⟨k, hk, _⟩ := hslot i (hdi ▸ hp0)
      rw [hdi] at hk
      exact List.mem_map.mpr ⟨(k, p), hk, rfl⟩
    · exact (List.Sublist.map _ hs).subset hmem

theorem Owned_of_db (s s1 : State) (r : Nat) (l : dynablocklist_t) (hb : s.brk ≤ s1.brk)
    (hd : ∀ p, p < s.brk → s1.db p = s.db p) (h : Owned s r l) : Owned s1 r l := by
  intro p hp
  obtain ⟨h1, b, h2, h3⟩ := h p hp
  exact ⟨by omega, b, by rw [hd p h1]; exact h2, h3⟩

/-- The call `ConvertHash2Direct` completes on a live region and preserves the
invariant of the directory. -/
theorem ConvertHash2Direct_inv (s : State) (r : Nat) (hinv : DirectoryInv s)
    (hr : (s.list r).isSome) :
    ∃ s1, ConvertHash2Direct s r = some s1 ∧ DirectoryInv s1 ∧ s1.dbs = s.dbs ∧
      s1.brk = s.brk := by
  obtain ⟨l, hl⟩ := Option.isSome_iff_exists.mp hr
  have hr0 := State.list_ne_zero s r l hl
  obtain ⟨_, _, ⟨hn, _⟩, hown⟩ := hinv r l hl
  unfold ConvertHash2Direct
  simp only [hl]
  by_cases hz : l.textsz = 0 ∨ l.text = 0
  · simp only [hz, if_true]
    exact ⟨s, rfl, hinv, rfl, rfl⟩
  · simp only [hz, if_false]
    obtain ⟨⟨d1, b1⟩, htr⟩ := ConvertHash2Direct_transfer_total l.textsz (sub32 l.text l.base)
      (sub32 (add32 l.text l.textsz) l.base) (fun k h1 h2 => window_index_lt _ _ _ k h1 h2)
      l.blocks (fun _ => 0) []
    simp only [htr]
    refine ⟨_, rfl, ?_, rfl, rfl⟩
    obtain ⟨hho, hsub⟩ := HeldOnce_transfer l _ _ d1 b1 hn htr
    intro r' l' hl'
    rw [State.list_setList] at hl'
    by_cases hrr : r' = r
    · subst hrr
      simp only [hr0, if_false, if_true, Option.some.injEq] at hl'
      subst hl'
      obtain ⟨t1, t2, _, _⟩ := hinv r' l hl
      refine ⟨t1, t2, hho, ?_⟩
      intro p hp
      have hp0 := hp.1
      exact hown p ⟨hp0, Or.inr (hsub p hp)⟩
    · have hr'0 : r' ≠ 0 := by
        intro e
        simp [e] at hl'
      simp only [hr'0, hrr, if_false] at hl'
      obtain ⟨t1, t2, t3, t4⟩ := hinv r' l' hl'
      exact ⟨t1, t2, t3, t4⟩

theorem setParent_spec (s s1 : State) (blk r : Nat) (b : dynablock_t)
    (hb : s.dbs blk = some b) (h : setParent s blk r = some s1) :
    blk ≠ 0 ∧ s1 = s.setDb blk { b with parent := r } := by
  unfold setParent at h
  by_cases h0 : blk = 0
  · simp [State.db, h0] at h
  · simp only [State.db, h0, if_false, hb, Option.some.injEq] at h
    exact ⟨h0, h.symm⟩

/-- The invariant of the directory after the allocation of a block for the
region `r`, whose record becomes `l1`: it holds when `l1` holds each block
once, and holds the new block and blocks of the former record only. -/
theorem DirectoryInv_alloc (s s1 : State) (r : Nat) (l l1 : dynablocklist_t) (b : dynablock_t)
    (hinv : DirectoryInv s) (hl : s.list r = some l) (hbrk : s.brk ≠ 0)
    (hlists : ∀ q, s1.list q = if q = 0 then none else if q = r then some l1 else s.list q)
    (hdb : ∀ p, s1.db p = if p = 0 then none else if p = s.brk then some b else s.db p)
    (hb1 : s1.brk = s.brk + 1) (hpar : b.parent = r)
    (ht : l1.text = l.text) (hz : l1.textsz = l.textsz) (hho : HeldOnce l1)
    (hheld : ∀ p, Holds l1 p → p = s.brk ∨ Holds l p) : DirectoryInv s1 := by
  have hold : ∀ p, p < s.brk → s1.db p = s.db p := by
    intro p hp
    rw [hdb]
    by_cases hp0 : p = 0
    · simp [hp0, State.db]
    · have : p ≠ s.brk := by omega
      simp [hp0, this]
  intro r' l' hl'
  rw [hlists] at hl'
  by_cases hr'0 : r' = 0
  · simp [hr'0] at hl'
  · by_cases hrr : r' = r
    · subst hrr
      simp only [hr'0, if_false, if_true, Option.some.injEq] at hl'
      subst hl'
      obtain ⟨t1, t2, _, hown⟩ := hinv r' l hl
      refine ⟨by rw [ht]; exact t1, by rw [hz]; exact t2, hho, ?_⟩
      intro p hp
      rcases hheld p hp with e | hp'
      · refine ⟨by omega, b, ?_, hpar⟩
        rw [hdb, e]
        simp [hbrk]
      · obtain ⟨h1, b0, h2, h3⟩ := hown p hp'
        exact ⟨by omega, b0, by rw [hold p h1]; exact h2, h3⟩
    · simp only [hr'0, hrr, if_false] at hl'
      obtain ⟨t1, t2, t3, t4⟩ := hinv r' l' hl'
      exact ⟨t1, t2, t3, Owned_of_db s s1 r' l' (by omega) hold t4⟩

/-- The hash branch of `AddNewDynablock` preserves the invariant of the
directory. -/
theorem AddNewDynablock_hash_inv (s s1 : State) (r addr blk c : Nat) (l : dynablocklist_t)
    (hinv : DirectoryInv s) (hl : s.list r = some l)
    (h : AddNewDynablock_hash s r l addr = some (s1, blk, c)) : DirectoryInv s1 := by
  have hr0 := State.list_ne_zero s r l hl
  obtain ⟨_, _, ⟨hn, hdir⟩, hown⟩ := hinv r l hl
  unfold AddNewDynablock_hash at h
  cases hg : kh_get l.blocks (sub32 addr l.base) with
  | some b0 =>
      simp only [hg, Option.some.injEq, Prod.mk.injEq] at h
      rw [← h.1]
      exact hinv
  | none =>
      simp only [hg, callocBlock, kh_put_value] at h
      -- the record with the new entry
      obtain ⟨l2, hl2⟩ : ∃ l2 : dynablocklist_t, l2 =
          { l with blocks := l.blocks ++ [(sub32 addr l.base, s.brk)] } := ⟨_, rfl⟩
      rw [← hl2] at h
      obtain ⟨s2, hs2⟩ : ∃ s2 : State, s2 =
          (({ s with brk := s.brk + 1 }.setDb s.brk {}).log (Event.calloc s.brk)).setList r l2 :=
        ⟨_, rfl⟩
      rw [← hs2] at h
      have hs2l : s2.list r = some l2 := by
        rw [hs2, State.list_setList]; simp [hr0]
      have hfresh : s.brk ∉ l.blocks.map Prod.snd := by
        intro hm
        by_cases hb0 : s.brk = 0
        · -- the parent of the new block cannot be set at address 0
          cases hcv : (if l.direct.isNone = true ∧ kh_size l2.blocks = MAGIC_SIZE then
              ConvertHash2Direct s2 r else some s2) with
          | none =>
              rw [hl2] at hcv
              simp [hcv] at h
          | some s3 =>
              rw [hl2] at hcv
              simp only [hcv] at h
              simp [setParent, State.db, hb0] at h
        · have := (hown s.brk ⟨hb0, Or.inr hm⟩).1
          omega
      have hn2 : (l2.blocks.map Prod.snd).Nodup := by
        rw [hl2]
        simp only [List.map_append, List.map_cons, List.map_nil]
        exact List.Nodup.append hn (List.nodup_singleton _)
          (by simpa [List.disjoint_singleton] using hfresh)
      have hheld2 : ∀ p, Holds l2 p → p = s.brk ∨ Holds l p := by
        intro p hp
        obtain ⟨hp0, hp1⟩ := hp
        rcases hp1 with ⟨d, i, hd, hi, hdi⟩ | hm
        · right
          rw [hl2] at hd hi
          exact ⟨hp0, Or.inl ⟨d, i, hd, hi, hdi⟩⟩
        · rw [hl2] at hm
          simp only [List.map_append, List.map_cons, List.map_nil, List.mem_append,
            List.mem_singleton] at hm
          rcases hm with hm | hm
          · exact Or.inr ⟨hp0, Or.inr hm⟩
          · exact Or.inl hm
      have hho2 : HeldOnce l2 := by
        refine ⟨hn2, ?_⟩
        intro d hd
        rw [hl2] at hd
        obtain ⟨hinj, hdis⟩ := hdir d hd
        refine ⟨by rw [hl2]; exact hinj, ?_⟩
        intro i hi hne hm
        rw [hl2] at hi hm
        simp only [List.map_append, List.map_cons, List.map_nil, List.mem_append,
          List.mem_singleton] at hm
        rcases hm with hm | hm
        · exact hdis i hi hne hm
        · have := (hown (d i) ⟨hne, Or.inl ⟨d, i, hd, hi, rfl⟩⟩).1
          omega
      -- the state and the record after the conversion, when it is made
      obtain ⟨s3, l3, hcv, hs3l, hs3d, hs3b, hho3, hheld3, ht3, hz3⟩ : ∃ s3 l3,
          (if l.direct.isNone = true ∧ kh_size l2.blocks = MAGIC_SIZE then
            ConvertHash2Direct s2 r else some s2) = some s3 ∧
          (∀ q, s3.list q = if q = 0 then none else if q = r then some l3 else s.list q) ∧
          s3.dbs = Function.update s.dbs s.brk (some {}) ∧ s3.brk = s.brk + 1 ∧
          HeldOnce l3 ∧ (∀ p, Holds l3 p → p = s.brk ∨ Holds l p) ∧
          l3.text = l.text ∧ l3.textsz = l.textsz := by
        have hs2lists : ∀ q, s2.list q =
            if q = 0 then none else if q = r then some l2 else s.list q := by
          intro q
          rw [hs2, State.list_setList]
          rfl
        have hs2d : s2.dbs = Function.update s.dbs s.brk (some {}) := by rw [hs2]; rfl
        have hs2b : s2.brk = s.brk + 1 := by rw [hs2]; rfl
        have ht2 : l2.text = l.text := by rw [hl2]
        have hz2 : l2.textsz = l.textsz := by rw [hl2]
        by_cases hc : l.direct.isNone = true ∧ kh_size l2.blocks = MAGIC_SIZE
        · simp only [hc, and_self, if_true]
          unfold ConvertHash2Direct
          simp only [hs2l]
          by_cases hzz : l2.textsz = 0 ∨ l2.text = 0
          · simp only [hzz, if_true]
            exact ⟨s2, l2, rfl, hs2lists, hs2d, hs2b, hho2, hheld2, ht2, hz2⟩
          · simp only [hzz, if_false]
            obtain ⟨⟨d1, b1⟩, htr⟩ := ConvertHash2Direct_transfer_total l2.textsz
              (sub32 l2.text l2.base) (sub32 (add32 l2.text l2.textsz) l2.base)
              (fun k h1 h2 => window_index_lt _ _ _ k h1 h2) l2.blocks (fun _ => 0) []
            simp only [htr]
            obtain ⟨hho, hsub⟩ := HeldOnce_transfer l2 _ _ d1 b1 hn2 htr
            refine ⟨_, { l2 with blocks := b1, direct := some d1 }, rfl, ?_, hs2d, hs2b, hho,
              ?_, ht2, hz2⟩
            · intro q
              rw [State.list_setList, hs2lists]
              by_cases hq0 : q = 0
              · simp [hq0]
              · by_cases hq : q = r
                · simp [hq0, hq]
                · simp [hq0, hq]
            · intro p hp
              exact hheld2 p ⟨hp.1, Or.inr (hsub p hp)⟩
        · simp only [hc, if_false]
          exact ⟨s2, l2, rfl, hs2lists, hs2d, hs2b, hho2, hheld2, ht2, hz2⟩
      rw [hl2] at hcv
      simp only [hcv] at h
      cases hsp : setParent s3 s.brk r with
      | none => simp [hsp] at h
      | some s4 =>
          simp only [hsp, Option.some.injEq, Prod.mk.injEq] at h
          have hb3 : s3.dbs s.brk = some {} := by rw [hs3d]; simp
          obtain ⟨hbrk, hs4⟩ := setParent_spec s3 s4 s.brk r {} hb3 hsp
          rw [← h.1]
          refine DirectoryInv_alloc s s4 r l l3 { ({} : dynablock_t) with parent := r } hinv hl
            hbrk ?_ ?_ ?_ rfl ht3 hz3 hho3 hheld3
          · intro q
            rw [hs4]
            exact hs3l q
          · intro p
            rw [hs4, State.db_setDb]
            by_cases hp0 : p = 0
            · simp [hp0]
            · by_cases hp : p = s.brk
              · simp [hp0, hp]
              · simp [hp0, hp, State.db, hs3d, Function.update]
          · rw [hs4]
            exact hs3b

/-- A call of `AddNewDynablock` that completes preserves the invariant of the
directory. -/
theorem AddNewDynablock_inv (s s1 : State) (r addr blk c : Nat) (hinv : DirectoryInv s)
    (h : AddNewDynablock s r addr = some (s1, blk, c)) : DirectoryInv s1 := by
  unfold AddNewDynablock at h
  cases hl : s.list r with
  | none => simp [hl] at h
  | some l =>
    simp only [hl] at h
    have hr0 := State.list_ne_zero s r l hl
    obtain ⟨hT, hZ, ⟨hn, hdir⟩, hown⟩ := hinv r l hl
    cases hpd : probeDirect l addr with
    | none => simp [hpd] at h
    | some b0 =>
      simp only [hpd] at h
      by_cases hb0 : b0 = 0
      · subst hb0
        simp only [ne_eq, not_true_eq_false, if_false] at h
        cases hd : l.direct with
        | none =>
            simp only [hd] at h
            exact AddNewDynablock_hash_inv s s1 r addr blk c l hinv hl h
        | some d =>
            simp only [hd] at h
            by_cases hin : l.text ≤ addr ∧ addr ≤ add32 l.text l.textsz
            · simp only [hin, and_self, if_true, callocBlock] at h
              unfold writeDirect at h
              by_cases hlt : addr - l.text < l.textsz
              · simp only [hlt, if_true] at h
                obtain ⟨l1, hl1⟩ : ∃ l1 : dynablocklist_t, l1 =
                    { l with direct := some (Function.update d (addr - l.text) s.brk) } :=
                  ⟨_, rfl⟩
                rw [← hl1] at h
                cases hsp : setParent
                    ((({ s with brk := s.brk + 1 }.setDb s.brk {}).log
                      (Event.calloc s.brk)).setList r l1) s.brk r with
                | none => simp [hsp] at h
                | some s2 =>
                  simp only [hsp, Option.some.injEq, Prod.mk.injEq] at h
                  obtain ⟨hbrk, hs2⟩ := setParent_spec _ s2 s.brk r {}
                    (by simp [State.setList, State.log, State.setDb]) hsp
                  rw [← h.1]
                  -- the slot was empty
                  have hslot : d (addr - l.text) = 0 := by
                    have hw : inWindow l addr = true := by
                      rw [inWindow_iff]
                      refine ⟨hin.1, ?_⟩
                      have h1 := hin.1
                      have h2 := hin.2
                      unfold add32 at h2 ⊢
                      unfold W32 at hT hZ h2 ⊢
                      omega
                    unfold probeDirect at hpd
                    simp only [hd, hw, if_true, readDirect, hlt, Option.some.injEq] at hpd
                    exact hpd
                  obtain ⟨hinj, hdis⟩ := hdir d hd
                  have hfresh : ∀ p, Holds l p → p ≠ s.brk := by
                    intro p hp e
                    have := (hown p hp).1
                    omega
                  refine DirectoryInv_alloc s s2 r l l1 { ({} : dynablock_t) with parent := r }
                    hinv hl hbrk ?_ ?_ ?_ rfl (by rw [hl1]) (by rw [hl1]) ?_ ?_
                  · intro q
                    rw [hs2]
                    show (State.setList _ r l1).list q = _
                    rw [State.list_setList]
                    rfl
                  · intro p
                    rw [hs2, State.db_setDb]
                    by_cases hp0 : p = 0
                    · simp [hp0]
                    · by_cases hp : p = s.brk
                      · simp [hp0, hp]
                      · simp [hp0, hp, State.db, State.setList, State.log, State.setDb,
                          Function.update]
                  · rw [hs2]
                    rfl
                  · -- each block is held once
                    refine ⟨by rw [hl1]; exact hn, ?_⟩
                    intro d1 hd1
                    rw [hl1] at hd1
                    simp only [Option.some.injEq] at hd1
                    subst hd1
                    have hz1 : l1.textsz = l.textsz := by rw [hl1]
                    have hb1 : l1.blocks = l.blocks := by rw [hl1]
                    rw [hz1, hb1]
                    refine ⟨?_, ?_⟩
                    · intro i j hi hj hne hij
                      by_cases e1 : i = addr - l.text
                      · by_cases e2 : j = addr - l.text
                        · rw [e1, e2]
                        · rw [e1, Function.update_same, Function.update_noteq e2] at hij
                          exact absurd hij.symm
                            (hfresh (d j) ⟨hij ▸ hbrk, Or.inl ⟨d, j, hd, hj, rfl⟩⟩)
                      · rw [Function.update_noteq e1] at hne hij
                        by_cases e2 : j = addr - l.text
                        · rw [e2, Function.update_same] at hij
                          exact absurd hij (hfresh (d i) ⟨hne, Or.inl ⟨d, i, hd, hi, rfl⟩⟩)
                        · rw [Function.update_noteq e2] at hij
                          exact hinj i j hi hj hne hij
                    · intro i hi hne hm
                      by_cases e1 : i = addr - l.text
                      · rw [e1, Function.update_same] at hm
                        exact hfresh s.brk ⟨hbrk, Or.inr hm⟩ rfl
                      · rw [Function.update_noteq e1] at hne hm
                        exact hdis i hi hne hm
                  · intro p hp
                    obtain ⟨hp0, hp1⟩ := hp
                    rcases hp1 with ⟨d1, i, hd1, hi, hdi⟩ | hm
                    · rw [hl1] at hd1 hi
                      simp only [Option.some.injEq] at hd1
                      subst hd1
                      by_cases e1 : i = addr - l.text
                      · rw [e1, Function.update_same] at hdi
                        exact Or.inl hdi.symm
                      · rw [Function.update_noteq e1] at hdi
                        exact Or.inr ⟨hp0, Or.inl ⟨d, i, hd, hi, hdi⟩⟩
                    · rw [hl1] at hm
                      exact Or.inr ⟨hp0, Or.inr hm⟩
              · simp [hlt] at h
            · simp only [hin, if_false] at h
              exact AddNewDynablock_hash_inv s s1 r addr blk c l hinv hl h
      · simp only [hb0, ne_eq, not_false_eq_true, if_true, Option.some.injEq,
          Prod.mk.injEq] at h
        rw [← h.1]
        exact hinv

/-- The call `NewDynablockList` preserves the invariant of the directory, `text` and
`textsz` being 32-bit words, and the region it creates holds no block. -/
theorem NewDynablockList_inv (s : State) (base text textsz nolinker direct : Nat)
    (hinv : DirectoryInv s) (ht : text < W32) (hz : textsz < W32) :
    DirectoryInv (NewDynablockList s base text textsz nolinker direct).1 := by
  intro r l hl
  have hlist : (NewDynablockList s base text textsz nolinker direct).1.list r =
      if r = 0 then none else if r = s.brk then
        some { text := text, textsz := textsz, base := base, nolinker := nolinker, blocks := [],
               direct := if direct ≠ 0 ∧ textsz ≠ 0 then some (fun _ => 0) else none }
      else s.list r := by
    have e : (NewDynablockList s base text textsz nolinker direct).1.list r =
        ({ s with brk := s.brk + 1 }.setList s.brk
          { text := text, textsz := textsz, base := base, nolinker := nolinker, blocks := [],
            direct := if direct ≠ 0 ∧ textsz ≠ 0 then some (fun _ => 0) else none }).list r :=
      rfl
    rw [e, State.list_setList]
    rfl
  rw [hlist] at hl
  by_cases hr0 : r = 0
  · simp [hr0] at hl
  · by_cases hr : r = s.brk
    · have hb0 : s.brk ≠ 0 := fun e => hr0 (hr.trans e)
      simp only [hr, hb0, if_false, if_true, Option.some.injEq] at hl
      subst hl
      refine ⟨ht, hz, ⟨List.nodup_nil, ?_⟩, ?_⟩
      · intro d hd
        have hd0 : ∀ i, d i = 0 := by
          intro i
          by_cases hc : direct ≠ 0 ∧ textsz ≠ 0
          · rw [if_pos hc] at hd
            cases hd
            rfl
          · rw [if_neg hc] at hd
            cases hd
        exact ⟨fun i _ _ _ hne _ => absurd (hd0 i) hne, fun i _ hne _ => absurd (hd0 i) hne⟩
      · intro p hp
        obtain ⟨hp0, hp1⟩ := hp
        rcases hp1 with ⟨d, i, hd, _, hdi⟩ | hm
        · by_cases hc : direct ≠ 0 ∧ textsz ≠ 0
          · rw [if_pos hc] at hd
            cases hd
            exact absurd hdi.symm hp0
          · rw [if_neg hc] at hd
            cases hd
        · simp at hm
    · simp only [hr0, hr, if_false] at hl
      have hl' : s.list r = some l := hl
      obtain ⟨t1, t2, t3, t4⟩ := hinv r l hl'
      refine ⟨t1, t2, t3, ?_⟩
      intro p hp
      obtain ⟨h1, b, h2, h3⟩ := t4 p hp
      exact ⟨Nat.lt_succ_of_lt h1, b, h2, h3⟩

theorem NoAlloc_refl (s : State) : NoAlloc s s := ⟨rfl, fun _ h => h⟩

theorem NoAlloc_trans (s s1 s2 : State) (h1 : NoAlloc s s1) (h2 : NoAlloc s1 s2) :
    NoAlloc s s2 :=
  ⟨h2.1.trans h1.1, fun q h => h2.2 q (h1.2 q h)⟩

theorem NoAlloc_of_lists (s s1 : State) (hb : s1.brk = s.brk) (hl : s1.lists = s.lists) :
    NoAlloc s s1 :=
  ⟨hb, fun q h => by rw [State.list_congr s s1 hl]; exact h⟩

theorem NoAlloc_setList (s : State) (r : Nat) (l l1 : dynablocklist_t)
    (hl : s.list r = some l) : NoAlloc s (s.setList r l1) := by
  refine ⟨rfl, fun q h => ?_⟩
  rw [State.list_setList]
  by_cases hq0 : q = 0
  · simp [hq0]
  · by_cases hq : q = r
    · rw [hq, hl] at h
      cases h
    · simp [hq0, hq, h]

/-- A loop of `FreeDynablock` over the outgoing slots that completes has
changed marks sets only. -/
theorem FreeDynablock_table_same (table : Nat) :
    ∀ (n i : Nat) (s s1 : State), FreeDynablock_table table n i s = some s1 →
      SameButMarks s s1
  | 0, _, s, s1, h => by
      simp only [FreeDynablock_table, Option.some.injEq] at h
      rw [← h]
      exact SameButMarks_refl s
  | n + 1, i, s, s1, h => by
      simp only [FreeDynablock_table] at h
      by_cases hc : s.words (table + 4 * (i + 3)) = 0
      · simp only [hc, ne_eq, not_true_eq_false, if_false] at h
        exact FreeDynablock_table_same table n (i + 4) s s1 h
      · simp only [hc, ne_eq, not_false_eq_true, if_true] at h
        cases hp : s.db (s.words (table + 4 * (i + 3))) with
        | none => simp [hp] at h
        | some p =>
            simp only [hp] at h
            cases hm : p.marks with
            | none =>
                simp only [hm] at h
                exact FreeDynablock_table_same table n (i + 4) s s1 h
            | some m =>
                simp only [hm] at h
                exact SameButMarks_trans _ _ _ (SameButMarks_setMarks s _ p _ hp)
                  (FreeDynablock_table_same table n (i + 4) _ s1 h)

/-- A loop of `FreeDynablock` over the sons that completes has changed regions
only, and allocated nothing. -/
theorem FreeDynablock_sons_frame (parent : Nat) :
    ∀ (sons : List Nat) (s s1 : State), FreeDynablock_sons parent sons s = some s1 →
      s1.dbs = s.dbs ∧ NoAlloc s s1
  | [], s, s1, h => by
      simp only [FreeDynablock_sons, Option.some.injEq] at h
      rw [← h]
      exact ⟨rfl, NoAlloc_refl s⟩
  | son :: rest, s, s1, h => by
      simp only [FreeDynablock_sons] at h
      by_cases h0 : son = 0
      · simp only [h0, ne_eq, not_true_eq_false, if_false] at h
        exact FreeDynablock_sons_frame parent rest s s1 h
      · simp only [h0, ne_eq, not_false_eq_true, if_true] at h
        cases hs : s.db son with
        | none => simp [hs] at h
        | some sn =>
            cases hl : s.list parent with
            | none => simp [hs, hl] at h
            | some l =>
                simp only [hs, hl] at h
                by_cases hin : l.text ≤ sn.x86_addr ∧ sn.x86_addr ≤ add32 l.text l.textsz
                · simp only [hin, and_self, if_true] at h
                  cases hd : l.direct with
                  | none => simp [hd] at h
                  | some d =>
                      simp only [hd] at h
                      unfold writeDirect at h
                      by_cases hlt : sn.x86_addr - l.text < l.textsz
                      · simp only [hlt, if_true] at h
                        obtain ⟨h1, h2⟩ := FreeDynablock_sons_frame parent rest _ s1 h
                        exact ⟨h1, NoAlloc_trans _ _ _ (NoAlloc_setList s parent l _ hl) h2⟩
                      · simp [hlt] at h
                · simp only [hin, if_false] at h
                  exact FreeDynablock_sons_frame parent rest s s1 h

/-- A call of `FreeDynablock` that completes has allocated nothing and has
freed no block but `db`. -/
theorem FreeDynablock_frame (ext : Extern) (s s1 : State) (db nolinker : Nat)
    (h : FreeDynablock ext s db nolinker = some s1) :
    NoAlloc s s1 ∧ ∀ p, p ≠ db → (s1.db p).isSome = (s.db p).isSome := by
  unfold FreeDynablock at h
  by_cases h0 : db = 0
  · simp only [h0, if_true, Option.some.injEq] at h
    rw [← h]
    exact ⟨NoAlloc_refl s, fun _ _ => rfl⟩
  · simp only [h0, if_false] at h
    cases hb : s.db db with
    | none => simp [hb] at h
    | some b =>
        simp only [hb] at h
        have hm : (FreeDynablock_marks ext s b).lists = s.lists ∧
            (FreeDynablock_marks ext s b).dbs = s.dbs ∧
            (FreeDynablock_marks ext s b).brk = s.brk := by
          unfold FreeDynablock_marks
          cases b.marks with
          | none => exact ⟨rfl, rfl, rfl⟩
          | some m =>
              exact ⟨(resetMarks_fields ext m s).1, (resetMarks_fields ext m s).2.1,
                (resetMarks_fields ext m s).2.2.1⟩
        cases ht : FreeDynablock_table b.table ((b.tablesz + 3) / 4) 0
            (FreeDynablock_marks ext s b) with
        | none => simp [ht] at h
        | some s2 =>
            simp only [ht] at h
            have hk2 := FreeDynablock_table_same _ _ _ _ _ ht
            cases hp : FreeDynablock_purge s2 b with
            | none => simp [hp] at h
            | some s3 =>
                simp only [hp, Option.some.injEq] at h
                have hk3 : s3.dbs = s2.dbs ∧ NoAlloc s2 s3 := by
                  unfold FreeDynablock_purge at hp
                  by_cases hlen : b.sons.length = 0
                  · simp only [hlen, ne_eq, not_true_eq_false, if_false, Option.some.injEq] at hp
                    rw [← hp]
                    exact ⟨rfl, NoAlloc_refl s2⟩
                  · simp only [hlen, ne_eq, not_false_eq_true, if_true] at hp
                    cases hl : s2.list b.parent with
                    | none => simp [hl] at hp
                    | some l =>
                        simp only [hl] at hp
                        by_cases hd : l.direct.isSome = true
                        · simp only [hd, if_true] at hp
                          exact FreeDynablock_sons_frame _ _ _ _ hp
                        · simp only [hd] at hp
                          simp only [Bool.false_eq_true, if_false, Option.some.injEq] at hp
                          rw [← hp]
                          exact ⟨rfl, NoAlloc_refl s2⟩
                have hna : NoAlloc s s3 :=
                  NoAlloc_trans _ _ _
                    (NoAlloc_of_lists s s2 (hk2.2.1.trans hm.2.2) (hk2.1.trans hm.1)) hk3.2
                refine ⟨?_, ?_⟩
                · rw [← h]
                  exact ⟨hna.1, hna.2⟩
                · intro p hp
                  have e1 : (s1.db p) = s3.db p := by
                    rw [← h]
                    unfold State.db State.log
                    by_cases hp0 : p = 0
                    · simp [hp0]
                    · simp [hp0, hp, Function.update]
                  have e2 : s3.db p = s2.db p := by simp [State.db, hk3.1]
                  have e3 : (s2.db p).isSome = ((FreeDynablock_marks ext s b).db p).isSome :=
                    SameButMarks_isSome _ _ hk2 p
                  have e4 : (FreeDynablock_marks ext s b).db p = s.db p := by
                    simp [State.db, hm.2.1]
                  rw [e1, e2, e3, e4]

/-- A loop of `FreeDirectDynablock` that completes has allocated nothing, and
a block it has freed was in the direct slot of an address it visited. -/
theorem FreeDirectDynablock_loop_freed (ext : Extern) (r : Nat) :
    ∀ (n i : Nat) (s s1 : State), FreeDirectDynablock_loop ext r n i s = some s1 →
      NoAlloc s s1 ∧
      ∀ p, (s.db p).isSome → (s1.db p).isSome ∨
        ∃ l d x, s.list r = some l ∧ l.direct = some d ∧ i ≤ x ∧ x < i + n ∧
          x - l.text < l.textsz ∧ d (x - l.text) = p
  | 0, i, s, s1, h => by
      simp only [FreeDirectDynablock_loop, Option.some.injEq] at h
      rw [← h]
      exact ⟨NoAlloc_refl s, fun _ hp => Or.inl hp⟩
  | n + 1, i, s, s1, h => by
      simp only [FreeDirectDynablock_loop] at h
      cases hl : s.list r with
      | none => simp [hl] at h
      | some l =>
        simp only [hl] at h
        cases hd : l.direct with
        | none => simp [hd] at h
        | some d =>
          simp only [hd] at h
          cases hrd : readDirect l.textsz d (i - l.text) with
          | none => simp [hrd] at h
          | some blk =>
            simp only [hrd] at h
            have hi : i - l.text < l.textsz ∧ d (i - l.text) = blk := by
              unfold readDirect at hrd
              by_cases hlt : i - l.text < l.textsz
              · exact ⟨hlt, by simpa [hlt] using hrd⟩
              · simp [hlt] at hrd
            -- the rest of the loop, from a state `sm` in which the direct slots of the
            -- region are those of `s`, or cleared
            have key : ∀ sm, NoAlloc s sm → Shrunk s sm →
                (∀ p, (s.db p).isSome → p ≠ blk → (sm.db p).isSome) →
                FreeDirectDynablock_loop ext r n (i + 1) sm = some s1 →
                NoAlloc s s1 ∧
                ∀ p, (s.db p).isSome → (s1.db p).isSome ∨
                  ∃ l0 d x, some l = some l0 ∧ l0.direct = some d ∧ i ≤ x ∧ x < i + (n + 1) ∧
                    x - l0.text < l0.textsz ∧ d (x - l0.text) = p := by
              intro sm hna hsh hlive hloop
              obtain ⟨hna2, hfr⟩ := FreeDirectDynablock_loop_freed ext r n (i + 1) sm s1 hloop
              refine ⟨NoAlloc_trans _ _ _ hna hna2, ?_⟩
              intro p hp
              by_cases hpb : p = blk
              · exact Or.inr ⟨l, d, i, rfl, hd, le_refl _, by omega, hi.1, hpb ▸ hi.2⟩
              · rcases hfr p (hlive p hp hpb) with h1 | ⟨lm, dm, x, hlm, hdm, hx1, hx2, hx3, hx4⟩
                · exact Or.inl h1
                · right
                  obtain ⟨lm', hlm', t1, t2, _, _, _, t6⟩ := hsh r l hl
                  rw [hlm] at hlm'
                  cases hlm'
                  simp only [hd, hdm] at t6
                  have hp0 : p ≠ 0 := by
                    intro e
                    simp [e, State.db] at hp
                  refine ⟨l, d, x, rfl, hd, by omega, by omega, by rw [← t1, ← t2]; exact hx3, ?_⟩
                  rcases t6 (x - lm.text) with h3 | h3
                  · rw [← t1, ← h3]
                    exact hx4
                  · rw [hx4] at h3
                    exact absurd h3 hp0
            by_cases hb0 : blk = 0
            · simp only [hb0, ne_eq, not_true_eq_false, if_false] at h
              exact key s (NoAlloc_refl s) (Shrunk_refl s) (fun _ hp _ => hp) h
            · simp only [hb0, ne_eq, not_false_eq_true, if_true] at h
              cases hdb : s.db blk with
              | none => simp [hdb] at h
              | some b =>
                simp only [hdb] at h
                cases hfr : (if b.father = 0 then FreeDynablock ext s blk l.nolinker
                    else some s) with
                | none => simp [hfr] at h
                | some sf =>
                  simp only [hfr] at h
                  have hsf : Shrunk s sf ∧ NoAlloc s sf ∧
                      ∀ p, p ≠ blk → (sf.db p).isSome = (s.db p).isSome := by
                    by_cases hfa : b.father = 0
                    · simp only [hfa, if_true] at hfr
                      exact ⟨FreeDynablock_shrunk ext s sf blk _ hfr,
                        (FreeDynablock_frame ext s sf blk _ hfr).1,
                        (FreeDynablock_frame ext s sf blk _ hfr).2⟩
                    · simp only [hfa, if_false, Option.some.injEq] at hfr
                      rw [← hfr]
                      exact ⟨Shrunk_refl s, NoAlloc_refl s, fun _ _ => rfl⟩
                  cases hlf : sf.list r with
                  | none => simp [hlf] at h
                  | some lf =>
                    simp only [hlf] at h
                    cases hdf : lf.direct with
                    | none => simp [hdf] at h
                    | some df =>
                      simp only [hdf] at h
                      unfold writeDirect at h
                      by_cases hlt : i - lf.text < lf.textsz
                      · simp only [hlt, if_true] at h
                        refine key _ (NoAlloc_trans _ _ _ hsf.2.1 (NoAlloc_setList sf r lf _ hlf))
                          (Shrunk_trans _ _ _ hsf.1 (Shrunk_clear sf r lf df _ hlf hdf)) ?_ h
                        intro p hp hpb
                        have : (sf.db p).isSome := by rw [hsf.2.2 p hpb]; exact hp
                        exact this
                      · simp [hlt] at h

/-- A call of `FreeDirectDynablock` that completes preserves the invariant of
the directory. -/
theorem FreeDirectDynablock_inv (ext : Extern) (s s1 : State) (r a n : Nat)
    (hinv : DirectoryInv s) (h : FreeDirectDynablock ext s r a n = some s1) :
    DirectoryInv s1 := by
  obtain ⟨hsh, hkept, _⟩ := FreeDirectDynablock_spec ext s s1 r a n h
  -- what the loop has freed
  have hfreed : NoAlloc s s1 ∧ ∀ p, (s.db p).isSome → (s1.db p).isSome ∨
      ∃ l d j, s.list r = some l ∧ l.direct = some d ∧ j < l.textsz ∧ d j = p ∧
        ∀ l1 d1, s1.list r = some l1 → l1.direct = some d1 → d1 j = 0 := by
    unfold FreeDirectDynablock at h
    by_cases hr0 : r = 0
    · simp only [hr0, if_true, Option.some.injEq] at h
      rw [← h]
      exact ⟨NoAlloc_refl s, fun _ hp => Or.inl hp⟩
    · simp only [hr0, if_false] at h
      cases hl : s.list r with
      | none => simp [hl] at h
      | some l =>
          simp only [hl] at h
          by_cases hc : (if add32 a n > add32 l.text l.textsz then add32 l.text l.textsz
              else add32 a n) > l.text ∧
              (if a < l.text then l.text else a) < add32 l.text l.textsz
          · simp only [hc, and_self, if_true] at h
            obtain ⟨hna, hfr⟩ := FreeDirectDynablock_loop_freed ext r _ _ s s1 h
            obtain ⟨_, hz⟩ := FreeDirectDynablock_loop_spec ext r _ _ s s1 h
            refine ⟨hna, fun p hp => ?_⟩
            rcases hfr p hp with h1 | ⟨l0, d, x, hl0, hd, hx1, hx2, hx3, hx4⟩
            · exact Or.inl h1
            · right
              rw [hl] at hl0
              cases hl0
              refine ⟨l, d, x - l.text, rfl, hd, hx3, hx4, ?_⟩
              intro l1 d1 hl1 hd1
              obtain ⟨l1', hl1', t1, _⟩ := hsh r l hl
              rw [hl1] at hl1'
              cases hl1'
              have := hz l1 d1 hl1 hd1 x hx1 hx2 (by rw [t1]; split_ifs <;> omega)
              rw [t1] at this
              exact this
          · simp only [hc, if_false, Option.some.injEq] at h
            rw [← h]
            exact ⟨NoAlloc_refl s, fun _ hp => Or.inl hp⟩
  obtain ⟨hna, hfr⟩ := hfreed
  intro r' l1 hl1
  cases hl : s.list r' with
  | none =>
      rw [hna.2 r' hl] at hl1
      cases hl1
  | some l =>
      obtain ⟨l1', hl1', t1, t2, _, _, t5, t6⟩ := hsh r' l hl
      rw [hl1] at hl1'
      cases hl1'
      obtain ⟨hT, hZ, ⟨hn, hdir⟩, hown⟩ := hinv r' l hl
      -- a block held after the call was held before it
      have hheld : ∀ p, Holds l1 p → Holds l p := by
        intro p hp
        obtain ⟨hp0, hp1⟩ := hp
        rcases hp1 with ⟨d1, i, hd1, hi, hdi⟩ | hm
        · cases hd : l.direct with
          | none => simp [hd, hd1] at t6
          | some d =>
              simp only [hd, hd1] at t6
              rcases t6 i with h3 | h3
              · exact ⟨hp0, Or.inl ⟨d, i, hd, by rw [← t2]; exact hi, by rw [← h3]; exact hdi⟩⟩
              · rw [hdi] at h3
                exact absurd h3 hp0
        · rw [t5] at hm
          exact ⟨hp0, Or.inr hm⟩
      refine ⟨by rw [t1]; exact hT, by rw [t2]; exact hZ, ⟨by rw [t5]; exact hn, ?_⟩, ?_⟩
      · intro d1 hd1
        cases hd : l.direct with
        | none => simp [hd, hd1] at t6
        | some d =>
            simp only [hd, hd1] at t6
            obtain ⟨hinj, hdis⟩ := hdir d hd
            have hsame : ∀ i, d1 i ≠ 0 → d1 i = d i := by
              intro i hne
              rcases t6 i with h3 | h3
              · exact h3
              · exact absurd h3 hne
            rw [t2, t5]
            refine ⟨?_, ?_⟩
            · intro i j hi hj hne hij
              have e1 := hsame i hne
              have e2 := hsame j (hij ▸ hne)
              exact hinj i j hi hj (e1 ▸ hne) (by rw [← e1, ← e2]; exact hij)
            · intro i hi hne hm
              have e1 := hsame i hne
              rw [e1] at hm
              exact hdis i hi (e1 ▸ hne) hm
      · intro p hp
        have hp' := hheld p hp
        obtain ⟨hlt, b, hb, hpar⟩ := hown p hp'
        refine ⟨by rw [hna.1]; exact hlt, ?_⟩
        rcases hfr p (by rw [hb]; rfl) with hlive | ⟨lr, d, j, hlr, hd, hj, hdj, hzero⟩
        · obtain ⟨b1, hb1⟩ := Option.isSome_iff_exists.mp hlive
          obtain ⟨b0, hb0, e⟩ := hkept.2 p b1 hb1
          rw [hb] at hb0
          cases hb0
          exact ⟨b1, hb1, by rw [e]; exact hpar⟩
        · -- the block was freed: it was in a slot of `r` that is cleared
          exfalso
          have hp0 := hp.1
          obtain ⟨_, _, ⟨_, hdirr⟩, hownr⟩ := hinv r lr hlr
          obtain ⟨_, b', hb', hpar'⟩ := hownr p ⟨hp0, Or.inl ⟨d, j, hd, hj, hdj⟩⟩
          rw [hb] at hb'
          cases hb'
          have hrr : r' = r := by rw [← hpar, hpar']
          subst hrr
          rw [hl] at hlr
          cases hlr
          obtain ⟨hinj, hdis⟩ := hdirr d hd
          cases hd1 : l1.direct with
          | none => simp [hd, hd1] at t6
          | some d1 =>
              have hz := hzero l1 d1 hl1 hd1
              rcases hp.2 with ⟨d1', i, hd1', hi, hdi⟩ | hm
              · rw [hd1] at hd1'
                cases hd1'
                simp only [hd, hd1] at t6
                have hdi' : d i = p := by
                  rcases t6 i with h3 | h3
                  · rw [← h3]; exact hdi
                  · rw [hdi] at h3
                    exact absurd h3 hp0
                have hij := hinj i j (by rw [← t2]; exact hi) hj (by rw [hdi']; exact hp0)
                  (by rw [hdi', hdj])
                rw [hij, hz] at hdi
                exact hp0 hdi.symm
              · rw [t5] at hm
                exact hdis j hj (by rw [hdj]; exact hp0) (by rw [hdj]; exact hm)

theorem DirectoryInv_emptyState : DirectoryInv emptyState := by
  intro r l hl
  simp [emptyState, State.list] at hl

/-- The invariant of the directory along a run: in `directRegion`,
`AddNewDynablock` at `0x1040` completes and creates block 2, then
`FreeDirectDynablock(region, 0x1040, 1)` completes and frees it; the invariant
holds after each call. -/
theorem DirectoryInv_along_run :
    ∃ s1 s2, AddNewDynablock directRegion 1 0x1040 = some (s1, 2, 1) ∧
      FreeDirectDynablock (simpleExt 1) s1 1 0x1040 1 = some s2 ∧
      probe s1 1 0x1040 = some 2 ∧ probe s2 1 0x1040 = some 0 ∧
      DirectoryInv s1 ∧ DirectoryInv s2 := by
  have hev : (AddNewDynablock directRegion 1 0x1040).map
      (fun res => (res.2.1, res.2.2, probe res.1 1 0x1040,
        (FreeDirectDynablock (simpleExt 1) res.1 1 0x1040 1).map
          (fun s2 => probe s2 1 0x1040))) = some (2, 1, some 2, some (some 0)) := by
    decide
  have h0 : DirectoryInv directRegion :=
    NewDynablockList_inv emptyState 0x1000 0x1000 0x100 0 1 DirectoryInv_emptyState
      (by decide) (by decide)
  cases h1 : AddNewDynablock directRegion 1 0x1040 with
  | none =>
      rw [h1] at hev
      cases hev
  | some res =>
      obtain ⟨s1, blk, c⟩ := res
      rw [h1] at hev
      simp only [Option.map_some', Option.some.injEq, Prod.mk.injEq] at hev
      obtain ⟨e1, e2, e3, e4⟩ := hev
      subst e1
      subst e2
      cases h2 : FreeDirectDynablock (simpleExt 1) s1 1 0x1040 1 with
      | none =>
          rw [h2] at e4
          cases e4
      | some s2 =>
          rw [h2] at e4
          simp only [Option.map_some', Option.some.injEq] at e4
          have i1 := AddNewDynablock_inv directRegion s1 1 0x1040 _ _ h0 h1
          exact ⟨s1, s2, rfl, h2, e3, e4, i1,
            FreeDirectDynablock_inv (simpleExt 1) s1 s2 1 0x1040 1 i1 h2⟩

/-- C18: the invariant of the directory.  In a state in which every region
holds each of its blocks in one place (one slot of the direct array or one
entry of the hash, never both nor two), every block held being live with the
region as its parent, each operation of the directory leads to a state of the
same kind: `NewDynablockList` (given 32-bit `text` and `textsz`),
`ConvertHash2Direct` on a live region (which completes), and every call of
`AddNewDynablock` and of `FreeDirectDynablock` that completes. -/
theorem DirectoryInv_preserved (ext : Extern) (s : State) (hinv : DirectoryInv s) :
    (∀ base text textsz nolinker direct, text < W32 → textsz < W32 →
      DirectoryInv (NewDynablockList s base text textsz nolinker direct).1) ∧
    (∀ r addr s1 blk created, AddNewDynablock s r addr = some (s1, blk, created) →
      DirectoryInv s1) ∧
    (∀ r, (s.list r).isSome → ∃ s1, ConvertHash2Direct s r = some s1 ∧ DirectoryInv s1) ∧
    (∀ r a n s1, FreeDirectDynablock ext s r a n = some s1 → DirectoryInv s1) := by
  refine ⟨?_, ?_, ?_, ?_⟩
  · intro base text textsz nolinker direct ht hz
    exact NewDynablockList_inv s base text textsz nolinker direct hinv ht hz
  · intro r addr s1 blk created h
    exact AddNewDynablock_inv s s1 r addr blk created hinv h
  · intro r hr
    obtain ⟨s1, h1, h2, _⟩ := ConvertHash2Direct_inv s r hinv hr
    exact ⟨s1, h1, h2⟩
  · intro r a n s1 h
    exact FreeDirectDynablock_inv ext s s1 r a n hinv h

/-- C18 at the region `[0x1000, 0x1100)` with a direct array (`directRegion`),
which satisfies the invariant as `NewDynablockList` made it from the empty
state. -/
theorem DirectoryInv_preserved_witness :
    DirectoryInv directRegion ∧
    ((∀ base text textsz nolinker direct, text < W32 → textsz < W32 →
      DirectoryInv (NewDynablockList directRegion base text textsz nolinker direct).1) ∧
    (∀ r addr s1 blk created, AddNewDynablock directRegion r addr = some (s1, blk, created) →
      DirectoryInv s1) ∧
    (∀ r, (directRegion.list r).isSome →
      ∃ s1, ConvertHash2Direct directRegion r = some s1 ∧ DirectoryInv s1) ∧
    (∀ r a n s1, FreeDirectDynablock (simpleExt 1) directRegion r a n = some s1 →
      DirectoryInv s1)) :=
  ⟨NewDynablockList_inv emptyState 0x1000 0x1000 0x100 0 1 DirectoryInv_emptyState
      (by decide) (by decide),
    DirectoryInv_preserved (simpleExt 1) directRegion
      (NewDynablockList_inv emptyState 0x1000 0x1000 0x100 0 1 DirectoryInv_emptyState
        (by decide) (by decide))⟩
/-- When the range of keys `[text - base, text - base + textsz)` wraps, the
range `[start, end)` of `ConvertHash2Direct` is empty. -/
theorem key_range_empty (T Z B : Nat) (hZ : Z < W32) (hs : W32 ≤ sub32 T B + Z) :
    sub32 (add32 T Z) B ≤ sub32 T B := by
  unfold sub32 add32 W32 at *
  omega

/-- The converse of the condition of `AddNewDynablock_promotes`: when the range
of keys wraps, `(text - base) mod 2^32 + textsz >= 2^32` (`textsz` being a
32-bit word), the conversion that the `MAGIC_SIZE`-th insertion makes moves no
block: every slot of the direct array is `NULL`, and every block created is in
the hash. -/
theorem AddNewDynablock_promotes_nothing (s : State) (base text textsz nolinker : Nat)
    (addrs : List Nat) (hbrk : s.brk ≠ 0) (hz : textsz ≠ 0) (ht : text ≠ 0)
    (hZ : textsz < W32) (hs : W32 ≤ sub32 text base + textsz) (hnd : addrs.Nodup)
    (hlt : ∀ a ∈ addrs, a < W32) (hfull : addrs.length = MAGIC_SIZE) :
    ∃ s1 bs l1 d,
      AddNewDynablock_all (NewDynablockList s base text textsz nolinker 0).2 addrs
        (NewDynablockList s base text textsz nolinker 0).1 = some (s1, bs) ∧
      bs.length = addrs.length ∧ (∀ p ∈ bs, p.1 ≠ 0 ∧ p.2 = 1) ∧
      s1.list (NewDynablockList s base text textsz nolinker 0).2 = some l1 ∧
      l1.direct = some d ∧ (∀ i, d i = 0) ∧
      ∀ p ∈ addrs.zip bs, kh_get l1.blocks (sub32 p.1 base) = some p.2.1 := by
  obtain ⟨hr, hb0, hl0⟩ := NewDynablockList_hash s base text textsz nolinker hbrk
  rw [hr]
  generalize (NewDynablockList s base text textsz nolinker 0).1 = s0 at hb0 hl0
  have hkeys := map_key_nodup base addrs hnd hlt
  obtain ⟨s2, bs, entries, d1, b1, hall, hlen2, hpos, hl2, htr, hnd1, hmem⟩ :=
    AddNewDynablock_all_full s0 s.brk _ addrs hl0 rfl rfl (by omega) hz ht hkeys hfull
  simp only at htr hmem
  have hempty := key_range_empty text textsz base hZ hs
  obtain ⟨hA, _⟩ := ConvertHash2Direct_transfer_held _ _ _ _ _ _ _ _ htr
  have hH := ConvertHash2Direct_transfer_hash _ _ _ _ _ _ _ _ htr
  refine ⟨s2, bs, _, d1, hall, hlen2, hpos, hl2, rfl, ?_, ?_⟩
  · intro i
    rcases hA i with h1 | ⟨k, _, h2, h3, _⟩
    · exact h1
    · omega
  · intro p hp
    rw [hH]
    have hne : ¬ (sub32 text base ≤ sub32 p.1 base ∧
        sub32 p.1 base < sub32 (add32 text textsz) base) := by
      intro h
      omega
    simp only [kh_get, hne, if_false]
    exact kh_get_of_mem entries hnd1 _ _ (hmem p hp)


/-! ## Theorems: lookups in a region that ends at `2^32`, and under a freed father -/

/-- C9: in the region `[0xFFFFFF00, 2^32)` without direct array, block 2 is in
the hash under the key `0x10` and the lookup of `0xFFFFFF10` finds it.
`ConvertHash2Direct` moves it to `direct[0x10]`, and the lookup of
`0xFFFFFF10` finds nothing: the test `addr < text + textsz` of the lookup
compares with the 32-bit sum, which is 0. -/
theorem ConvertHash2Direct_loses_block :
    probe topRegionOne 1 0xFFFFFF10 = some 2 ∧
    (ConvertHash2Direct topRegionOne 1).map
      (fun s1 => (probe s1 1 0xFFFFFF10,
        (s1.list 1).map (fun l => (l.blocks, l.direct.map (fun d => d 0x10))))) =
      some (some 0, some ([], some 2)) := by
  decide

set_option maxRecDepth 1000000 in
/-- C4: two runs in which the second lookup does not return the block of the
first.  In `topRegionFull`, the region `[0xFFFFFF00, 2^32)` without direct
array whose hash holds 255 blocks, `DBGetBlock(emu, 0xFFFFFFFF, 1, NULL)`
creates block 257, with `need_test` clear, and the region gets its direct
array; in the state it leaves, `DBGetBlock(emu, 0xFFFFFFFF, 0, NULL)` returns
`NULL`, and `DBGetBlock(emu, 0xFFFFFFFF, 1, NULL)` creates block 258 and calls
`FillBlock` again.  In `sonInHash`, `DBGetBlock(emu, 0x1200, 1, NULL)` finds
the son, block 3, frees its father, block 2, whose guest bytes changed, and
returns block 3, with `need_test` clear and `father` still naming block 2; in
the state it leaves, `DBGetBlock(emu, 0x1200, 0, NULL)` reads the freed father
and has no defined result. -/
theorem DBGetBlock_again_fails :
    ((topRegionFull.list 1).map (fun l => (l.direct.isNone, l.blocks.length)) =
        some (true, 255) ∧
      (DBGetBlock (simpleExt 1) topRegionFull 0xFFFFFFFF 1 0).map
        (fun r => (r.2, (r.1.db r.2).map (fun b => b.need_test))) = some (257, some 0) ∧
      (topRegionAsked.list 1).map (fun l => l.direct.isSome) = some true ∧
      (DBGetBlock (simpleExt 1) topRegionAsked 0xFFFFFFFF 0 0).map (fun q => q.2) = some 0 ∧
      (DBGetBlock (simpleExt 1) topRegionAsked 0xFFFFFFFF 1 0).map
        (fun q => (q.2, q.1.trace.getLast?)) =
        some (258, some (Event.FillBlock 258 0xFFFFFFFF))) ∧
    ((DBGetBlock (simpleExt 1) sonInHash 0x1200 1 0).map
        (fun r => (r.2, (r.1.db r.2).map (fun b => (b.need_test, b.father)))) =
        some (3, some (0, 2)) ∧
      (sonInHashAsked.db 2).isSome = false ∧
      (DBGetBlock (simpleExt 1) sonInHashAsked 0x1200 0 0).isNone = true) := by
  refine ⟨⟨?_, ?_, ?_, ?_, ?_⟩, ?_, ?_, ?_⟩ <;> decide


/-! ## Theorems: the slots of a freed block -/

end Dynablock
